import Mathlib

/-!
The scene graph of `skene.hpp`: a tree of owned nodes.

A shallow embedding of `skene<D>` and `skene<D>::node` from `src/skene.hpp`.

Node objects live in a store indexed by address.  A `node` holds its child
sequence (`std::list<node>`, kept here as the sequence of the children's
addresses, since `operator==` on nodes is address identity), the raw
`_parent_node` pointer, the payload `_data`, the `_scene` reference and the
`_transform` triple.  The scalar type of `glm::vec3` is a parameter `F`.

Recursive member functions walk pointers, so their embeddings take a step
budget; running out of budget is reported as `none` / `Fault.hang` and the
theorems below show that a budget of at least the height of the tree is enough.
-/

namespace Skene

/-! ## Data model -/

/-- The `glm::vec3` of three scalars. -/
structure vec3 (F : Type) where
  x : F
  y : F
  z : F
deriving DecidableEq

/-- The constructor `glm::vec3(s)`: all three components equal to `s`. -/
def vec3.splat {F : Type} (s : F) : vec3 F := ⟨s, s, s⟩

/-- The anonymous struct behind `node::_transform`. -/
structure transform (F : Type) where
  _translate : vec3 F
  _rotate : vec3 F
  _scale : vec3 F
deriving DecidableEq

/-- The class `skene<D>::node`.  `_children` lists the addresses of the owned
children in sequence order, `_parent_node` is the raw back pointer
(`none` is `nullptr`), `_scene` identifies the owning `skene` object by the
address of its `_root` member. -/
structure node (F D : Type) where
  _children : List Nat
  _parent_node : Option Nat
  _data : D
  _scene : Nat
  _transform : transform F
deriving DecidableEq

/-- The object store: cell `a` holds the node living at address `a`. -/
abbrev Heap (F D : Type) : Type := List (Option (node F D))

/-- Dereference of a node pointer. -/
def load {F D : Type} (h : Heap F D) (a : Nat) : Option (node F D) :=
  h.getD a none

/-- Overwrite the object at address `a`. -/
def store {F D : Type} (h : Heap F D) (a : Nat) (n : node F D) : Heap F D :=
  h.set a (some n)

/-- The ways a member function can fail to return. -/
inductive Fault where
  /-- The check `assert(this != child._parent_node)` fired. -/
  | assert_parent
  /-- The check `assert(&(_scene) == &(child._scene))` fired. -/
  | assert_scene
  /-- The check `assert(parentage != &(child))` fired. -/
  | assert_parentage
  /-- A null or dangling pointer was dereferenced, or `splice` got `end()`. -/
  | wild
  /-- The step budget ran out. -/
  | hang
  /-- The check `PAL_STUB_ASSUME((not_root()) || glm::mat4() == local, ...)` failed. -/
  | assume
  /-- The check `assert(not_root())` fired. -/
  | assert_not_root
  /-- An element erased itself from the list that was destroying it: the object
  is destroyed and released a second time. -/
  | destroyed_twice
deriving DecidableEq

/-! ## Construction -/

/-- The private constructor `node(scene, parent, args...)`: payload from the
arguments, no children, transform reset to translate 0, rotate 0, scale 1. -/
def node.ctor {F D : Type} [Zero F] [One F] (scene : Nat) (parent : Option Nat) (args : D) :
    node F D :=
  { _children := []
    _parent_node := parent
    _data := args
    _scene := scene
    _transform := ⟨vec3.splat 0, vec3.splat 0, vec3.splat 1⟩ }

/-- The constructor `skene(args...)`: the `_root` member is built by
`_root(*this, nullptr, args...)` at a fresh address, which is returned. -/
def skene.ctor {F D : Type} [Zero F] [One F] (h : Heap F D) (args : D) : Heap F D × Nat :=
  (h ++ [some (node.ctor h.length none args)], h.length)

/-- The member `node& append(ARGS&&...args)`: `_children.emplace_back(*this, args...)`
builds the child through `node(parent, args...)`, that is
`node(parent._scene, &parent, args...)`, at a fresh address; the result is
`_children.back()`. -/
def node.append_args {F D : Type} [Zero F] [One F] (h : Heap F D) (this : Nat) (args : D) :
    Option (Heap F D × Nat) :=
  match load h this with
  | none => none
  | some n =>
    let c := h.length
    let h1 := h ++ [some (node.ctor n._scene (some this) args)]
    some (store h1 this { n with _children := n._children ++ [c] }, c)

/-- The query `is_leaf`: `_children.empty()`. -/
def node.is_leaf {F D : Type} (n : node F D) : Bool := n._children.isEmpty

/-- The query `is_root`: `nullptr == _parent_node`. -/
def node.is_root {F D : Type} (n : node F D) : Bool := n._parent_node.isNone

/-- The query `not_root`: `nullptr != _parent_node`. -/
def node.not_root {F D : Type} (n : node F D) : Bool := n._parent_node.isSome

/-! ## foldPull -/

/-- One call `merge(user, *this, _data, leaf)`.  The callee receives the user
state by reference (`I&`), the node read-only (`const node&`, here its address
and contents) and the payload by reference (`D&`); it hands back the new user
state, the new payload and the result. -/
def callMerge {F D I R : Type} (merge : I → Nat → node F D → D → R → I × D × R)
    (h : Heap F D) (this : Nat) (user : I) (leaf : R) : Option (Heap F D × I × R) :=
  match load h this with
  | none => none
  | some n =>
    let out := merge user this n n._data leaf
    some (store h this { n with _data := out.2.1 }, out.1, out.2.2)

/-- The loop `for (it = begin; (++it) != end;) result = (*it).foldPull(user, result, merge)`
over the remaining children, `body` being the recursive call. -/
def foldLoop {F D I R : Type} (body : Heap F D → Nat → I → R → Option (Heap F D × I × R)) :
    List Nat → Heap F D → I → R → Option (Heap F D × I × R)
  | [], h, user, result => some (h, user, result)
  | it :: rest, h, user, result =>
    match body h it user result with
    | none => none
    | some st => foldLoop body rest st.1 st.2.1 st.2.2

/-- The member `R foldPull(I& user, const R& leaf, merge)`. -/
def node.foldPull {F D I R : Type} (merge : I → Nat → node F D → D → R → I × D × R) :
    Nat → Heap F D → Nat → I → R → Option (Heap F D × I × R)
  | 0, _, _, _, _ => none
  | fuel + 1, h, this, user, leaf =>
    match load h this with
    | none => none
    | some n =>
      match n._children with
      | [] => callMerge merge h this user leaf
      | front :: rest =>
        match node.foldPull merge fuel h front user leaf with
        | none => none
        | some st =>
          match foldLoop (fun h1 it u r => node.foldPull merge fuel h1 it u r) rest
              st.1 st.2.1 st.2.2 with
          | none => none
          | some st1 => callMerge merge st1.1 this st1.2.1 st1.2.2

/-! ## visit -/

/-- One call `callback(n)`.  The callback is a `std::function<bool(node&)>`:
it carries its own captured state `S`, sees the node, may write the public
members `_data` and `_transform`, and answers with a `bool`.  The private
members `_children` and `_parent_node` are out of its reach. -/
def callBack {F D S : Type} (callback : S → Nat → node F D → S × D × transform F × Bool)
    (h : Heap F D) (s : S) (a : Nat) : Option (Heap F D × S × Bool) :=
  match load h a with
  | none => none
  | some n =>
    let out := callback s a n
    some (store h a { n with _data := out.2.1, _transform := out.2.2.1 }, out.1, out.2.2.2)

/-- A range-based loop `for (auto& next : children) body(next)`; the calls made
by the successive bodies are logged one after the other. -/
def forEach {F D S : Type}
    (body : Heap F D → S → Nat → Option (Heap F D × S × List (Nat × Bool))) :
    List Nat → Heap F D → S → Option (Heap F D × S × List (Nat × Bool))
  | [], h, s => some (h, s, [])
  | next :: rest, h, s =>
    match body h s next with
    | none => none
    | some st =>
      match forEach body rest st.1 st.2.1 with
      | none => none
      | some st1 => some (st1.1, st1.2.1, st.2.2 ++ st1.2.2)

/-- The local function `nested::recursion(callback, root)` of `visit`.  The
third component of the result logs every callback invocation, in order, as
the node it was made on and the answer it gave. -/
def recursion {F D S : Type} (callback : S → Nat → node F D → S × D × transform F × Bool) :
    Nat → Heap F D → S → Nat → Option (Heap F D × S × List (Nat × Bool))
  | 0, _, _, _ => none
  | fuel + 1, h, s, root =>
    match callBack callback h s root with
    | none => none
    | some st =>
      if st.2.2 = false then some (st.1, st.2.1, [(root, false)])
      else
        match load st.1 root with
        | none => none
        | some n =>
          match forEach (fun h1 s1 next => recursion callback fuel h1 s1 next) n._children
              st.1 st.2.1 with
          | none => none
          | some st1 => some (st1.1, st1.2.1, (root, true) :: st1.2.2)

/-- The member `void skene::visit(callback)`; `scene` is the address of `_root`. -/
def skene.visit {F D S : Type} (callback : S → Nat → node F D → S × D × transform F × Bool)
    (fuel : Nat) (h : Heap F D) (scene : Nat) (s : S) :
    Option (Heap F D × S × List (Nat × Bool)) :=
  match load h scene with
  | none => none
  | some n => forEach (fun h1 s1 root => recursion callback fuel h1 s1 root) n._children h s

/-! ## Reparenting -/

/-- The loop
`for (parentage = _parent_node; nullptr != parentage; parentage = parentage->_parent_node)
   assert(parentage != &(child));` -/
def parentageLoop {F D : Type} (h : Heap F D) (child : Nat) :
    Nat → Option Nat → Except Fault Unit
  | _, none => .ok ()
  | 0, some _ => .error .hang
  | fuel + 1, some parentage =>
    if parentage = child then .error .assert_parentage
    else
      match load h parentage with
      | none => .error .wild
      | some n => parentageLoop h child fuel n._parent_node

/-- The member `void append(node& child)`.  After the three checks, `std::find`
locates `child` in its parent's list, `splice` unlinks it there and links it
at the end of `this->_children`, and the parent pointer is redirected. -/
def node.append {F D : Type} (fuel : Nat) (h : Heap F D) (this child : Nat) :
    Except Fault (Heap F D) :=
  match load h this, load h child with
  | some nt, some nc =>
    if nc._parent_node = some this then .error .assert_parent
    else if nt._scene ≠ nc._scene then .error .assert_scene
    else
      match parentageLoop h child fuel nt._parent_node with
      | .error e => .error e
      | .ok () =>
        match nc._parent_node with
        | none => .error .wild
        | some p =>
          match load h p with
          | none => .error .wild
          | some np =>
            if child ∈ np._children then
              let h1 := store h p { np with _children := np._children.erase child }
              match load h1 this with
              | none => .error .wild
              | some nt1 =>
                let h2 := store h1 this { nt1 with _children := nt1._children ++ [child] }
                match load h2 child with
                | none => .error .wild
                | some nc2 => .ok (store h2 child { nc2 with _parent_node := some this })
            else .error .wild
  | _, _ => .error .wild

/-- The store that `append(node&)` leaves when it completes on distinct nodes:
`child` unlinked from the list of its parent `p`, linked at the end of the
list of `this`, and its parent pointer redirected to `this`. -/
def reparented {F D : Type} (h : Heap F D) (this child p : Nat) (nt nc np : node F D) :
    Heap F D :=
  store (store (store h p { np with _children := np._children.erase child })
    this { nt with _children := nt._children ++ [child] })
    child { nc with _parent_node := some this }

/-! ## The scenario of the specification -/

/-- The scene `root = 0`. -/
def demo0 : Heap Int Int := (skene.ctor [] 0).1

/-- After `A = root.append(1)`. -/
def demo1 : Heap Int Int := ((node.append_args demo0 0 1).map Prod.fst).getD []

/-- After `B = A.append(2)`. -/
def demo2 : Heap Int Int := ((node.append_args demo1 1 2).map Prod.fst).getD []

/-- After `C = A.append(3)`: root at 0, A at 1, B at 2, C at 3. -/
def demo : Heap Int Int := ((node.append_args demo2 1 3).map Prod.fst).getD []

/-- The merge of the scenario: accumulator plus payload, nothing written. -/
def sumMerge {F : Type} (user : Unit) (_this : Nat) (_n : node F Int) (data : Int) (leaf : Int) :
    Unit × Int × Int :=
  (user, data, leaf + data)

/-- A callback that answers `true` everywhere and writes nothing. -/
def yes {F D : Type} (s : Unit) (_a : Nat) (n : node F D) : Unit × D × transform F × Bool :=
  (s, n._data, n._transform, true)

/-- A callback that answers `false` on the node at address `x`, `true`
elsewhere, and writes nothing. -/
def stopAt {F D : Type} (x : Nat) (s : Unit) (a : Nat) (n : node F D) :
    Unit × D × transform F × Bool :=
  (s, n._data, n._transform, decide (a ≠ x))

/-- The scenario after `root.append(B)`: root owns A and B, A owns C. -/
def demoMoved : Heap Int Int := (node.append 3 demo 0 2).toOption.getD []

/-- The node C of the scenario, as `A.append(3)` built it. -/
def demoC : node Int Int := node.ctor 0 (some 1) 3

/-! ## Ownership trees

The shape that a store is expected to have: every node owns the nodes of its
child sequence, which own theirs in turn. -/

/-- A finite tree of addresses: a node and the trees of its children, in
child-sequence order. -/
inductive OTree where
  | mk : Nat → List OTree → OTree

/-- The address at the top of the tree. -/
def OTree.addr : OTree → Nat
  | .mk a _ => a

/-- The trees of the children, in sequence order. -/
def OTree.kids : OTree → List OTree
  | .mk _ ks => ks

mutual
/-- Pre-order listing: the node, then its children from left to right. -/
def OTree.pre : OTree → List Nat
  | .mk a ks => a :: preList ks
/-- Pre-order listing of a sequence of trees. -/
def preList : List OTree → List Nat
  | [] => []
  | t :: ts => t.pre ++ preList ts
end

mutual
/-- Post-order listing: the children from left to right, then the node. -/
def OTree.post : OTree → List Nat
  | .mk a ks => postList ks ++ [a]
/-- Post-order listing of a sequence of trees. -/
def postList : List OTree → List Nat
  | [] => []
  | t :: ts => t.post ++ postList ts
end

mutual
/-- Number of levels of the tree; a leaf has one. -/
def OTree.height : OTree → Nat
  | .mk _ ks => heightList ks + 1
/-- The largest height in a sequence of trees. -/
def heightList : List OTree → Nat
  | [] => 0
  | t :: ts => max t.height (heightList ts)
end

mutual
/-- All subtrees, the tree itself first. -/
def OTree.subtrees : OTree → List OTree
  | .mk a ks => .mk a ks :: subtreesList ks
/-- All subtrees of a sequence of trees. -/
def subtreesList : List OTree → List OTree
  | [] => []
  | t :: ts => t.subtrees ++ subtreesList ts
end

mutual
/-- The tree without the children at address `b`, at every level. -/
def OTree.prune (b : Nat) : OTree → OTree
  | .mk a ks => .mk a (pruneList b ks)
/-- A sequence of trees without those at address `b`, the others pruned. -/
def pruneList (b : Nat) : List OTree → List OTree
  | [] => []
  | t :: ts => if t.addr = b then pruneList b ts else t.prune b :: pruneList b ts
end

mutual
/-- The tree with `s` added as the last child of the node at address `a`. -/
def OTree.graft (a : Nat) (s : OTree) (t : OTree) : OTree :=
  match t with
  | .mk x ks => .mk x (graftList a s ks ++ if x = a then [s] else [])
termination_by structural t
/-- Grafting in every tree of a sequence. -/
def graftList (a : Nat) (s : OTree) (ts : List OTree) : List OTree :=
  match ts with
  | [] => []
  | t :: ts => OTree.graft a s t :: graftList a s ts
termination_by structural ts
end

mutual
/-- The store holds the tree `t` below the parent pointer `p`: the node at the
top of `t` is live, its `_parent_node` is `p`, its `_children` are the tops of
the children of `t`, and these are held below it in turn. -/
def Realizes {F D : Type} (h : Heap F D) : Option Nat → OTree → Prop
  | p, .mk a ks =>
    ∃ n, load h a = some n ∧ n._parent_node = p ∧ n._children = ks.map OTree.addr ∧
      RealizesAll h a ks
/-- Every tree of the sequence is held below the parent `a`. -/
def RealizesAll {F D : Type} (h : Heap F D) : Nat → List OTree → Prop
  | _, [] => True
  | a, t :: ts => Realizes h (some a) t ∧ RealizesAll h a ts
end

/-- A well-formed scene: the store holds the tree `t` below the root `_root` of
the scene (no parent), no node occurs twice in it, and the live nodes that
refer to this scene are exactly the nodes of `t`. -/
def WellFormed {F D : Type} (h : Heap F D) (scene : Nat) (t : OTree) : Prop :=
  t.addr = scene ∧ Realizes h none t ∧ t.pre.Nodup ∧
    ∀ a n, load h a = some n → (n._scene = scene ↔ a ∈ t.pre)

/-- The node `c` is in the child sequence of the node `p`. -/
def isChild {F D : Type} (h : Heap F D) (p c : Nat) : Prop :=
  ∃ n, load h p = some n ∧ c ∈ n._children

/-- In the ownership graph `d` is a proper descendant of `a`, and `a` a proper
ancestor of `d`: a chain of child links leads from `a` down to `d`. -/
def Descends {F D : Type} (h : Heap F D) (a d : Nat) : Prop :=
  Relation.TransGen (isChild h) a d

/-- The pointer `_parent_node` of `c` is `p`. -/
def isParent {F D : Type} (h : Heap F D) (p c : Nat) : Prop :=
  ∃ n, load h c = some n ∧ n._parent_node = some p

/-- The members that tie a node into the graph. -/
def links {F D : Type} (n : node F D) : List Nat × Option Nat × Nat :=
  (n._children, n._parent_node, n._scene)

/-- Two stores with the same live addresses and the same links everywhere. -/
def SameLinks {F D : Type} (h h' : Heap F D) : Prop :=
  ∀ a, (load h' a).map links = (load h a).map links

mutual
/-- The logs that `recursion` can leave on a tree: the answer at the top, and
after a `true` the logs of the children one after the other. -/
def Walk : OTree → List (Nat × Bool) → Prop
  | .mk a ks, l => l = [(a, false)] ∨ ∃ l', l = (a, true) :: l' ∧ WalkAll ks l'
/-- The logs of a loop over a sequence of trees. -/
def WalkAll : List OTree → List (Nat × Bool) → Prop
  | [], l => l = []
  | t :: ts, l => ∃ l1 l2, l = l1 ++ l2 ∧ Walk t l1 ∧ WalkAll ts l2
end

/-- The part of a log that belongs to the subtree `s`: either no entry is about
a node of `s`, or the entries about `s` form one contiguous log of `s`. -/
def Located (s : OTree) (l : List (Nat × Bool)) : Prop :=
  (∀ e, e ∈ l → e.1 ∉ s.pre) ∨
    ∃ l1 ls l2, l = l1 ++ ls ++ l2 ∧ Walk s ls ∧
      (∀ e, e ∈ l1 → e.1 ∉ s.pre) ∧ (∀ e, e ∈ l2 → e.1 ∉ s.pre)

/-- The stores that arise from `skene(args...)` on an empty store by calls of
`append(args...)` alone. -/
inductive Grown {F D : Type} [Zero F] [One F] : Heap F D → Prop where
  | ctor (args : D) : Grown (skene.ctor [] args).1
  | append_args (h h' : Heap F D) (this c : Nat) (args : D) :
      Grown h → node.append_args h this args = some (h', c) → Grown h'

/-- The payload stored at an address (0 where nothing lives). -/
def payload {F : Type} (h : Heap F Int) (a : Nat) : Int :=
  ((load h a).map (fun n => n._data)).getD 0

/-- One step of the fold that `foldPull` is compared with: `merge` called on
the node at `a` with the state reached so far. -/
def mergeStep {F D I R : Type} (merge : I → Nat → node F D → D → R → I × D × R)
    (st : Heap F D × I × R) (a : Nat) : Option (Heap F D × I × R) :=
  callMerge merge st.1 a st.2.1 st.2.2

/-- The tree of the scenario: root 0 owns A = 1, which owns B = 2 and C = 3. -/
def demoTree : OTree := .mk 0 [.mk 1 [.mk 2 [], .mk 3 []]]

/-! ## Transforms

The matrix library is an outside collaborator; what the code needs of it is
modelled here over a commutative ring `F` of scalars, with the cosine and the
sine of an angle given in degrees as parameters. -/

/-- The type `glm::mat4`, a 4×4 matrix acting on column vectors. -/
abbrev mat4 (F : Type) : Type := Matrix (Fin 4) (Fin 4) F

/-- The type `glm::vec4`. -/
abbrev vec4 (F : Type) : Type := Fin 4 → F

/-- Modelled from the spec: the angle functions of the matrix library after the
conversion from degrees, `cos d` for `cos(glm::radians(d))` and `sin d` for
`sin(glm::radians(d))`. -/
structure trig (F : Type) where
  cos : F → F
  sin : F → F

/-- The sum of two `glm::vec3`. -/
def vec3.add {F : Type} [Add F] (u v : vec3 F) : vec3 F := ⟨u.x + v.x, u.y + v.y, u.z + v.z⟩

/-- The constructor `glm::vec4(v, w)`. -/
def vec3.withW {F : Type} (v : vec3 F) (w : F) : vec4 F := ![v.x, v.y, v.z, w]

/-- The constructor `glm::vec3(v)` of a `glm::vec4`: the first three components. -/
def vec4.xyz {F : Type} (v : vec4 F) : vec3 F := ⟨v 0, v 1, v 2⟩

/-- Modelled from the spec: `glm::translate(m, v)`, the matrix `m` times the
translation by `v`. -/
def glm.translate {F : Type} [CommRing F] (m : mat4 F) (v : vec3 F) : mat4 F :=
  m * !![1, 0, 0, v.x; 0, 1, 0, v.y; 0, 0, 1, v.z; 0, 0, 0, 1]

/-- Modelled from the spec: `glm::scale(m, v)`, the matrix `m` times the scaling
by `v`. -/
def glm.scale {F : Type} [CommRing F] (m : mat4 F) (v : vec3 F) : mat4 F :=
  m * !![v.x, 0, 0, 0; 0, v.y, 0, 0; 0, 0, v.z, 0; 0, 0, 0, 1]

/-- Modelled from the spec: `glm::rotate(m, angle, axis)` with the angle already
in radians on the library's side, in degrees here: the matrix `m` times the
rotation about the unit vector `axis` (the three axes the code passes are
unit vectors, so the library's normalisation is the identity on them). -/
def glm.rotate {F : Type} [CommRing F] (T : trig F) (m : mat4 F) (angle : F) (axis : vec3 F) :
    mat4 F :=
  let c := T.cos angle
  let s := T.sin angle
  let t : vec3 F := ⟨(1 - c) * axis.x, (1 - c) * axis.y, (1 - c) * axis.z⟩
  m * !![c + t.x * axis.x, t.y * axis.x - s * axis.z, t.z * axis.x + s * axis.y, 0;
         t.x * axis.y + s * axis.z, c + t.y * axis.y, t.z * axis.y - s * axis.x, 0;
         t.x * axis.z - s * axis.y, t.y * axis.z + s * axis.x, c + t.z * axis.z, 0;
         0, 0, 0, 1]

/-- Modelled from the spec: `PAL_STUB_ASSUME(cond, text)`, a contract check that
lets the call go on only when `cond` holds. -/
def PAL_STUB_ASSUME (cond : Bool) : Except Fault Unit :=
  if cond then .ok () else .error .assume

/-- The matrix `local` of `local_to_world`: `translate * rotate * scale`, where
`rotate` turns about Z, then Y, then X, and `glm::mat4()` is the identity. -/
def localMatrix {F : Type} [CommRing F] (T : trig F) (tr : transform F) : mat4 F :=
  let translate := glm.translate 1 tr._translate
  let rotate := glm.rotate T 1 tr._rotate.z ⟨0, 0, 1⟩
  let rotate := glm.rotate T rotate tr._rotate.y ⟨0, 1, 0⟩
  let rotate := glm.rotate T rotate tr._rotate.x ⟨1, 0, 0⟩
  let scale := glm.scale 1 tr._scale
  translate * rotate * scale

/-- The product `m * local` on a result that may be a fault. -/
def mulRight {F : Type} [CommRing F] (e : Except Fault (mat4 F)) (l : mat4 F) :
    Except Fault (mat4 F) :=
  match e with
  | .error f => .error f
  | .ok m => .ok (m * l)

/-- Modelled from the spec: the comparison `a == b` of two `glm::mat4`, true when
all sixteen entries agree. -/
def mat4.eq {F : Type} [DecidableEq F] (a b : mat4 F) : Bool :=
  [0, 1, 2, 3].all fun i : Fin 4 => [0, 1, 2, 3].all fun j : Fin 4 => decide (a i j = b i j)

/-- The entries of a matrix, row by row. -/
def mat4.rows {F : Type} (a : mat4 F) : List (List F) :=
  [0, 1, 2, 3].map fun i : Fin 4 => [0, 1, 2, 3].map fun j : Fin 4 => a i j

/-- The member `glm::mat4 local_to_world(void) const`. -/
def node.local_to_world {F D : Type} [CommRing F] [DecidableEq F] (T : trig F) :
    Nat → Heap F D → Nat → Except Fault (mat4 F)
  | 0, _, _ => .error .hang
  | fuel + 1, h, this =>
    match load h this with
    | none => .error .wild
    | some n =>
      let l := localMatrix T n._transform
      match PAL_STUB_ASSUME (n.not_root || mat4.eq 1 l) with
      | .error f => .error f
      | .ok () =>
        match n._parent_node with
        | some p => mulRight (node.local_to_world T fuel h p) l
        | none => .ok l

/-- The member `glm::vec3 world_to_local(const glm::vec3& local, const float w)`:
`glm::vec3(local_to_world() * glm::vec4(local, w))`. -/
def node.world_to_local {F D : Type} [CommRing F] [DecidableEq F] (T : trig F) (fuel : Nat)
    (h : Heap F D) (this : Nat) (v : vec3 F) (w : F) : Except Fault (vec3 F) :=
  match node.local_to_world T fuel h this with
  | .error f => .error f
  | .ok m => .ok (vec4.xyz (m.mulVec (v.withW w)))

/-- The member `void push_it(const glm::vec3& direction)`:
`_transform._translate += world_to_local(direction, 0)`. -/
def node.push_it {F D : Type} [CommRing F] [DecidableEq F] (T : trig F) (fuel : Nat)
    (h : Heap F D) (this : Nat) (direction : vec3 F) : Except Fault (Heap F D) :=
  match load h this with
  | none => .error .wild
  | some n =>
    match node.world_to_local T fuel h this direction 0 with
    | .error f => .error f
    | .ok v =>
      .ok (store h this
        { n with _transform := { n._transform with
            _translate := n._transform._translate.add v } })

/-! ## Destruction and remove -/

/-- The end of the lifetime of the object at address `a`. -/
def free {F D : Type} (h : Heap F D) (a : Nat) : Heap F D := h.set a none

/-- The destruction of the elements of a list by `clear`: one after the other,
each element's destructor runs (`body`), then its storage is released. -/
def clearLoop {F D : Type} (body : Heap F D → Nat → Except Fault (Heap F D)) :
    List Nat → Heap F D → Except Fault (Heap F D)
  | [], h => .ok h
  | c :: rest, h =>
    match body h c with
    | .error f => .error f
    | .ok h1 => clearLoop body rest (free h1 c)

/-- The destructor `~node(void)`.  `_children.clear()` destroys the children and
leaves the list empty; then, unless the parent pointer is null, the node looks
for itself in the parent's list and erases itself if found.  The list is the
GNU one: `clear` destroys the elements while all of them are still linked and
empties the list afterwards, `erase` unlinks an element before it destroys
it.  So a node destroyed by `erase` does not find itself, and a node destroyed
by the `clear` of its parent does: it erases itself from inside its own
destructor, which destroys and releases it a second time. -/
def node.dtor {F D : Type} : Nat → Heap F D → Nat → Except Fault (Heap F D)
  | 0, _, _ => .error .hang
  | fuel + 1, h, this =>
    match load h this with
    | none => .error .wild
    | some n =>
      match clearLoop (fun h1 c => node.dtor fuel h1 c) n._children h with
      | .error f => .error f
      | .ok h1 =>
        match load h1 this with
        | none => .error .wild
        | some n1 =>
          match n1._parent_node with
          | none => .ok (store h1 this { n1 with _children := [] })
          | some p =>
            match load (store h1 this { n1 with _children := [] }) p with
            | none => .error .wild
            | some np =>
              if this ∈ np._children then .error .destroyed_twice
              else .ok (store h1 this { n1 with _children := [] })

/-- The member `void remove(void)`: after `assert(not_root())` the node is
looked up in the parent's list and, if found, erased from it; `erase` unlinks
the element, runs its destructor and releases it. -/
def node.remove {F D : Type} (fuel : Nat) (h : Heap F D) (this : Nat) :
    Except Fault (Heap F D) :=
  match load h this with
  | none => .error .wild
  | some n =>
    match n._parent_node with
    | none => .error .assert_not_root
    | some p =>
      match load h p with
      | none => .error .wild
      | some np =>
        if this ∈ np._children then
          match node.dtor fuel (store h p { np with _children := np._children.erase this })
              this with
          | .error f => .error f
          | .ok h2 => .ok (free h2 this)
        else .ok h

/-! ## Sequences of operations -/

/-- A call of one of the four mutating members on the node at `this`. -/
inductive Op (F D : Type) where
  | append_args (this : Nat) (args : D)
  | append (this child : Nat)
  | remove (this : Nat)
  | push_it (this : Nat) (direction : vec3 F)

/-- One call, with its step budget. -/
def Op.run {F D : Type} [CommRing F] [DecidableEq F] (T : trig F) (fuel : Nat) (h : Heap F D) :
    Op F D → Except Fault (Heap F D)
  | .append_args this args =>
    match node.append_args h this args with
    | none => .error .wild
    | some r => .ok r.1
  | .append this child => node.append fuel h this child
  | .remove this => node.remove fuel h this
  | .push_it this direction => node.push_it T fuel h this direction

/-- A sequence of calls, each with its step budget, one after the other. -/
def runOps {F D : Type} [CommRing F] [DecidableEq F] (T : trig F) :
    Heap F D → List (Nat × Op F D) → Except Fault (Heap F D)
  | h, [] => .ok h
  | h, (fuel, op) :: rest =>
    match Op.run T fuel h op with
    | .error f => .error f
    | .ok h1 => runOps T h1 rest

/-! ## Paths -/

mutual
/-- The path from the top of the tree down to `x`, both included; empty when
`x` is not in the tree. -/
def OTree.pathTo (x : Nat) : OTree → List Nat
  | .mk a ks =>
    if x = a then [a]
    else
      match pathToList x ks with
      | [] => []
      | b :: rest => a :: b :: rest
/-- The path to `x` in the first tree of the sequence that has one. -/
def pathToList (x : Nat) : List OTree → List Nat
  | [] => []
  | t :: ts =>
    match OTree.pathTo x t with
    | [] => pathToList x ts
    | b :: rest => b :: rest
end

/-- The matrix `local` of the node at `a` (the identity where nothing lives). -/
def localOf {F D : Type} [CommRing F] (T : trig F) (h : Heap F D) (a : Nat) : mat4 F :=
  match load h a with
  | none => 1
  | some n => localMatrix T n._transform

/-- The image of the local origin under a world matrix. -/
def originOf {F : Type} [CommRing F] (m : mat4 F) : vec3 F :=
  vec4.xyz (m.mulVec ((⟨0, 0, 0⟩ : vec3 F).withW 1))

/-- The transform triple translate 0, rotate 0, scale 1. -/
def transform.identity {F : Type} [Zero F] [One F] : transform F :=
  ⟨vec3.splat 0, vec3.splat 0, vec3.splat 1⟩

/-- An assignment to the public member `_transform` of the node at `a`. -/
def setTransform {F D : Type} (h : Heap F D) (a : Nat) (tr : transform F) : Heap F D :=
  match load h a with
  | none => h
  | some n => store h a { n with _transform := tr }

/-- The difference of two vectors, component by component. -/
def vec3.sub {F : Type} [Sub F] (u v : vec3 F) : vec3 F := ⟨u.x - v.x, u.y - v.y, u.z - v.z⟩

/-- Cosine and sine over the integers, exact at the multiples of a quarter turn,
which are the only angles the scenarios use. -/
def demoTrig : trig Int where
  cos := fun d => if d % 360 = 0 then 1 else if d % 360 = 180 then -1 else 0
  sin := fun d => if d % 360 = 90 then 1 else if d % 360 = 270 then -1 else 0

/-- The scenario with `A._transform._translate = (1, 0, 0)`. -/
def demoA1 : Heap Int Int := setTransform demo 1 ⟨⟨1, 0, 0⟩, ⟨0, 0, 0⟩, ⟨1, 1, 1⟩⟩

/-- The scenario with A moved to `(1, 0, 0)` and turned a quarter about the Z
axis, B and C both at `(0, 1, 0)` below it, B scaled by 2 and C by 1. -/
def demoT : Heap Int Int :=
  setTransform
    (setTransform (setTransform demo 1 ⟨⟨1, 0, 0⟩, ⟨0, 0, 90⟩, ⟨1, 1, 1⟩⟩)
      2 ⟨⟨0, 1, 0⟩, ⟨0, 0, 0⟩, ⟨2, 2, 2⟩⟩)
    3 ⟨⟨0, 1, 0⟩, ⟨0, 0, 0⟩, ⟨1, 1, 1⟩⟩

/-- The state `demoT` with B at `(0, 3, 0)`. -/
def demoTB : Heap Int Int := setTransform demoT 2 ⟨⟨0, 3, 0⟩, ⟨0, 0, 0⟩, ⟨2, 2, 2⟩⟩

/-- The state `demoT` with C at `(0, 2, 0)`. -/
def demoTC : Heap Int Int := setTransform demoT 3 ⟨⟨0, 2, 0⟩, ⟨0, 0, 0⟩, ⟨1, 1, 1⟩⟩

/-- The root of the scene is in place and untransformed: the object at `scene`
has no parent, its transform triple is translate 0, rotate 0, scale 1, and no
child list names it. -/
def RootIdentity {F D : Type} [Zero F] [One F] (h : Heap F D) (scene : Nat) : Prop :=
  (∃ n, load h scene = some n ∧ n._parent_node = none ∧ n._transform = transform.identity) ∧
    ∀ a m, load h a = some m → scene ∉ m._children

/-- The new scene `demo0` with its root at `(1, 0, 0)`. -/
def demoPushed : Heap Int Int := setTransform demo0 0 ⟨⟨1, 0, 0⟩, ⟨0, 0, 0⟩, ⟨1, 1, 1⟩⟩

/-- The scenario after `B.push_it((1, 0, 0))`, `root.append(B)` and `C.remove()`. -/
def demoRun : Heap Int Int :=
  (runOps demoTrig demo
    [(3, Op.push_it 2 ⟨1, 0, 0⟩), (3, Op.append 0 2), (3, Op.remove 3)]).toOption.getD []

/-- The scenario after `B.remove()`: A keeps C, the storage of B is released. -/
def demoRemoved : Heap Int Int :=
  free (store demo 1 { node.ctor 0 (some 0) 1 with _children := [3] }) 2

end Skene

namespace Pal

/-! ## pal_adler32.hpp -/

/-- The loop of `pal_adler32::fun` (`pal_adler32_fun_` in a debug build), entered with the
current `a` and `b`.  `text` lists the characters from the pointer on; the loop
ends at the first NUL.  All arithmetic is that of `uint32_t`. -/
def adlerLoop : List Nat → Nat → Nat → Nat
  | [], a, b => ((b <<< 16) % 2 ^ 32) ||| a
  | c :: rest, a, b =>
    if c = 0 then ((b <<< 16) % 2 ^ 32) ||| a
    else
      adlerLoop rest ((a + c) % 2 ^ 32 % 65521)
        ((b + (a + c) % 2 ^ 32 % 65521) % 2 ^ 32 % 65521)

/-- The function `uint32_t pal_adler32::fun(const char* text)`, without the
debug-only uniqueness check: `a = 1, b = 0`, then the loop. -/
def pal_adler32_fun_ (text : List Nat) : Nat := adlerLoop text 1 0

/-- The enumerator `charlist<cs...>::sum<a, b>::val`: the primary template gives
`(b << 16) | a`, the specialisation on `head, tail...` passes
`(a + head) % 65521` and `(b + ((a + head) % 65521)) % 65521` on to the tail. -/
def charlist.sum : List Nat → Nat → Nat → Nat
  | [], a, b => ((b <<< 16) % 2 ^ 32) ||| a
  | head :: tail, a, b =>
    charlist.sum tail ((a + head) % 2 ^ 32 % 65521)
      ((b + (a + head) % 2 ^ 32 % 65521) % 2 ^ 32 % 65521)

/-- The enumerator `charlist<cs...>::len`. -/
def charlist.len : List Nat → Nat
  | [] => 0
  | _ :: tail => 1 + charlist.len tail

/-- The function `charlist<cs...>::cpy(out)` on the array `mem` that `out`
points into, `out` being the index: `*out = head` and on with `out + 1`, at the
end `*out = 0`.  A write outside the array has no defined result. -/
def charlist.cpy : List Nat → List Nat → Nat → Option (List Nat)
  | [], mem, out => if out < mem.length then some (mem.set out 0) else none
  | head :: tail, mem, out =>
    if out < mem.length then charlist.cpy tail (mem.set out head) (out + 1) else none

/-- The indices of the writes `*out = ...` that `cpy(out)` makes, in order. -/
def charlist.cpyWrites : List Nat → Nat → List Nat
  | [], out => [out]
  | _ :: tail, out => out :: charlist.cpyWrites tail (out + 1)

/-- The function `charlist<cs...>::str()`: the primary template returns `""`,
the specialisation copies into `static char mem[len]` and returns it. -/
def charlist.str : List Nat → Option (List Nat)
  | [] => some [0]
  | head :: tail =>
    charlist.cpy (head :: tail) (List.replicate (charlist.len (head :: tail)) 0) 0

/-- What the Adler-32 sum is said to be: `a` and `b` accumulated modulo 65521
from `a = 1`, `b = 0`, combined as `(b << 16) | a`. -/
def adlerSpec (s : List Nat) : Nat :=
  let ab := s.foldl (fun (ab : Nat × Nat) c => ((ab.1 + c) % 65521, (ab.2 + (ab.1 + c) % 65521) % 65521))
    (1, 0)
  (ab.2 <<< 16) ||| ab.1

/-- The characters of "Wikipedia". -/
def Wikipedia : List Nat := [87, 105, 107, 105, 112, 101, 100, 105, 97]

/-! ## The hexadecimal helpers -/

/-- The expression `(v <= 9) ? ('0' + v) : ('a' + (v - 10))`. -/
def hexDigit (v : Nat) : Nat := if v ≤ 9 then 48 + v else 97 + (v - 10)

/-- The loop of `pal::u64_to_hex`: for `i` from 0 to 15 the digit of
`(val >> (i * 4)) & 0xF` goes to `text[16 - (++i)]`. -/
def u64_to_hex.loop (val : Nat) : Nat → Nat → List Nat → List Nat
  | 0, _, text => text
  | n + 1, i, text =>
    if i < 16 then
      u64_to_hex.loop val n (i + 1)
        (text.set (16 - (i + 1)) (hexDigit ((val >>> (i * 4)) &&& 15)))
    else text

/-- The function `pal::u64_to_hex(val)`; `init` is what the 17 characters of
the local `text` hold before they are written. -/
def u64_to_hex (init : List Nat) (val : Nat) : List Nat :=
  u64_to_hex.loop val 16 0 (init.set 16 0)

/-- The loop of `pal::hex_to_u64`, entered with the current `value`, in the
arithmetic of `uint64_t`; the digit `c` is an `int`. -/
def hex_to_u64.loop : List Nat → Nat → Nat
  | [], value => value
  | c :: rest, value =>
    if c = 0 then value
    else
      hex_to_u64.loop rest
        (((((value <<< 4) % 2 ^ 64 : Nat) : Int)
          + (if 48 ≤ c ∧ c ≤ 57 then (c : Int) - 48 else ((c : Int) - 97) + 10)) % 2 ^ 64).toNat

/-- The function `pal::hex_to_u64(val)`. -/
def hex_to_u64 (val : List Nat) : Nat := hex_to_u64.loop val 0

/-- The loop `while ('0' == *out && out[1]) ++out;` of the debug check. -/
def skipZeros : List Nat → List Nat
  | c :: d :: rest => if c = 48 ∧ d ≠ 0 then skipZeros (d :: rest) else c :: d :: rest
  | l => l

/-- The `n` lowest hexadecimal digits of `v`, most significant first. -/
def nibblesMSB (v : Nat) : Nat → List Nat
  | 0 => []
  | n + 1 => (v / 16 ^ n % 16) :: nibblesMSB v n

end Pal

namespace Skene

/-! ## Store lemmas -/

theorem load_eq {F D : Type} (h : Heap F D) (a : Nat) : load h a = (h[a]?).getD none := by
  unfold load
  exact List.getD_eq_getElem?_getD h a none

theorem load_lt {F D : Type} {h : Heap F D} {a : Nat} {n : node F D}
    (hl : load h a = some n) : a < h.length := by
  by_contra hge
  rw [load_eq, List.getElem?_eq_none (by omega)] at hl
  simp at hl

theorem load_store {F D : Type} (h : Heap F D) (a b : Nat) (n : node F D) :
    load (store h a n) b
      = if a = b then (if a < h.length then some n else none) else load h b := by
  rw [load_eq, load_eq]
  unfold store
  rw [List.getElem?_set]
  by_cases hab : a = b
  · subst hab
    by_cases hlt : a < h.length
    · simp [hlt]
    · simp [hlt]
  · simp [hab]

theorem load_store_same {F D : Type} {h : Heap F D} {a : Nat} {m : node F D} (n : node F D)
    (hl : load h a = some m) : load (store h a n) a = some n := by
  rw [load_store]
  simp [load_lt hl]

theorem load_store_ne {F D : Type} (h : Heap F D) {a b : Nat} (n : node F D) (hab : a ≠ b) :
    load (store h a n) b = load h b := by
  rw [load_store]
  simp [hab]

theorem store_length {F D : Type} (h : Heap F D) (a : Nat) (n : node F D) :
    (store h a n).length = h.length := by
  simp [store]

theorem load_append_lt {F D : Type} (h l : Heap F D) {a : Nat} (hlt : a < h.length) :
    load (h ++ l) a = load h a := by
  rw [load_eq, load_eq, List.getElem?_append]
  simp [hlt]

theorem load_append_new {F D : Type} (h : Heap F D) (c : Option (node F D)) :
    load (h ++ [c]) h.length = c := by
  rw [load_eq, List.getElem?_append]
  simp

theorem load_append_old {F D : Type} (h : Heap F D) (c : Option (node F D)) {a : Nat}
    (hne : a ≠ h.length) : load (h ++ [c]) a = load h a := by
  rcases Nat.lt_or_gt_of_ne hne with hlt | hgt
  · exact load_append_lt h [c] hlt
  · rw [load_eq, load_eq, List.getElem?_eq_none (by simp; omega),
      List.getElem?_eq_none (by omega)]

theorem store_self {F D : Type} {h : Heap F D} {a : Nat} {n : node F D}
    (hl : load h a = some n) : store h a n = h := by
  have hlt := load_lt hl
  rw [load_eq] at hl
  unfold store
  apply List.ext_getElem?
  intro i
  rw [List.getElem?_set]
  by_cases hi : a = i
  · subst hi
    simp only [hlt, if_true]
    cases hx : h[a]? with
    | none => simp [hx] at hl
    | some v =>
      rw [hx] at hl
      simp at hl
      rw [hl]
  · simp [hi]

/-! ## Ownership trees: induction and the list forms of the traversals -/

theorem OTree.ind {P : OTree → Prop}
    (step : ∀ a ks, (∀ k, k ∈ ks → P k) → P (OTree.mk a ks)) : ∀ t, P t := by
  intro t
  refine @OTree.rec P (fun ks => ∀ k, k ∈ ks → P k) ?_ ?_ ?_ t
  · intro a ks ih
    exact step a ks ih
  · intro k hk
    cases hk
  · intro k ks ihk ihks x hx
    rcases List.mem_cons.1 hx with rfl | hx
    · exact ihk
    · exact ihks x hx

theorem preList_eq (ks : List OTree) : preList ks = ks.flatMap OTree.pre := by
  induction ks with
  | nil => simp [preList]
  | cons k ks ih => simp [preList, ih]

theorem postList_eq (ks : List OTree) : postList ks = ks.flatMap OTree.post := by
  induction ks with
  | nil => simp [postList]
  | cons k ks ih => simp [postList, ih]

theorem subtreesList_eq (ks : List OTree) : subtreesList ks = ks.flatMap OTree.subtrees := by
  induction ks with
  | nil => simp [subtreesList]
  | cons k ks ih => simp [subtreesList, ih]

theorem graftList_eq (a : Nat) (s : OTree) (ks : List OTree) :
    graftList a s ks = ks.map (OTree.graft a s) := by
  induction ks with
  | nil => simp [graftList]
  | cons k ks ih => simp [graftList, ih]

theorem realizesAll_iff {F D : Type} (h : Heap F D) (a : Nat) (ks : List OTree) :
    RealizesAll h a ks ↔ ∀ k, k ∈ ks → Realizes h (some a) k := by
  induction ks with
  | nil => simp [RealizesAll]
  | cons k ks ih => simp [RealizesAll, ih]

theorem height_le_heightList {k : OTree} {ks : List OTree} (hk : k ∈ ks) :
    k.height ≤ heightList ks := by
  induction ks with
  | nil => cases hk
  | cons x xs ih =>
    rcases List.mem_cons.1 hk with rfl | hk
    · simp [heightList]
    · have := ih hk
      simp [heightList]
      omega

theorem OTree.height_pos (t : OTree) : 0 < t.height := by
  cases t with
  | mk a ks => simp [OTree.height]

theorem OTree.addr_mem_pre (t : OTree) : t.addr ∈ t.pre := by
  cases t with
  | mk a ks => simp [OTree.addr, OTree.pre]

theorem OTree.pre_eq (t : OTree) : t.pre = t.addr :: preList t.kids := by
  cases t with
  | mk a ks => simp [OTree.addr, OTree.pre, OTree.kids]

theorem OTree.self_mem_subtrees (t : OTree) : t ∈ t.subtrees := by
  cases t with
  | mk a ks => simp [OTree.subtrees]

theorem OTree.pre_eq_map_subtrees : ∀ t : OTree, t.pre = t.subtrees.map OTree.addr := by
  apply OTree.ind
  intro a ks ih
  simp only [OTree.pre, OTree.subtrees, List.map_cons, OTree.addr, preList_eq, subtreesList_eq]
  congr 1
  induction ks with
  | nil => simp
  | cons k ks ihk =>
    simp only [List.flatMap_cons, List.map_append]
    rw [ih k (by simp), ihk (fun x hx => ih x (by simp [hx]))]

/-! ## Stores with the same links -/

theorem SameLinks.refl {F D : Type} (h : Heap F D) : SameLinks h h := fun _ => rfl

theorem SameLinks.trans {F D : Type} {h1 h2 h3 : Heap F D} (h12 : SameLinks h1 h2)
    (h23 : SameLinks h2 h3) : SameLinks h1 h3 := fun a => (h23 a).trans (h12 a)

theorem SameLinks.symm {F D : Type} {h1 h2 : Heap F D} (h12 : SameLinks h1 h2) :
    SameLinks h2 h1 := fun a => (h12 a).symm

theorem SameLinks.node_at {F D : Type} {h h' : Heap F D} (hs : SameLinks h h') {a : Nat}
    {n : node F D} (hl : load h a = some n) :
    ∃ n', load h' a = some n' ∧ n'._children = n._children ∧
      n'._parent_node = n._parent_node ∧ n'._scene = n._scene := by
  have := hs a
  rw [hl] at this
  cases hl' : load h' a with
  | none => simp [hl'] at this
  | some n' =>
    rw [hl'] at this
    simp [links] at this
    exact ⟨n', rfl, this.1, this.2.1, this.2.2⟩

theorem SameLinks.of_store {F D : Type} {h : Heap F D} {a : Nat} {n n' : node F D}
    (hl : load h a = some n) (hn : links n' = links n) : SameLinks h (store h a n') := by
  intro b
  by_cases hab : a = b
  · subst hab
    rw [load_store_same n' hl, hl]
    simp [hn]
  · rw [load_store_ne h n' hab]

theorem realizes_mk {F D : Type} (h : Heap F D) (p : Option Nat) (a : Nat) (ks : List OTree) :
    Realizes h p (OTree.mk a ks) ↔
      ∃ n, load h a = some n ∧ n._parent_node = p ∧ n._children = ks.map OTree.addr ∧
        ∀ k, k ∈ ks → Realizes h (some a) k := by
  simp only [Realizes, realizesAll_iff]

theorem realizes_congr {F D : Type} {h h' : Heap F D} (hs : SameLinks h h') :
    ∀ t p, Realizes h p t → Realizes h' p t := by
  apply OTree.ind
  intro a ks ih p hr
  rw [realizes_mk] at hr ⊢
  obtain ⟨n, hl, hp, hc, hk⟩ := hr
  obtain ⟨n', hl', hc', hp', _⟩ := hs.node_at hl
  exact ⟨n', hl', hp'.trans hp, hc'.trans hc, fun k hkm => ih k hkm _ (hk k hkm)⟩

theorem realizes_load {F D : Type} {h : Heap F D} {p : Option Nat} {t : OTree}
    (hr : Realizes h p t) :
    ∃ n, load h t.addr = some n ∧ n._parent_node = p ∧ n._children = t.kids.map OTree.addr := by
  cases t with
  | mk a ks =>
    rw [realizes_mk] at hr
    obtain ⟨n, hl, hp, hc, _⟩ := hr
    exact ⟨n, hl, hp, hc⟩

theorem realizes_kids {F D : Type} {h : Heap F D} {p : Option Nat} {t : OTree}
    (hr : Realizes h p t) : ∀ k, k ∈ t.kids → Realizes h (some t.addr) k := by
  cases t with
  | mk a ks =>
    rw [realizes_mk] at hr
    obtain ⟨n, _, _, _, hk⟩ := hr
    exact hk

/-! ## foldPull is a post-order fold -/

theorem callMerge_some {F D I R : Type} (merge : I → Nat → node F D → D → R → I × D × R)
    {h : Heap F D} {a : Nat} {n : node F D} (hl : load h a = some n) (user : I) (leaf : R) :
    ∃ st, callMerge merge h a user leaf = some st ∧ SameLinks h st.1 := by
  unfold callMerge
  rw [hl]
  exact ⟨_, rfl, SameLinks.of_store hl rfl⟩

theorem foldPull_succ {F D I R : Type} (merge : I → Nat → node F D → D → R → I × D × R)
    (f : Nat) (h : Heap F D) (a : Nat) (user : I) (leaf : R) :
    node.foldPull merge (f + 1) h a user leaf =
      match load h a with
      | none => none
      | some n =>
        match foldLoop (fun h1 it u r => node.foldPull merge f h1 it u r) n._children
            h user leaf with
        | none => none
        | some st => callMerge merge st.1 a st.2.1 st.2.2 := by
  rw [node.foldPull]
  cases hl : load h a with
  | none => rfl
  | some n =>
    simp only
    cases hc : n._children with
    | nil => simp [foldLoop]
    | cons front rest =>
      simp only [foldLoop]
      cases node.foldPull merge f h front user leaf with
      | none => rfl
      | some st => rfl

theorem foldLoop_spec {F D I R : Type} (merge : I → Nat → node F D → D → R → I × D × R)
    (f a : Nat) (ks : List OTree)
    (ih : ∀ k, k ∈ ks → ∀ (p : Option Nat) (h : Heap F D) (user : I) (leaf : R),
      Realizes h p k → k.height ≤ f →
      ∃ st, node.foldPull merge f h k.addr user leaf = some st ∧
        k.post.foldlM (mergeStep merge) (h, user, leaf) = some st ∧ SameLinks h st.1) :
    ∀ (h : Heap F D) (user : I) (leaf : R),
      (∀ k, k ∈ ks → Realizes h (some a) k) → (∀ k, k ∈ ks → k.height ≤ f) →
      ∃ st, foldLoop (fun h1 it u r => node.foldPull merge f h1 it u r)
            (ks.map OTree.addr) h user leaf = some st ∧
        (postList ks).foldlM (mergeStep merge) (h, user, leaf) = some st ∧
        SameLinks h st.1 := by
  induction ks with
  | nil =>
    intro h user leaf _ _
    exact ⟨(h, user, leaf), rfl, rfl, SameLinks.refl h⟩
  | cons k ks ihk =>
    intro h user leaf hr hh
    obtain ⟨st, hst, hpost, hsl⟩ :=
      ih k (by simp) (some a) h user leaf (hr k (by simp)) (hh k (by simp))
    obtain ⟨st1, hst1, hpost1, hsl1⟩ :=
      ihk (fun x hx => ih x (by simp [hx])) st.1 st.2.1 st.2.2
        (fun x hx => realizes_congr hsl x _ (hr x (by simp [hx])))
        (fun x hx => hh x (by simp [hx]))
    refine ⟨st1, ?_, ?_, hsl.trans hsl1⟩
    · simp only [List.map_cons, foldLoop, hst]
      exact hst1
    · simp only [postList, List.foldlM_append, hpost]
      exact hpost1

theorem foldPull_spec {F D I R : Type} (merge : I → Nat → node F D → D → R → I × D × R) :
    ∀ (t : OTree) (p : Option Nat) (fuel : Nat) (h : Heap F D) (user : I) (leaf : R),
      Realizes h p t → t.height ≤ fuel →
      ∃ st, node.foldPull merge fuel h t.addr user leaf = some st ∧
        t.post.foldlM (mergeStep merge) (h, user, leaf) = some st ∧ SameLinks h st.1 := by
  intro t
  induction t using OTree.ind with
  | step a ks ih =>
    intro p fuel h user leaf hr hf
    rw [realizes_mk] at hr
    obtain ⟨n, hl, _, hc, hk⟩ := hr
    cases fuel with
    | zero => simp [OTree.height] at hf
    | succ f =>
      have hkh : ∀ k, k ∈ ks → k.height ≤ f := by
        intro k hkm
        have := height_le_heightList hkm
        simp [OTree.height] at hf
        omega
      obtain ⟨st, hst, hpost, hsl⟩ :=
        foldLoop_spec merge f a ks (fun k hkm p h user leaf => ih k hkm p f h user leaf)
          h user leaf hk hkh
      obtain ⟨n', hl', _⟩ := hsl.node_at hl
      obtain ⟨st1, hst1, hsl1⟩ := callMerge_some merge hl' st.2.1 st.2.2
      refine ⟨st1, ?_, ?_, hsl.trans hsl1⟩
      · simp only [OTree.addr, foldPull_succ, hl, hc, hst]
        exact hst1
      · simp only [OTree.post, List.foldlM_append, hpost]
        simpa [mergeStep] using hst1

theorem OTree.post_perm_pre : ∀ t : OTree, t.post.Perm t.pre := by
  apply OTree.ind
  intro a ks ih
  simp only [OTree.post, OTree.pre, postList_eq, preList_eq]
  refine (List.perm_append_singleton a _).trans (List.Perm.cons a ?_)
  exact List.Perm.flatMap_left ks ih

theorem demo_realizes : Realizes demo none demoTree := by
  refine (realizes_mk _ _ _ _).2 ⟨_, rfl, rfl, rfl, ?_⟩
  intro k hk
  simp only [List.mem_singleton] at hk
  subst hk
  refine (realizes_mk _ _ _ _).2 ⟨_, rfl, rfl, rfl, ?_⟩
  intro k hk
  simp only [List.mem_cons, List.mem_singleton, List.not_mem_nil, or_false] at hk
  rcases hk with rfl | rfl
  · exact (realizes_mk _ _ _ _).2 ⟨_, rfl, rfl, rfl, by simp⟩
  · exact (realizes_mk _ _ _ _).2 ⟨_, rfl, rfl, rfl, by simp⟩

/-! ## Subtrees -/

theorem preList_append (l1 l2 : List OTree) : preList (l1 ++ l2) = preList l1 ++ preList l2 := by
  simp [preList_eq]

theorem mem_preList {x : Nat} {ks : List OTree} :
    x ∈ preList ks ↔ ∃ k, k ∈ ks ∧ x ∈ k.pre := by
  simp [preList_eq, List.mem_flatMap]

theorem mem_subtreesList {s : OTree} {ks : List OTree} :
    s ∈ subtreesList ks ↔ ∃ k, k ∈ ks ∧ s ∈ k.subtrees := by
  simp [subtreesList_eq, List.mem_flatMap]

theorem pre_sublist_preList {k : OTree} {ks : List OTree} (hk : k ∈ ks) :
    k.pre.Sublist (preList ks) := by
  induction ks with
  | nil => cases hk
  | cons x xs ih =>
    simp only [preList]
    rcases List.mem_cons.1 hk with rfl | hk
    · exact List.sublist_append_left _ _
    · exact (ih hk).trans (List.sublist_append_right _ _)

theorem preList_nodup_of_mem {k : OTree} {ks : List OTree} (hk : k ∈ ks)
    (hn : (preList ks).Nodup) : k.pre.Nodup :=
  List.Nodup.sublist (pre_sublist_preList hk) hn

theorem OTree.kids_nodup {t : OTree} (hn : t.pre.Nodup) : (preList t.kids).Nodup := by
  rw [OTree.pre_eq] at hn
  exact (List.nodup_cons.1 hn).2

theorem OTree.addr_not_mem_kids {t : OTree} (hn : t.pre.Nodup) : t.addr ∉ preList t.kids := by
  rw [OTree.pre_eq] at hn
  exact (List.nodup_cons.1 hn).1

/-- Two children of a duplicate-free sequence that share an address are the same child. -/
theorem kid_unique {ks : List OTree} (hn : (preList ks).Nodup) {k1 k2 : OTree}
    (h1 : k1 ∈ ks) (h2 : k2 ∈ ks) {x : Nat} (hx1 : x ∈ k1.pre) (hx2 : x ∈ k2.pre) : k1 = k2 := by
  induction ks with
  | nil => cases h1
  | cons k ks ih =>
    simp only [preList] at hn
    obtain ⟨_, hnks, hdis⟩ := List.nodup_append.1 hn
    rcases List.mem_cons.1 h1 with e1 | h1
    · rcases List.mem_cons.1 h2 with e2 | h2
      · exact e1.trans e2.symm
      · rw [e1] at hx1
        exact absurd (mem_preList.2 ⟨k2, h2, hx2⟩) (List.disjoint_left.1 hdis hx1)
    · rcases List.mem_cons.1 h2 with e2 | h2
      · rw [e2] at hx2
        exact absurd (mem_preList.2 ⟨k1, h1, hx1⟩) (List.disjoint_left.1 hdis hx2)
      · exact ih hnks h1 h2

theorem subtree_pre_sublist : ∀ t : OTree, ∀ s, s ∈ t.subtrees → s.pre.Sublist t.pre := by
  apply OTree.ind
  intro a ks ih s hs
  simp only [OTree.subtrees, List.mem_cons] at hs
  rcases hs with rfl | hs
  · exact List.Sublist.refl _
  · obtain ⟨k, hk, hsk⟩ := mem_subtreesList.1 hs
    simp only [OTree.pre]
    exact ((ih k hk s hsk).trans (pre_sublist_preList hk)).trans (List.sublist_cons_self _ _)

theorem subtree_sublist_kids {t s : OTree} (hs : s ∈ subtreesList t.kids) :
    s.pre.Sublist (preList t.kids) := by
  obtain ⟨k, hk, hsk⟩ := mem_subtreesList.1 hs
  exact (subtree_pre_sublist k s hsk).trans (pre_sublist_preList hk)

theorem OTree.subtrees_eq (t : OTree) : t.subtrees = t :: subtreesList t.kids := by
  cases t with
  | mk a ks => simp [OTree.subtrees, OTree.kids]

theorem mem_pre_iff {x : Nat} {t : OTree} : x ∈ t.pre ↔ ∃ s, s ∈ t.subtrees ∧ s.addr = x := by
  rw [OTree.pre_eq_map_subtrees]
  simp [List.mem_map]

theorem subtrees_trans : ∀ t : OTree, ∀ s, s ∈ t.subtrees → ∀ r, r ∈ s.subtrees →
    r ∈ t.subtrees := by
  apply OTree.ind
  intro a ks ih s hs r hr
  simp only [OTree.subtrees, List.mem_cons] at hs
  rcases hs with rfl | hs
  · exact hr
  · obtain ⟨k, hk, hsk⟩ := mem_subtreesList.1 hs
    simp only [OTree.subtrees, List.mem_cons]
    exact Or.inr (mem_subtreesList.2 ⟨k, hk, ih k hk s hsk r hr⟩)

theorem realizes_sub {F D : Type} {h : Heap F D} : ∀ t : OTree, ∀ p, Realizes h p t →
    ∀ s, s ∈ t.subtrees → ∃ q, Realizes h q s := by
  apply OTree.ind
  intro a ks ih p hr s hs
  simp only [OTree.subtrees, List.mem_cons] at hs
  rcases hs with rfl | hs
  · exact ⟨p, hr⟩
  · obtain ⟨k, hk, hsk⟩ := mem_subtreesList.1 hs
    exact ih k hk _ (realizes_kids hr k hk) s hsk

theorem realizes_live {F D : Type} {h : Heap F D} {p : Option Nat} {t : OTree}
    (hr : Realizes h p t) {x : Nat} (hx : x ∈ t.pre) : ∃ n, load h x = some n := by
  obtain ⟨s, hs, rfl⟩ := mem_pre_iff.1 hx
  obtain ⟨q, hq⟩ := realizes_sub t p hr s hs
  obtain ⟨n, hl, _⟩ := realizes_load hq
  exact ⟨n, hl⟩

/-! ## Grafting -/

theorem OTree.graft_addr (a : Nat) (s t : OTree) : (OTree.graft a s t).addr = t.addr := by
  cases t with
  | mk x ks => simp [OTree.graft, OTree.addr]

theorem OTree.graft_id (a : Nat) (s : OTree) : ∀ t : OTree, a ∉ t.pre → OTree.graft a s t = t := by
  apply OTree.ind
  intro x ks ih ha
  simp only [OTree.pre, List.mem_cons, not_or] at ha
  have hxa : ¬ x = a := fun e => ha.1 e.symm
  simp only [OTree.graft, graftList_eq, hxa, if_false, List.append_nil]
  congr 1
  have : ∀ k, k ∈ ks → OTree.graft a s k = id k := by
    intro k hk
    exact ih k hk (fun hak => ha.2 (mem_preList.2 ⟨k, hk, hak⟩))
  rw [List.map_congr_left this, List.map_id]

theorem graftList_id (a : Nat) (s : OTree) (ks : List OTree) (ha : a ∉ preList ks) :
    graftList a s ks = ks := by
  rw [graftList_eq]
  have : ∀ k, k ∈ ks → OTree.graft a s k = id k := by
    intro k hk
    exact OTree.graft_id a s k (fun hak => ha (mem_preList.2 ⟨k, hk, hak⟩))
  rw [List.map_congr_left this, List.map_id]

theorem graftList_perm (a : Nat) (s : OTree) (ks : List OTree)
    (ih : ∀ k, k ∈ ks → k.pre.Nodup → a ∈ k.pre →
      (OTree.graft a s k).pre.Perm (k.pre ++ s.pre))
    (hn : (preList ks).Nodup) (ha : a ∈ preList ks) :
    (preList (graftList a s ks)).Perm (preList ks ++ s.pre) := by
  induction ks with
  | nil => simp [preList] at ha
  | cons k ks ihk =>
    simp only [preList] at hn ha
    simp only [graftList, preList]
    obtain ⟨hnk, hnks, hdis⟩ := List.nodup_append.1 hn
    by_cases hak : a ∈ k.pre
    · have hnot : a ∉ preList ks := List.disjoint_left.1 hdis hak
      rw [graftList_id a s ks hnot]
      have h1 := ih k (by simp) hnk hak
      refine (List.Perm.append_right _ h1).trans ?_
      rw [List.append_assoc, List.append_assoc]
      exact List.Perm.append_left _ List.perm_append_comm
    · have haks : a ∈ preList ks := by
        rcases List.mem_append.1 ha with h1 | h1
        · exact absurd h1 hak
        · exact h1
      rw [OTree.graft_id a s k hak]
      have h2 := ihk (fun x hx => ih x (by simp [hx])) hnks haks
      rw [List.append_assoc]
      exact List.Perm.append_left _ h2

theorem OTree.graft_perm (a : Nat) (s : OTree) : ∀ t : OTree, t.pre.Nodup → a ∈ t.pre →
    (OTree.graft a s t).pre.Perm (t.pre ++ s.pre) := by
  apply OTree.ind
  intro x ks ih hn ha
  simp only [OTree.pre] at hn ha
  obtain ⟨hx, hnks⟩ := List.nodup_cons.1 hn
  simp only [OTree.graft, OTree.pre, preList_append, List.cons_append]
  refine List.Perm.cons x ?_
  by_cases hxa : x = a
  · subst hxa
    rw [graftList_id x s ks hx]
    simp [preList]
  · have haks : a ∈ preList ks := by
      rcases List.mem_cons.1 ha with h1 | h1
      · exact absurd h1.symm hxa
      · exact h1
    simp only [hxa, if_false, preList, List.append_nil]
    exact graftList_perm a s ks ih hnks haks

theorem realizes_graft {F D : Type} {h h' : Heap F D} (a : Nat) (s : OTree)
    (hs : Realizes h' (some a) s)
    (hA : ∀ n, load h a = some n → ∃ n', load h' a = some n' ∧
      n'._children = n._children ++ [s.addr] ∧ n'._parent_node = n._parent_node) :
    ∀ t : OTree, (∀ x, x ∈ t.pre → x ≠ a → (load h' x).map links = (load h x).map links) →
      ∀ p, Realizes h p t → Realizes h' p (OTree.graft a s t) := by
  apply OTree.ind
  intro x ks ih hO p hr
  rw [realizes_mk] at hr
  obtain ⟨n, hl, hp, hc, hk⟩ := hr
  have hkids : ∀ k, k ∈ graftList a s ks → Realizes h' (some x) k := by
    intro k hkm
    rw [graftList_eq] at hkm
    obtain ⟨k0, hk0, rfl⟩ := List.mem_map.1 hkm
    refine ih k0 hk0 ?_ _ (hk k0 hk0)
    intro y hy hya
    have hyt : y ∈ (OTree.mk x ks).pre := by
      simp only [OTree.pre]
      exact List.mem_cons_of_mem _ (mem_preList.2 ⟨k0, hk0, hy⟩)
    exact hO y hyt hya
  have haddr : (graftList a s ks).map OTree.addr = ks.map OTree.addr := by
    rw [graftList_eq, List.map_map]
    apply List.map_congr_left
    intro k _
    exact OTree.graft_addr a s k
  simp only [OTree.graft]
  rw [realizes_mk]
  by_cases hxa : x = a
  · subst hxa
    obtain ⟨n', hl', hc', hp'⟩ := hA n hl
    refine ⟨n', hl', hp'.trans hp, ?_, ?_⟩
    · simp [hc', hc, haddr]
    · intro k hkm
      simp only [if_true, List.mem_append, List.mem_singleton] at hkm
      rcases hkm with hkm | rfl
      · exact hkids k hkm
      · exact hs
  · have hlk := hO x (by simp [OTree.pre]) hxa
    rw [hl] at hlk
    cases hl' : load h' x with
    | none => simp [hl'] at hlk
    | some n' =>
      rw [hl'] at hlk
      simp [links] at hlk
      refine ⟨n', rfl, hlk.2.1.trans hp, ?_, ?_⟩
      · simp [hlk.1, hc, haddr, hxa]
      · intro k hkm
        simp only [hxa, if_false, List.append_nil] at hkm
        exact hkids k hkm

/-! ## append(args...) keeps a scene well formed -/

theorem append_args_eq {F D : Type} [Zero F] [One F] {h : Heap F D} {this : Nat}
    {n : node F D} (hl : load h this = some n) (args : D) :
    node.append_args h this args
      = some (store (h ++ [some (node.ctor n._scene (some this) args)]) this
          { n with _children := n._children ++ [h.length] }, h.length) := by
  simp only [node.append_args, hl]

theorem append_args_load_this {F D : Type} [Zero F] [One F] {h : Heap F D} {this : Nat}
    {n : node F D} (hl : load h this = some n) (args : D) :
    load (store (h ++ [some (node.ctor n._scene (some this) args)]) this
        { n with _children := n._children ++ [h.length] }) this
      = some { n with _children := n._children ++ [h.length] } := by
  refine @load_store_same F D _ this n _ ?_
  rw [load_append_lt h _ (load_lt hl)]
  exact hl

theorem append_args_load_new {F D : Type} [Zero F] [One F] {h : Heap F D} {this : Nat}
    {n : node F D} (hl : load h this = some n) (args : D) :
    load (store (h ++ [some (node.ctor n._scene (some this) args)]) this
        { n with _children := n._children ++ [h.length] }) h.length
      = some (node.ctor n._scene (some this) args) := by
  have hne : this ≠ h.length := Nat.ne_of_lt (load_lt hl)
  rw [load_store_ne _ _ hne, load_append_new]

theorem append_args_load_other {F D : Type} [Zero F] [One F] {h : Heap F D} {this : Nat}
    {n : node F D} (args : D) {x : Nat} (hx : x ≠ this)
    (hxc : x ≠ h.length) :
    load (store (h ++ [some (node.ctor n._scene (some this) args)]) this
        { n with _children := n._children ++ [h.length] }) x = load h x := by
  rw [load_store_ne _ _ (Ne.symm hx), load_append_old h _ hxc]

theorem wellFormed_append_args {F D : Type} [Zero F] [One F] {h h' : Heap F D}
    {scene this c : Nat} {T : OTree} {args : D} (hw : WellFormed h scene T)
    (hthis : this ∈ T.pre) (happ : node.append_args h this args = some (h', c)) :
    WellFormed h' scene (OTree.graft this (OTree.mk c []) T) ∧
      (OTree.graft this (OTree.mk c []) T).pre.Perm (T.pre ++ [c]) := by
  obtain ⟨haddr, hr, hn, hcov⟩ := hw
  obtain ⟨n, hl⟩ := realizes_live hr hthis
  rw [append_args_eq hl] at happ
  simp only [Option.some.injEq, Prod.mk.injEq] at happ
  obtain ⟨rfl, rfl⟩ := happ
  have hlt := load_lt hl
  have hfresh : h.length ∉ T.pre := by
    intro hc
    obtain ⟨m, hm⟩ := realizes_live hr hc
    exact absurd (load_lt hm) (Nat.lt_irrefl _)
  have hperm := OTree.graft_perm this (OTree.mk h.length []) T hn hthis
  have hperm' : (OTree.graft this (OTree.mk h.length []) T).pre.Perm (T.pre ++ [h.length]) := by
    simpa [OTree.pre, preList] using hperm
  refine ⟨⟨?_, ?_, ?_, ?_⟩, hperm'⟩
  · rw [OTree.graft_addr]
    exact haddr
  · refine realizes_graft this (OTree.mk h.length []) ?_ ?_ T ?_ none hr
    · rw [realizes_mk]
      exact ⟨_, append_args_load_new hl args, rfl, rfl, by simp⟩
    · intro m hm
      rw [hl] at hm
      cases hm
      exact ⟨_, append_args_load_this hl args, rfl, rfl⟩
    · intro x hx hxa
      have hxc : x ≠ h.length := fun e => hfresh (e ▸ hx)
      rw [append_args_load_other args hxa hxc]
  · rw [hperm'.nodup_iff]
    rw [List.nodup_append]
    refine ⟨hn, by simp, ?_⟩
    intro x hx hx'
    simp only [List.mem_singleton] at hx'
    exact hfresh (hx' ▸ hx)
  · intro a m hm
    rw [hperm'.mem_iff]
    simp only [List.mem_append, List.mem_singleton]
    have hscene : n._scene = scene := (hcov this n hl).2 hthis
    by_cases hac : a = h.length
    · subst hac
      rw [append_args_load_new hl args] at hm
      cases hm
      simp [node.ctor, hscene]
    · by_cases hat : a = this
      · subst hat
        rw [append_args_load_this hl args] at hm
        cases hm
        simp [hscene, hthis]
      · rw [append_args_load_other args hat hac] at hm
        rw [hcov a m hm]
        simp [hac]

theorem grown_wellFormed {F D : Type} [Zero F] [One F] {h : Heap F D} (hg : Grown h) :
    ∃ T, WellFormed h 0 T ∧ ∀ a, a < h.length → a ∈ T.pre := by
  induction hg with
  | ctor args =>
    refine ⟨OTree.mk 0 [], ⟨rfl, ?_, by simp [OTree.pre, preList], ?_⟩, ?_⟩
    · rw [realizes_mk]
      exact ⟨_, rfl, rfl, rfl, by simp⟩
    · intro a n hl
      have hlt := load_lt hl
      simp [skene.ctor] at hlt
      subst hlt
      simp only [skene.ctor, List.nil_append] at hl
      cases hl
      simp [node.ctor, OTree.pre]
    · intro a ha
      simp [skene.ctor] at ha
      simp [ha, OTree.pre]
  | append_args h h' this c args _ happ ih =>
    obtain ⟨T, hw, hall⟩ := ih
    have hthis : this ∈ T.pre := by
      cases hl : load h this with
      | none => simp [node.append_args, hl] at happ
      | some n => exact hall this (load_lt hl)
    obtain ⟨hw', hperm⟩ := wellFormed_append_args hw hthis happ
    refine ⟨_, hw', ?_⟩
    intro a ha
    rw [hperm.mem_iff]
    obtain ⟨n, hl⟩ := realizes_live hw.2.1 hthis
    rw [append_args_eq hl] at happ
    simp only [Option.some.injEq, Prod.mk.injEq] at happ
    obtain ⟨rfl, rfl⟩ := happ
    simp only [store_length, List.length_append, List.length_singleton] at ha
    simp only [List.mem_append, List.mem_singleton]
    by_cases hac : a = h.length
    · exact Or.inr hac
    · exact Or.inl (hall a (by omega))

/-! ## Summing payloads -/

theorem callMerge_sumMerge {F : Type} {h : Heap F Int} {a : Nat} {n : node F Int}
    (hl : load h a = some n) (r : Int) :
    callMerge sumMerge h a () r = some (h, (), r + n._data) := by
  simp only [callMerge, hl, sumMerge]
  rw [store_self hl]

theorem foldlM_sumMerge {F : Type} (h : Heap F Int) :
    ∀ (l : List Nat) (r : Int), (∀ x, x ∈ l → ∃ n, load h x = some n) →
      l.foldlM (mergeStep sumMerge) (h, (), r) = some (h, (), r + (l.map (payload h)).sum) := by
  intro l
  induction l with
  | nil =>
    intro r _
    simp
  | cons x xs ih =>
    intro r hl
    obtain ⟨n, hn⟩ := hl x (by simp)
    rw [List.foldlM_cons]
    simp only [mergeStep, callMerge_sumMerge hn]
    have := ih (r + n._data) (fun y hy => hl y (by simp [hy]))
    simp only [Option.bind_eq_bind, Option.some_bind, this]
    simp [payload, hn, add_assoc]

theorem demo_grown : Grown demo := by
  have g0 : Grown demo0 := Grown.ctor 0
  have g1 : Grown demo1 := Grown.append_args demo0 demo1 0 1 1 g0 rfl
  have g2 : Grown demo2 := Grown.append_args demo1 demo2 1 2 2 g1 rfl
  exact Grown.append_args demo2 demo 1 3 3 g2 rfl

/-! ## visit leaves a pruned pre-order log -/

theorem callBack_some {F D S : Type} (callback : S → Nat → node F D → S × D × transform F × Bool)
    {h : Heap F D} {a : Nat} {n : node F D} (hl : load h a = some n) (s : S) :
    ∃ st, callBack callback h s a = some st ∧ SameLinks h st.1 ∧
      st.2.2 = (callback s a n).2.2.2 := by
  unfold callBack
  rw [hl]
  exact ⟨_, rfl, SameLinks.of_store hl rfl, rfl⟩

theorem forEach_walk {F D S : Type} (callback : S → Nat → node F D → S × D × transform F × Bool)
    (f a : Nat) (ks : List OTree)
    (ih : ∀ k, k ∈ ks → ∀ (p : Option Nat) (h : Heap F D) (s : S),
      Realizes h p k → k.height ≤ f →
      ∃ st, recursion callback f h s k.addr = some st ∧ Walk k st.2.2 ∧ SameLinks h st.1 ∧
        ∀ e, e ∈ st.2.2 → ∃ s1 n1, e.2 = (callback s1 e.1 n1).2.2.2) :
    ∀ (h : Heap F D) (s : S),
      (∀ k, k ∈ ks → Realizes h (some a) k) → (∀ k, k ∈ ks → k.height ≤ f) →
      ∃ st, forEach (fun h1 s1 next => recursion callback f h1 s1 next)
            (ks.map OTree.addr) h s = some st ∧
        WalkAll ks st.2.2 ∧ SameLinks h st.1 ∧
        ∀ e, e ∈ st.2.2 → ∃ s1 n1, e.2 = (callback s1 e.1 n1).2.2.2 := by
  induction ks with
  | nil =>
    intro h s _ _
    exact ⟨(h, s, []), rfl, rfl, SameLinks.refl h, by simp⟩
  | cons k ks ihk =>
    intro h s hr hh
    obtain ⟨st, hst, hwalk, hsl, hans⟩ :=
      ih k (by simp) (some a) h s (hr k (by simp)) (hh k (by simp))
    obtain ⟨st1, hst1, hwalk1, hsl1, hans1⟩ :=
      ihk (fun x hx => ih x (by simp [hx])) st.1 st.2.1
        (fun x hx => realizes_congr hsl x _ (hr x (by simp [hx])))
        (fun x hx => hh x (by simp [hx]))
    refine ⟨(st1.1, st1.2.1, st.2.2 ++ st1.2.2), ?_, ?_, hsl.trans hsl1, ?_⟩
    · simp only [List.map_cons, forEach, hst, hst1]
    · exact ⟨st.2.2, st1.2.2, rfl, hwalk, hwalk1⟩
    · intro e he
      rcases List.mem_append.1 he with he | he
      · exact hans e he
      · exact hans1 e he

theorem recursion_walk {F D S : Type}
    (callback : S → Nat → node F D → S × D × transform F × Bool) :
    ∀ (t : OTree) (p : Option Nat) (fuel : Nat) (h : Heap F D) (s : S),
      Realizes h p t → t.height ≤ fuel →
      ∃ st, recursion callback fuel h s t.addr = some st ∧ Walk t st.2.2 ∧ SameLinks h st.1 ∧
        ∀ e, e ∈ st.2.2 → ∃ s1 n1, e.2 = (callback s1 e.1 n1).2.2.2 := by
  intro t
  induction t using OTree.ind with
  | step a ks ih =>
    intro p fuel h s hr hf
    rw [realizes_mk] at hr
    obtain ⟨n, hl, _, hc, hk⟩ := hr
    cases fuel with
    | zero => simp [OTree.height] at hf
    | succ f =>
      have hkh : ∀ k, k ∈ ks → k.height ≤ f := by
        intro k hkm
        have := height_le_heightList hkm
        simp [OTree.height] at hf
        omega
      obtain ⟨st, hst, hsl, hans⟩ := callBack_some callback hl s
      simp only [OTree.addr, recursion, hst]
      by_cases hb : st.2.2 = false
      · refine ⟨_, by simp only [hb, if_true]; rfl, ?_, hsl, ?_⟩
        · simp [Walk]
        · intro e he
          simp only [List.mem_singleton] at he
          subst he
          exact ⟨s, n, by rw [← hans, hb]⟩
      · obtain ⟨n', hl', hc', _⟩ := hsl.node_at hl
        obtain ⟨st1, hst1, hwalk1, hsl1, hans1⟩ :=
          forEach_walk callback f a ks (fun k hkm p h s => ih k hkm p f h s) st.1 st.2.1
            (fun x hx => realizes_congr hsl x _ (hk x hx)) hkh
        have hb' : st.2.2 = true := by simpa using hb
        refine ⟨(st1.1, st1.2.1, (a, true) :: st1.2.2), ?_, ?_, hsl.trans hsl1, ?_⟩
        · simp [hb', hl', hc', hc, hst1]
        · simp only [Walk]
          exact Or.inr ⟨_, rfl, hwalk1⟩
        · intro e he
          rcases List.mem_cons.1 he with rfl | he
          · exact ⟨s, n, by rw [← hans, hb']⟩
          · exact hans1 e he

theorem visit_walk {F D S : Type} (callback : S → Nat → node F D → S × D × transform F × Bool)
    {h : Heap F D} {scene : Nat} {T : OTree} (hw : WellFormed h scene T) {fuel : Nat}
    (hf : T.height ≤ fuel + 1) (s : S) :
    ∃ st, skene.visit callback fuel h scene s = some st ∧ WalkAll T.kids st.2.2 ∧
      SameLinks h st.1 ∧ ∀ e, e ∈ st.2.2 → ∃ s1 n1, e.2 = (callback s1 e.1 n1).2.2.2 := by
  obtain ⟨haddr, hr, _, _⟩ := hw
  obtain ⟨n, hl, _, hc⟩ := realizes_load hr
  have hkh : ∀ k, k ∈ T.kids → k.height ≤ fuel := by
    intro k hkm
    have := height_le_heightList hkm
    cases T with
    | mk a ks =>
      simp only [OTree.height, OTree.kids] at hf this
      omega
  obtain ⟨st, hst, hrest⟩ :=
    forEach_walk callback fuel T.addr T.kids
      (fun k _ p h s => recursion_walk callback k p fuel h s) h s (realizes_kids hr) hkh
  refine ⟨st, ?_, hrest⟩
  simp only [skene.visit, ← haddr, hl, hc]
  exact hst

/-! ## Facts about logs -/

theorem walkAll_cons {k : OTree} {ks : List OTree} {l : List (Nat × Bool)} :
    WalkAll (k :: ks) l ↔ ∃ l1 l2, l = l1 ++ l2 ∧ Walk k l1 ∧ WalkAll ks l2 := by
  simp only [WalkAll]

theorem walk_mk {a : Nat} {ks : List OTree} {l : List (Nat × Bool)} :
    Walk (OTree.mk a ks) l ↔ l = [(a, false)] ∨ ∃ l', l = (a, true) :: l' ∧ WalkAll ks l' := by
  simp only [Walk]

theorem walk_iff {t : OTree} {l : List (Nat × Bool)} :
    Walk t l ↔ l = [(t.addr, false)] ∨ ∃ l', l = (t.addr, true) :: l' ∧ WalkAll t.kids l' := by
  cases t with
  | mk a ks => simp only [Walk, OTree.addr, OTree.kids]

theorem walkAll_mem (ks : List OTree)
    (ih : ∀ k, k ∈ ks → ∀ l, Walk k l → ∀ e, e ∈ l → e.1 ∈ k.pre) :
    ∀ l, WalkAll ks l → ∀ e, e ∈ l → e.1 ∈ preList ks := by
  induction ks with
  | nil =>
    intro l hl e he
    simp only [WalkAll] at hl
    subst hl
    cases he
  | cons k ks ihk =>
    intro l hl e he
    obtain ⟨l1, l2, rfl, h1, h2⟩ := walkAll_cons.1 hl
    simp only [preList]
    rcases List.mem_append.1 he with he | he
    · exact List.mem_append_left _ (ih k (by simp) l1 h1 e he)
    · exact List.mem_append_right _ (ihk (fun x hx => ih x (by simp [hx])) l2 h2 e he)

theorem walk_mem : ∀ t : OTree, ∀ l, Walk t l → ∀ e, e ∈ l → e.1 ∈ t.pre := by
  apply OTree.ind
  intro a ks ih l hl e he
  simp only [OTree.pre]
  rcases walk_mk.1 hl with rfl | ⟨l', rfl, hl'⟩
  · simp only [List.mem_singleton] at he
    subst he
    simp
  · rcases List.mem_cons.1 he with rfl | he
    · simp
    · exact List.mem_cons_of_mem _ (walkAll_mem ks ih l' hl' e he)

theorem walkAll_mem_pre {ks : List OTree} {l : List (Nat × Bool)} (hl : WalkAll ks l) :
    ∀ e, e ∈ l → e.1 ∈ preList ks :=
  walkAll_mem ks (fun k _ => walk_mem k) l hl

/-- With answers that are all `true` the log is the whole pre-order listing. -/
theorem walkAll_yes (ks : List OTree)
    (ih : ∀ k, k ∈ ks → ∀ l, Walk k l → (∀ e, e ∈ l → e.2 = true) →
      l = k.pre.map (fun a => (a, true))) :
    ∀ l, WalkAll ks l → (∀ e, e ∈ l → e.2 = true) →
      l = (preList ks).map (fun a => (a, true)) := by
  induction ks with
  | nil =>
    intro l hl _
    simp only [WalkAll] at hl
    subst hl
    simp [preList]
  | cons k ks ihk =>
    intro l hl hyes
    obtain ⟨l1, l2, rfl, h1, h2⟩ := walkAll_cons.1 hl
    simp only [preList, List.map_append]
    rw [← ih k (by simp) l1 h1 (fun e he => hyes e (List.mem_append_left _ he)),
      ← ihk (fun x hx => ih x (by simp [hx])) l2 h2
        (fun e he => hyes e (List.mem_append_right _ he))]

theorem walk_yes : ∀ t : OTree, ∀ l, Walk t l → (∀ e, e ∈ l → e.2 = true) →
    l = t.pre.map (fun a => (a, true)) := by
  apply OTree.ind
  intro a ks ih l hl hyes
  rcases walk_mk.1 hl with rfl | ⟨l', rfl, hl'⟩
  · have := hyes (a, false) (by simp)
    simp at this
  · simp only [OTree.pre, List.map_cons]
    rw [← walkAll_yes ks ih l' hl' (fun e he => hyes e (List.mem_cons_of_mem _ he))]

/-! ## Descendants in the store and in the tree -/

theorem mem_kids_of_mem_preList {x : Nat} {t : OTree} (hx : x ∈ preList t.kids) :
    ∃ s, s ∈ subtreesList t.kids ∧ s.addr = x := by
  obtain ⟨k, hk, hxk⟩ := mem_preList.1 hx
  obtain ⟨s, hs, hsx⟩ := mem_pre_iff.1 hxk
  exact ⟨s, mem_subtreesList.2 ⟨k, hk, hs⟩, hsx⟩

theorem isChild_of_kid {F D : Type} {h : Heap F D} {p : Option Nat} {t k : OTree}
    (hr : Realizes h p t) (hk : k ∈ t.kids) : isChild h t.addr k.addr := by
  obtain ⟨n, hl, _, hc⟩ := realizes_load hr
  exact ⟨n, hl, by rw [hc]; exact List.mem_map_of_mem _ hk⟩

theorem descends_of_mem {F D : Type} {h : Heap F D} : ∀ t : OTree, ∀ p, Realizes h p t →
    ∀ x, x ∈ preList t.kids → Descends h t.addr x := by
  apply OTree.ind
  intro a ks ih p hr x hx
  simp only [OTree.kids] at hx
  obtain ⟨k, hk, hxk⟩ := mem_preList.1 hx
  have hchild : isChild h a k.addr := isChild_of_kid hr hk
  rw [OTree.pre_eq] at hxk
  rcases List.mem_cons.1 hxk with rfl | hxk
  · exact Relation.TransGen.single hchild
  · exact Relation.TransGen.head hchild (ih k hk _ (realizes_kids hr k hk) x hxk)

theorem mem_of_isChild {F D : Type} {h : Heap F D} {p : Option Nat} {t : OTree}
    (hr : Realizes h p t) {x : Nat} (hc : isChild h t.addr x) : x ∈ preList t.kids := by
  obtain ⟨n, hl, _, hch⟩ := realizes_load hr
  obtain ⟨n', hl', hx⟩ := hc
  rw [hl] at hl'
  cases hl'
  rw [hch] at hx
  obtain ⟨k, hk, rfl⟩ := List.mem_map.1 hx
  exact mem_preList.2 ⟨k, hk, OTree.addr_mem_pre k⟩

theorem mem_of_descends {F D : Type} {h : Heap F D} {p : Option Nat} {t : OTree}
    (hr : Realizes h p t) {x : Nat} (hd : Descends h t.addr x) : x ∈ preList t.kids := by
  induction hd with
  | single hc => exact mem_of_isChild hr hc
  | @tail b c _ hc ih =>
    obtain ⟨s, hs, hsb⟩ := mem_kids_of_mem_preList ih
    have hst : s ∈ t.subtrees := by
      rw [OTree.subtrees_eq]
      exact List.mem_cons_of_mem _ hs
    obtain ⟨q, hq⟩ := realizes_sub t p hr s hst
    rw [← hsb] at hc
    have hx := mem_of_isChild hq hc
    have h1 : c ∈ s.pre := by
      rw [OTree.pre_eq]
      exact List.mem_cons_of_mem _ hx
    exact (subtree_sublist_kids hs).subset h1

theorem descends_iff {F D : Type} {h : Heap F D} {p : Option Nat} {t : OTree}
    (hr : Realizes h p t) (x : Nat) : x ∈ preList t.kids ↔ Descends h t.addr x :=
  ⟨descends_of_mem t p hr x, mem_of_descends hr⟩

theorem demo_wellFormed : WellFormed demo 0 demoTree := by
  refine ⟨rfl, demo_realizes, by decide, ?_⟩
  intro a n hl
  have hlt : a < 4 := load_lt hl
  have ha : a = 0 ∨ a = 1 ∨ a = 2 ∨ a = 3 := by omega
  rcases ha with rfl | rfl | rfl | rfl <;>
  · cases hl
    decide

/-! ## Locating a subtree in a log -/

theorem walkAll_split {ks : List OTree} {l : List (Nat × Bool)} (hl : WalkAll ks l)
    (hn : (preList ks).Nodup) {k : OTree} (hk : k ∈ ks) :
    ∃ l1 lk l2, l = l1 ++ lk ++ l2 ∧ Walk k lk ∧
      (∀ e, e ∈ l1 → e.1 ∉ k.pre) ∧ (∀ e, e ∈ l2 → e.1 ∉ k.pre) := by
  induction ks generalizing l with
  | nil => cases hk
  | cons k0 ks ih =>
    obtain ⟨a1, a2, rfl, h1, h2⟩ := walkAll_cons.1 hl
    simp only [preList] at hn
    obtain ⟨_, hnks, hdis⟩ := List.nodup_append.1 hn
    rcases List.mem_cons.1 hk with e | hk
    · subst e
      refine ⟨[], a1, a2, by simp, h1, by simp, ?_⟩
      intro e he hek
      exact List.disjoint_left.1 hdis hek (walkAll_mem_pre h2 e he)
    · obtain ⟨m1, lk, m2, rfl, hw, hm1, hm2⟩ := ih h2 hnks hk
      refine ⟨a1 ++ m1, lk, m2, by simp, hw, ?_, hm2⟩
      intro e he hek
      rcases List.mem_append.1 he with he | he
      · exact List.disjoint_left.1 hdis (walk_mem k0 a1 h1 e he)
          ((pre_sublist_preList hk).subset hek)
      · exact hm1 e he hek

theorem walkAll_located_aux (ks : List OTree)
    (ih : ∀ k, k ∈ ks → ∀ l, Walk k l → k.pre.Nodup → ∀ s, s ∈ k.subtrees → Located s l)
    {l : List (Nat × Bool)} (hl : WalkAll ks l) (hn : (preList ks).Nodup) {s : OTree}
    (hs : s ∈ subtreesList ks) : Located s l := by
  obtain ⟨k, hk, hsk⟩ := mem_subtreesList.1 hs
  obtain ⟨l1, lk, l2, rfl, hw, h1, h2⟩ := walkAll_split hl hn hk
  have hsub : s.pre ⊆ k.pre := (subtree_pre_sublist k s hsk).subset
  rcases ih k hk lk hw (preList_nodup_of_mem hk hn) s hsk with hno | ⟨n1, ls, n2, rfl, hws, hn1, hn2⟩
  · left
    intro e he hes
    rcases List.mem_append.1 he with he | he
    · rcases List.mem_append.1 he with he | he
      · exact h1 e he (hsub hes)
      · exact hno e he hes
    · exact h2 e he (hsub hes)
  · right
    refine ⟨l1 ++ n1, ls, n2 ++ l2, by simp, hws, ?_, ?_⟩
    · intro e he hes
      rcases List.mem_append.1 he with he | he
      · exact h1 e he (hsub hes)
      · exact hn1 e he hes
    · intro e he hes
      rcases List.mem_append.1 he with he | he
      · exact hn2 e he hes
      · exact h2 e he (hsub hes)

theorem walk_located : ∀ t : OTree, ∀ l, Walk t l → t.pre.Nodup → ∀ s, s ∈ t.subtrees →
    Located s l := by
  apply OTree.ind
  intro a ks ih l hl hn s hs
  simp only [OTree.subtrees, List.mem_cons] at hs
  rcases hs with rfl | hs
  · right
    exact ⟨[], l, [], by simp, hl, by simp, by simp⟩
  · have hnks : (preList ks).Nodup := OTree.kids_nodup hn
    have ha : a ∉ s.pre := fun hc =>
      OTree.addr_not_mem_kids hn ((@subtree_sublist_kids (OTree.mk a ks) s hs).subset hc)
    rcases walk_mk.1 hl with rfl | ⟨l', rfl, hl'⟩
    · left
      intro e he
      simp only [List.mem_singleton] at he
      subst he
      exact ha
    · rcases walkAll_located_aux ks ih hl' hnks hs with hno | ⟨l1, ls, l2, rfl, hws, h1, h2⟩
      · left
        intro e he
        rcases List.mem_cons.1 he with rfl | he
        · exact ha
        · exact hno e he
      · right
        refine ⟨(a, true) :: l1, ls, l2, by simp, hws, ?_, h2⟩
        intro e he
        rcases List.mem_cons.1 he with rfl | he
        · exact ha
        · exact h1 e he

theorem walkAll_located {ks : List OTree} {l : List (Nat × Bool)} (hl : WalkAll ks l)
    (hn : (preList ks).Nodup) {s : OTree} (hs : s ∈ subtreesList ks) : Located s l :=
  walkAll_located_aux ks (fun k _ => walk_located k) hl hn hs

theorem walkAll_filter (q : Nat → Bool) {ks : List OTree} {l : List (Nat × Bool)}
    (hl : WalkAll ks l) (hq : ∀ k, k ∈ ks → q k.addr = true)
    (hq' : ∀ k, k ∈ ks → ∀ y, y ∈ preList k.kids → q y = false) :
    (l.map Prod.fst).filter q = ks.map OTree.addr := by
  induction ks generalizing l with
  | nil =>
    simp only [WalkAll] at hl
    subst hl
    rfl
  | cons k ks ih =>
    obtain ⟨a1, a2, rfl, h1, h2⟩ := walkAll_cons.1 hl
    rw [List.map_append, List.filter_append,
      ih h2 (fun x hx => hq x (by simp [hx])) (fun x hx => hq' x (by simp [hx]))]
    have hk := hq k (by simp)
    have : (a1.map Prod.fst).filter q = [k.addr] := by
      rcases walk_iff.1 h1 with rfl | ⟨l', rfl, hl'⟩
      · simp [hk]
      · simp only [List.map_cons, List.filter_cons, hk, if_true]
        congr 1
        rw [List.filter_eq_nil_iff]
        intro y hy
        obtain ⟨e, he, rfl⟩ := List.mem_map.1 hy
        simp [hq' k (by simp) e.1 (walkAll_mem_pre hl' e he)]
    rw [this]
    rfl

theorem kids_filter_ok {s : OTree} (hn : s.pre.Nodup) :
    (∀ k, k ∈ s.kids → decide (k.addr ∈ s.kids.map OTree.addr) = true) ∧
    (∀ k, k ∈ s.kids → ∀ y, y ∈ preList k.kids →
      decide (y ∈ s.kids.map OTree.addr) = false) := by
  refine ⟨fun k hk => by simpa using ⟨k, hk, rfl⟩, ?_⟩
  intro k hk y hy
  simp only [decide_eq_false_iff_not]
  intro hmem
  obtain ⟨k', hk', rfl⟩ := List.mem_map.1 hmem
  have hnk := OTree.kids_nodup hn
  have hyk : k'.addr ∈ k.pre := by
    rw [OTree.pre_eq]
    exact List.mem_cons_of_mem _ hy
  have := kid_unique hnk hk' hk (OTree.addr_mem_pre k') hyk
  subst this
  exact OTree.addr_not_mem_kids (preList_nodup_of_mem hk hnk) hy

theorem located_walk {s : OTree} {l : List (Nat × Bool)} (hloc : Located s l) {b : Bool}
    {x : Nat} (hx : x ∈ s.pre) (hm : (x, b) ∈ l) :
    ∃ l1 ls l2, l = l1 ++ ls ++ l2 ∧ Walk s ls ∧
      (∀ e, e ∈ l1 → e.1 ∉ s.pre) ∧ (∀ e, e ∈ l2 → e.1 ∉ s.pre) ∧ (x, b) ∈ ls := by
  rcases hloc with hno | ⟨l1, ls, l2, rfl, hw, h1, h2⟩
  · exact absurd hx (hno _ hm)
  · refine ⟨l1, ls, l2, rfl, hw, h1, h2, ?_⟩
    rcases List.mem_append.1 hm with hm | hm
    · rcases List.mem_append.1 hm with hm | hm
      · exact absurd hx (h1 _ hm)
      · exact hm
    · exact absurd hx (h2 _ hm)

theorem located_false {s : OTree} {l : List (Nat × Bool)} (hloc : Located s l)
    (hn : s.pre.Nodup) (hm : (s.addr, false) ∈ l) :
    ∀ d, d ∈ preList s.kids → ∀ b, (d, b) ∉ l := by
  intro d hd b hdb
  have hds : d ∈ s.pre := by
    rw [OTree.pre_eq]
    exact List.mem_cons_of_mem _ hd
  obtain ⟨l1, ls, l2, rfl, hw, h1, h2, hin⟩ := located_walk hloc (OTree.addr_mem_pre s) hm
  have hnot := OTree.addr_not_mem_kids hn
  have hls : ls = [(s.addr, false)] := by
    rcases walk_iff.1 hw with e | ⟨l', rfl, hl'⟩
    · exact e
    · rcases List.mem_cons.1 hin with e | hin
      · simp at e
      · exact absurd (walkAll_mem_pre hl' _ hin) hnot
  subst hls
  rcases List.mem_append.1 hdb with hdb | hdb
  · rcases List.mem_append.1 hdb with hdb | hdb
    · exact h1 _ hdb hds
    · simp only [List.mem_singleton, Prod.mk.injEq] at hdb
      exact hnot (hdb.1 ▸ hd)
  · exact h2 _ hdb hds

theorem located_true {s : OTree} {l : List (Nat × Bool)} (hloc : Located s l)
    (hn : s.pre.Nodup) (hm : (s.addr, true) ∈ l) :
    (l.map Prod.fst).filter (fun a => decide (a ∈ s.kids.map OTree.addr))
      = s.kids.map OTree.addr := by
  obtain ⟨l1, ls, l2, rfl, hw, h1, h2, hin⟩ := located_walk hloc (OTree.addr_mem_pre s) hm
  have hnot := OTree.addr_not_mem_kids hn
  have hroots : ∀ y, y ∈ s.kids.map OTree.addr → y ∈ s.pre := by
    intro y hy
    obtain ⟨k, hk, rfl⟩ := List.mem_map.1 hy
    rw [OTree.pre_eq]
    exact List.mem_cons_of_mem _ (mem_preList.2 ⟨k, hk, OTree.addr_mem_pre k⟩)
  have hout : ∀ m : List (Nat × Bool), (∀ e, e ∈ m → e.1 ∉ s.pre) →
      (m.map Prod.fst).filter (fun a => decide (a ∈ s.kids.map OTree.addr)) = [] := by
    intro m hmm
    rw [List.filter_eq_nil_iff]
    intro y hy
    obtain ⟨e, he, rfl⟩ := List.mem_map.1 hy
    simp only [decide_eq_true_eq]
    exact fun hc => hmm e he (hroots _ hc)
  obtain ⟨l', rfl, hl'⟩ : ∃ l', ls = (s.addr, true) :: l' ∧ WalkAll s.kids l' := by
    rcases walk_iff.1 hw with e | hex
    · rw [e] at hin
      simp at hin
    · exact hex
  have hself : decide (s.addr ∈ s.kids.map OTree.addr) = false := by
    simp only [decide_eq_false_iff_not]
    intro hc
    obtain ⟨k, hk, hka⟩ := List.mem_map.1 hc
    exact hnot (mem_preList.2 ⟨k, hk, hka ▸ OTree.addr_mem_pre k⟩)
  obtain ⟨hq, hq'⟩ := kids_filter_ok hn
  rw [List.map_append, List.map_append, List.filter_append, List.filter_append, hout l1 h1,
    hout l2 h2, List.map_cons, List.filter_cons, hself]
  simp only [Bool.false_eq_true, if_false, List.nil_append, List.append_nil]
  exact walkAll_filter _ hl' hq hq'

theorem located_kid {s : OTree} {l : List (Nat × Bool)} (hloc : Located s l)
    (hn : s.pre.Nodup) {k : OTree} (hk : k ∈ s.kids) {b : Bool} (hm : (k.addr, b) ∈ l) :
    (s.addr, true) ∈ l := by
  have hks : k.addr ∈ preList s.kids := mem_preList.2 ⟨k, hk, OTree.addr_mem_pre k⟩
  have hks' : k.addr ∈ s.pre := by
    rw [OTree.pre_eq]
    exact List.mem_cons_of_mem _ hks
  obtain ⟨l1, ls, l2, rfl, hw, _, _, hin⟩ := located_walk hloc hks' hm
  rcases walk_iff.1 hw with e | ⟨l', rfl, _⟩
  · rw [e] at hin
    simp only [List.mem_singleton, Prod.mk.injEq] at hin
    exact absurd (hin.1 ▸ hks) (OTree.addr_not_mem_kids hn)
  · simp

theorem parent_in_tree : ∀ t : OTree, ∀ x, x ∈ preList t.kids →
    ∃ s, s ∈ t.subtrees ∧ ∃ k, k ∈ s.kids ∧ k.addr = x := by
  apply OTree.ind
  intro a ks ih x hx
  simp only [OTree.kids] at hx
  obtain ⟨k, hk, hxk⟩ := mem_preList.1 hx
  rw [OTree.pre_eq] at hxk
  rcases List.mem_cons.1 hxk with rfl | hxk
  · exact ⟨OTree.mk a ks, OTree.self_mem_subtrees _, k, hk, rfl⟩
  · obtain ⟨s, hs, hrest⟩ := ih k hk x hxk
    refine ⟨s, ?_, hrest⟩
    simp only [OTree.subtrees, List.mem_cons]
    exact Or.inr (mem_subtreesList.2 ⟨k, hk, hs⟩)

theorem wellFormed_subtree {F D : Type} {h : Heap F D} {scene : Nat} {T : OTree}
    (hw : WellFormed h scene T) {x : Nat} (hx : x ∈ preList T.kids) :
    ∃ s, s ∈ subtreesList T.kids ∧ s.addr = x ∧ s.pre.Nodup ∧ ∃ q, Realizes h q s := by
  obtain ⟨s, hs, hsx⟩ := mem_kids_of_mem_preList hx
  have hst : s ∈ T.subtrees := by
    rw [OTree.subtrees_eq]
    exact List.mem_cons_of_mem _ hs
  exact ⟨s, hs, hsx, List.Nodup.sublist (subtree_pre_sublist T s hst) hw.2.2.1,
    realizes_sub T none hw.2.1 s hst⟩

/-! ## Pruning -/

theorem pruneList_eq (b : Nat) (ks : List OTree) :
    pruneList b ks = (ks.filter (fun k => decide (k.addr ≠ b))).map (OTree.prune b) := by
  induction ks with
  | nil => simp [pruneList]
  | cons k ks ih =>
    simp only [pruneList, List.filter_cons]
    by_cases hk : k.addr = b
    · simp [hk, ih]
    · simp [hk, ih]

theorem OTree.prune_addr (b : Nat) (t : OTree) : (OTree.prune b t).addr = t.addr := by
  cases t with
  | mk a ks => simp [OTree.prune, OTree.addr]

theorem OTree.prune_id (b : Nat) : ∀ t : OTree, b ∉ preList t.kids → OTree.prune b t = t := by
  apply OTree.ind
  intro a ks ih hb
  simp only [OTree.kids] at hb
  simp only [OTree.prune, pruneList_eq]
  congr 1
  have hall : ∀ k, k ∈ ks → decide (k.addr ≠ b) = true := by
    intro k hk
    simp only [decide_eq_true_eq]
    intro e
    exact hb (mem_preList.2 ⟨k, hk, e ▸ OTree.addr_mem_pre k⟩)
  rw [List.filter_eq_self.2 hall]
  have : ∀ k, k ∈ ks → OTree.prune b k = id k := by
    intro k hk
    refine ih k hk (fun hc => hb (mem_preList.2 ⟨k, hk, ?_⟩))
    rw [OTree.pre_eq]
    exact List.mem_cons_of_mem _ hc
  rw [List.map_congr_left this, List.map_id]

theorem pruneList_id (b : Nat) (ks : List OTree) (hb : b ∉ preList ks) : pruneList b ks = ks := by
  have := OTree.prune_id b (OTree.mk 0 ks) hb
  simp only [OTree.prune, OTree.mk.injEq, true_and] at this
  exact this

theorem pruneList_perm (b : Nat) (s : OTree) (ks : List OTree)
    (ih : ∀ k, k ∈ ks → k.pre.Nodup → s ∈ subtreesList k.kids →
      k.pre.Perm ((OTree.prune b k).pre ++ s.pre))
    (hn : (preList ks).Nodup) (hs : s ∈ subtreesList ks) (hb : s.addr = b) :
    (preList ks).Perm (preList (pruneList b ks) ++ s.pre) := by
  induction ks with
  | nil => simp [subtreesList] at hs
  | cons k ks ihk =>
    simp only [preList] at hn
    obtain ⟨hnk, hnks, hdis⟩ := List.nodup_append.1 hn
    simp only [subtreesList, List.mem_append] at hs
    simp only [pruneList, preList]
    by_cases hkb : k.addr = b
    · simp only [hkb, if_true]
      have hbk : b ∈ k.pre := hkb ▸ OTree.addr_mem_pre k
      have hsk : s = k := by
        rcases hs with hs | hs
        · rw [OTree.subtrees_eq] at hs
          rcases List.mem_cons.1 hs with e | hs
          · exact e
          · exfalso
            have := (subtree_sublist_kids hs).subset (OTree.addr_mem_pre s)
            rw [hb, ← hkb] at this
            exact OTree.addr_not_mem_kids hnk this
        · exfalso
          obtain ⟨k', hk', hsk'⟩ := mem_subtreesList.1 hs
          have h1 : s.addr ∈ preList ks :=
            mem_preList.2 ⟨k', hk', (subtree_pre_sublist k' s hsk').subset (OTree.addr_mem_pre s)⟩
          rw [hb] at h1
          exact List.disjoint_left.1 hdis hbk h1
      subst hsk
      rw [pruneList_id b ks (List.disjoint_left.1 hdis hbk)]
      exact List.perm_append_comm
    · simp only [hkb, if_false, preList]
      rcases hs with hs | hs
      · rw [OTree.subtrees_eq] at hs
        have hs' : s ∈ subtreesList k.kids := by
          rcases List.mem_cons.1 hs with e | hs
          · exact absurd (e ▸ hb) hkb
          · exact hs
        have hbk : b ∈ k.pre := by
          rw [← hb, OTree.pre_eq]
          exact List.mem_cons_of_mem _
            ((subtree_sublist_kids hs').subset (OTree.addr_mem_pre s))
        rw [pruneList_id b ks (List.disjoint_left.1 hdis hbk)]
        have h1 := ih k (by simp) hnk hs'
        refine (List.Perm.append_right _ h1).trans ?_
        rw [List.append_assoc, List.append_assoc]
        exact List.Perm.append_left _ List.perm_append_comm
      · obtain ⟨k', hk', hsk'⟩ := mem_subtreesList.1 hs
        have h1 : b ∈ preList ks := by
          rw [← hb]
          exact mem_preList.2
            ⟨k', hk', (subtree_pre_sublist k' s hsk').subset (OTree.addr_mem_pre s)⟩
        have hbk : b ∉ preList k.kids := by
          intro hc
          refine List.disjoint_left.1 hdis ?_ h1
          rw [OTree.pre_eq]
          exact List.mem_cons_of_mem _ hc
        rw [OTree.prune_id b k hbk, List.append_assoc]
        exact List.Perm.append_left _ (ihk (fun x hx => ih x (by simp [hx])) hnks hs)

theorem OTree.prune_perm (b : Nat) (s : OTree) : ∀ t : OTree, t.pre.Nodup →
    s ∈ subtreesList t.kids → s.addr = b → t.pre.Perm ((OTree.prune b t).pre ++ s.pre) := by
  apply OTree.ind
  intro a ks ih hn hs hb
  simp only [OTree.kids] at hs
  simp only [OTree.prune, OTree.pre, List.cons_append]
  refine List.Perm.cons a ?_
  exact pruneList_perm b s ks (fun k hk hnk hsk => ih k hk hnk hsk hb)
    (OTree.kids_nodup hn) hs hb

theorem roots_sublist (ks : List OTree) : (ks.map OTree.addr).Sublist (preList ks) := by
  induction ks with
  | nil => simp [preList]
  | cons k ks ih =>
    simp only [List.map_cons, preList]
    rw [OTree.pre_eq, List.cons_append]
    exact List.Sublist.cons₂ _ (ih.trans (List.sublist_append_right _ _))

theorem realizes_local {F D : Type} {h h' : Heap F D} : ∀ t : OTree,
    (∀ x, x ∈ t.pre → (load h' x).map links = (load h x).map links) →
    ∀ p, Realizes h p t → Realizes h' p t := by
  apply OTree.ind
  intro a ks ih hO p hr
  rw [realizes_mk] at hr ⊢
  obtain ⟨n, hl, hp, hc, hk⟩ := hr
  have hlk := hO a (by simp [OTree.pre])
  rw [hl] at hlk
  cases hl' : load h' a with
  | none => simp [hl'] at hlk
  | some n' =>
    rw [hl'] at hlk
    simp [links] at hlk
    refine ⟨n', rfl, hlk.2.1.trans hp, hlk.1.trans hc, ?_⟩
    intro k hkm
    refine ih k hkm ?_ _ (hk k hkm)
    intro x hx
    refine hO x ?_
    simp only [OTree.pre]
    exact List.mem_cons_of_mem _ (mem_preList.2 ⟨k, hkm, hx⟩)

theorem realizes_prune {F D : Type} {h h' : Heap F D} (b P : Nat) (hb : isParent h P b)
    (hP : ∀ n, load h P = some n → ∃ n', load h' P = some n' ∧
      n'._children = n._children.erase b ∧ n'._parent_node = n._parent_node) :
    ∀ t : OTree, t.pre.Nodup →
      (∀ x, x ∈ t.pre → x ≠ P → (load h' x).map links = (load h x).map links) →
      ∀ p, Realizes h p t → Realizes h' p (OTree.prune b t) := by
  apply OTree.ind
  intro x ks ih hn hO p hr
  rw [realizes_mk] at hr
  obtain ⟨n, hl, hp, hc, hk⟩ := hr
  have hnks : (preList ks).Nodup := OTree.kids_nodup hn
  have hkids : ∀ k, k ∈ pruneList b ks → Realizes h' (some x) k := by
    intro k hkm
    rw [pruneList_eq] at hkm
    obtain ⟨k0, hk0, rfl⟩ := List.mem_map.1 hkm
    have hk0' : k0 ∈ ks := (List.mem_filter.1 hk0).1
    refine ih k0 hk0' (preList_nodup_of_mem hk0' hnks) ?_ _ (hk k0 hk0')
    intro y hy hyP
    have hyt : y ∈ (OTree.mk x ks).pre := by
      simp only [OTree.pre]
      exact List.mem_cons_of_mem _ (mem_preList.2 ⟨k0, hk0', hy⟩)
    exact hO y hyt hyP
  have haddr : (pruneList b ks).map OTree.addr
      = (ks.map OTree.addr).filter (fun y => decide (y ≠ b)) := by
    rw [pruneList_eq, List.map_map, List.filter_map]
    apply List.map_congr_left
    intro k _
    exact OTree.prune_addr b k
  simp only [OTree.prune]
  rw [realizes_mk]
  by_cases hxP : x = P
  · subst hxP
    obtain ⟨n', hl', hc', hp'⟩ := hP n hl
    refine ⟨n', hl', hp'.trans hp, ?_, hkids⟩
    rw [hc', hc, haddr]
    have hnr : (ks.map OTree.addr).Nodup := List.Nodup.sublist (roots_sublist ks) hnks
    rw [hnr.erase_eq_filter]
    apply List.filter_congr
    intro y _
    by_cases hy : y = b
    · simp [hy]
    · simp [hy]
  · have hlk := hO x (by simp [OTree.pre]) hxP
    rw [hl] at hlk
    cases hl' : load h' x with
    | none => simp [hl'] at hlk
    | some n' =>
      rw [hl'] at hlk
      simp [links] at hlk
      refine ⟨n', rfl, hlk.2.1.trans hp, ?_, hkids⟩
      rw [hlk.1, hc, haddr]
      symm
      rw [List.filter_eq_self]
      intro y hy
      simp only [decide_eq_true_eq]
      intro hyb
      obtain ⟨k, hkm, hka⟩ := List.mem_map.1 hy
      obtain ⟨nk, hlk', hpk, _⟩ := realizes_load (hk k hkm)
      obtain ⟨nb, hlb, hpb⟩ := hb
      rw [hka, hyb, hlb] at hlk'
      cases hlk'
      rw [hpb] at hpk
      exact hxP (Option.some.inj hpk).symm

/-! ## Heights -/

theorem heightList_le {ks : List OTree} {n : Nat} :
    heightList ks ≤ n ↔ ∀ k, k ∈ ks → k.height ≤ n := by
  induction ks with
  | nil => simp [heightList]
  | cons k ks ih => simp [heightList, ih]

theorem OTree.prune_height (b : Nat) : ∀ t : OTree, (OTree.prune b t).height ≤ t.height := by
  apply OTree.ind
  intro a ks ih
  simp only [OTree.prune, OTree.height, Nat.add_le_add_iff_right]
  rw [heightList_le]
  intro k hk
  rw [pruneList_eq] at hk
  obtain ⟨k0, hk0, rfl⟩ := List.mem_map.1 hk
  have hk0' : k0 ∈ ks := (List.mem_filter.1 hk0).1
  exact (ih k0 hk0').trans (height_le_heightList hk0')

theorem subtree_height : ∀ t : OTree, ∀ s, s ∈ t.subtrees → s.height ≤ t.height := by
  apply OTree.ind
  intro a ks ih s hs
  simp only [OTree.subtrees, List.mem_cons] at hs
  rcases hs with rfl | hs
  · exact le_refl _
  · obtain ⟨k, hk, hsk⟩ := mem_subtreesList.1 hs
    have h1 := ih k hk s hsk
    have h2 := height_le_heightList hk
    simp only [OTree.height]
    omega

theorem kid_height {t k : OTree} (hk : k ∈ t.kids) : k.height + 1 ≤ t.height := by
  cases t with
  | mk a ks =>
    simp only [OTree.kids] at hk
    have := height_le_heightList hk
    simp only [OTree.height]
    omega

/-! ## The walk up the parent pointers -/

theorem parentageLoop_none {F D : Type} (h : Heap F D) (c fuel : Nat) :
    parentageLoop h c fuel none = .ok () := by
  cases fuel <;> rfl

theorem parentageLoop_step {F D : Type} {h : Heap F D} {c x : Nat} {n : node F D}
    (hxc : x ≠ c) (hl : load h x = some n) (f : Nat) :
    parentageLoop h c (f + 1) (some x) = parentageLoop h c f n._parent_node := by
  simp only [parentageLoop, hxc, if_false, hl]

theorem parentageLoop_hit {F D : Type} (h : Heap F D) (c f : Nat) :
    parentageLoop h c (f + 1) (some c) = .error .assert_parentage := by
  simp only [parentageLoop, if_true]

theorem parentageLoop_congr {F D : Type} {h h' : Heap F D} (c : Nat)
    (hs : ∀ a, (load h' a).map (fun n => n._parent_node)
      = (load h a).map (fun n => n._parent_node)) :
    ∀ fuel p, parentageLoop h' c fuel p = parentageLoop h c fuel p := by
  intro fuel
  induction fuel with
  | zero =>
    intro p
    cases p <;> rfl
  | succ f ih =>
    intro p
    cases p with
    | none => rfl
    | some x =>
      simp only [parentageLoop]
      by_cases hxc : x = c
      · simp [hxc]
      · simp only [hxc, if_false]
        have := hs x
        cases hl : load h x with
        | none =>
          rw [hl] at this
          cases hl' : load h' x with
          | none => rfl
          | some n' => simp [hl'] at this
        | some n =>
          rw [hl] at this
          cases hl' : load h' x with
          | none => simp [hl'] at this
          | some n' =>
            rw [hl'] at this
            simp only [Option.map_some', Option.some.injEq] at this
            simp only [this]
            exact ih _

theorem climb {F D : Type} {h : Heap F D} {c : Nat} : ∀ t : OTree, ∀ p, Realizes h p t →
    c ∉ t.pre → ∀ x, x ∈ t.pre →
    ∃ j, j < t.height ∧
      ∀ f, parentageLoop h c (f + j + 1) (some x) = parentageLoop h c f p := by
  apply OTree.ind
  intro a ks ih p hr hc x hx
  have hr' := hr
  rw [realizes_mk] at hr
  obtain ⟨n, hl, hp, _, hk⟩ := hr
  simp only [OTree.pre, List.mem_cons, not_or] at hc hx
  have hac : a ≠ c := fun e => hc.1 e.symm
  have hroot : ∀ f, parentageLoop h c (f + 1) (some a) = parentageLoop h c f p := by
    intro f
    rw [parentageLoop_step hac hl, hp]
  rcases hx with rfl | hx
  · exact ⟨0, OTree.height_pos _, hroot⟩
  · obtain ⟨k, hkm, hxk⟩ := mem_preList.1 hx
    obtain ⟨j, hj, hloop⟩ := ih k hkm (some a) (hk k hkm)
      (fun hck => hc.2 (mem_preList.2 ⟨k, hkm, hck⟩)) x hxk
    refine ⟨j + 1, ?_, ?_⟩
    · have := height_le_heightList hkm
      simp only [OTree.height]
      omega
    · intro f
      have := hloop (f + 1)
      rw [show f + (j + 1) + 1 = f + 1 + j + 1 by omega, this]
      exact hroot f

/-! ## Evaluating append(node&) -/

theorem append_assert_parent {F D : Type} {h : Heap F D} {this child : Nat} {nt nc : node F D}
    (hlt : load h this = some nt) (hlc : load h child = some nc)
    (hpar : nc._parent_node = some this) (fuel : Nat) :
    node.append fuel h this child = .error .assert_parent := by
  simp only [node.append, hlt, hlc, hpar, if_true]

theorem append_eval {F D : Type} {h : Heap F D} {this child p : Nat} {nt nc np : node F D}
    (hlt : load h this = some nt) (hlc : load h child = some nc)
    (hpar : nc._parent_node = some p) (hpt : p ≠ this) (hsc : nt._scene = nc._scene)
    (hlp : load h p = some np) (hmem : child ∈ np._children) (htc : this ≠ child)
    (hpc : p ≠ child) (fuel : Nat) :
    node.append fuel h this child =
      match parentageLoop h child fuel nt._parent_node with
      | .error e => .error e
      | .ok () =>
        .ok (store (store (store h p { np with _children := np._children.erase child })
          this { nt with _children := nt._children ++ [child] })
          child { nc with _parent_node := some this }) := by
  have h1 : load (store h p { np with _children := np._children.erase child }) this
      = some nt := by
    rw [load_store_ne _ _ hpt]
    exact hlt
  have h2 : load (store (store h p { np with _children := np._children.erase child })
      this { nt with _children := nt._children ++ [child] }) child = some nc := by
    rw [load_store_ne _ _ htc, load_store_ne _ _ hpc]
    exact hlc
  have hne : ¬ (some p = some this) := fun e => hpt (Option.some.inj e)
  simp only [node.append, hlt, hlc, hpar]
  rw [if_neg hne, if_neg (not_not.2 hsc)]
  cases parentageLoop h child fuel nt._parent_node with
  | error e => rfl
  | ok u => simp only [hlp, hmem, if_true, h1, h2]

/-! ## Reparenting in a well-formed scene -/

theorem load_reparented {F D : Type} {h : Heap F D} {this child p : Nat} {nt nc np : node F D}
    (hlt : load h this = some nt) (hlc : load h child = some nc) (hlp : load h p = some np)
    (hpt : p ≠ this) (htc : this ≠ child) (hpc : p ≠ child) (x : Nat) :
    load (reparented h this child p nt nc np) x =
      if x = child then some { nc with _parent_node := some this }
      else if x = this then some { nt with _children := nt._children ++ [child] }
      else if x = p then some { np with _children := np._children.erase child }
      else load h x := by
  have h1 : load (store h p { np with _children := np._children.erase child }) this
      = some nt := by
    rw [load_store_ne _ _ hpt]
    exact hlt
  have h2 : load (store (store h p { np with _children := np._children.erase child })
      this { nt with _children := nt._children ++ [child] }) child = some nc := by
    rw [load_store_ne _ _ htc, load_store_ne _ _ hpc]
    exact hlc
  unfold reparented
  by_cases hxc : x = child
  · subst hxc
    rw [load_store_same _ h2]
    simp
  · rw [load_store_ne _ _ (Ne.symm hxc)]
    by_cases hxt : x = this
    · subst hxt
      rw [load_store_same _ h1]
      simp [hxc]
    · rw [load_store_ne _ _ (Ne.symm hxt)]
      by_cases hxp : x = p
      · subst hxp
        rw [load_store_same _ hlp]
        simp [hxc, hxt]
      · rw [load_store_ne _ _ (Ne.symm hxp)]
        simp [hxc, hxt, hxp]

theorem append_eval_reparented {F D : Type} {h : Heap F D} {this child p : Nat}
    {nt nc np : node F D}
    (hlt : load h this = some nt) (hlc : load h child = some nc)
    (hpar : nc._parent_node = some p) (hpt : p ≠ this) (hsc : nt._scene = nc._scene)
    (hlp : load h p = some np) (hmem : child ∈ np._children) (htc : this ≠ child)
    (hpc : p ≠ child) (fuel : Nat) :
    node.append fuel h this child =
      match parentageLoop h child fuel nt._parent_node with
      | .error e => .error e
      | .ok () => .ok (reparented h this child p nt nc np) :=
  append_eval hlt hlc hpar hpt hsc hlp hmem htc hpc fuel

theorem kid_mem_subtrees {s k : OTree} (hk : k ∈ s.kids) : k ∈ subtreesList s.kids :=
  mem_subtreesList.2 ⟨k, hk, OTree.self_mem_subtrees k⟩

theorem realizes_move {F D : Type} {h h' : Heap F D} {p p' : Option Nat} {s : OTree}
    (hr : Realizes h p s) {n n' : node F D} (hl : load h s.addr = some n)
    (hl' : load h' s.addr = some n') (hc : n'._children = n._children)
    (hp : n'._parent_node = p')
    (hO : ∀ x, x ∈ preList s.kids → (load h' x).map links = (load h x).map links) :
    Realizes h' p' s := by
  cases s with
  | mk a ks =>
    rw [realizes_mk] at hr ⊢
    obtain ⟨m, hm, _, hmc, hk⟩ := hr
    simp only [OTree.addr] at hl hl'
    rw [hl] at hm
    cases hm
    refine ⟨n', hl', hp, hc.trans hmc, ?_⟩
    intro k hkm
    refine realizes_local k ?_ _ (hk k hkm)
    intro x hx
    exact hO x (mem_preList.2 ⟨k, hkm, hx⟩)

/-- What a well-formed scene knows about a node `B` that is neither `A` nor an
ancestor of `A`: it is a child tree `kB` of some subtree `sP`, and the store
agrees. -/
theorem reparent_setup {F D : Type} {h : Heap F D} {scene : Nat} {T : OTree}
    (hw : WellFormed h scene T) {A B : Nat} (hA : A ∈ T.pre) (hB : B ∈ T.pre) (hAB : A ≠ B)
    (hnd : ¬ Descends h B A) :
    ∃ sP kB nA nB nP, sP ∈ T.subtrees ∧ kB ∈ sP.kids ∧ kB.addr = B ∧
      kB ∈ subtreesList T.kids ∧ kB.pre.Nodup ∧ Realizes h (some sP.addr) kB ∧
      load h A = some nA ∧ load h B = some nB ∧ load h sP.addr = some nP ∧
      nB._parent_node = some sP.addr ∧ nP._children = sP.kids.map OTree.addr ∧
      B ∈ nP._children ∧ nA._scene = nB._scene ∧
      sP.addr ≠ B ∧ A ∉ kB.pre ∧ sP.addr ∉ kB.pre := by
  obtain ⟨haddr, hr, hn, hcov⟩ := hw
  have hBk : B ∈ preList T.kids := by
    rw [OTree.pre_eq] at hB hA
    rcases List.mem_cons.1 hB with e | hB
    · exfalso
      rcases List.mem_cons.1 hA with e' | hA
      · exact hAB (e'.trans e.symm)
      · exact hnd (e ▸ descends_of_mem T none hr A hA)
    · exact hB
  obtain ⟨sP, hsP, kB, hkB, hkaddr⟩ := parent_in_tree T B hBk
  obtain ⟨q, hq⟩ := realizes_sub T none hr sP hsP
  have hrk : Realizes h (some sP.addr) kB := realizes_kids hq kB hkB
  have hnP : sP.pre.Nodup := List.Nodup.sublist (subtree_pre_sublist T sP hsP) hn
  have hnk : kB.pre.Nodup := preList_nodup_of_mem hkB (OTree.kids_nodup hnP)
  have hksub : kB.pre ⊆ preList sP.kids := (pre_sublist_preList hkB).subset
  have hPk : sP.addr ∉ kB.pre := fun hc => OTree.addr_not_mem_kids hnP (hksub hc)
  obtain ⟨nA, hlA⟩ := realizes_live hr hA
  obtain ⟨nB, hlB, hpB, _⟩ := realizes_load hrk
  obtain ⟨nP, hlP, _, hcP⟩ := realizes_load hq
  rw [hkaddr] at hlB
  have hkT : kB ∈ subtreesList T.kids := by
    have h1 : kB ∈ T.subtrees := by
      refine subtrees_trans T sP hsP kB ?_
      rw [OTree.subtrees_eq]
      exact List.mem_cons_of_mem _ (kid_mem_subtrees hkB)
    rw [OTree.subtrees_eq] at h1
    rcases List.mem_cons.1 h1 with e | h1
    · exfalso
      rw [← hkaddr, e] at hBk
      exact OTree.addr_not_mem_kids hn hBk
    · exact h1
  refine ⟨sP, kB, nA, nB, nP, hsP, hkB, hkaddr, hkT, hnk, hrk, hlA, hlB, hlP, hpB, hcP, ?_, ?_,
    ?_, ?_, hPk⟩
  · rw [hcP, ← hkaddr]
    exact List.mem_map_of_mem _ hkB
  · rw [(hcov A nA hlA).2 hA, (hcov B nB hlB).2 hB]
  · intro e
    exact hPk (e ▸ hkaddr ▸ OTree.addr_mem_pre kB)
  · intro hc
    rw [OTree.pre_eq] at hc
    rcases List.mem_cons.1 hc with e | hc
    · exact hAB (e.trans hkaddr)
    · exact hnd (hkaddr ▸ descends_of_mem kB _ hrk A hc)

/-- Reparenting `B` below `A` in a well-formed scene, when `B` is not `A`, not
an ancestor of `A` and not already a child of `A`: the parent `P` of `B` is a
third node, the walk up from `A` ends without meeting `B`, and the store after
the three writes holds the tree with `B` pruned and grafted below `A`. -/
theorem reparent_spec {F D : Type} {h : Heap F D} {scene : Nat} {T : OTree}
    (hw : WellFormed h scene T) {A B : Nat} (hA : A ∈ T.pre) (hB : B ∈ T.pre) (hAB : A ≠ B)
    (hnd : ¬ Descends h B A)
    (hpar : ∀ nB, load h B = some nB → nB._parent_node ≠ some A) :
    ∃ P kB nA nB nP,
      load h A = some nA ∧ load h B = some nB ∧ load h P = some nP ∧
      nB._parent_node = some P ∧ P ≠ A ∧ P ≠ B ∧ B ∈ nP._children ∧ nP._children.Nodup ∧
      nA._scene = nB._scene ∧ kB.addr = B ∧ Realizes h (some P) kB ∧
      WellFormed (reparented h A B P nA nB nP) scene (OTree.graft A kB (OTree.prune B T)) ∧
      (OTree.graft A kB (OTree.prune B T)).pre.Perm T.pre ∧
      Realizes (reparented h A B P nA nB nP) (some A) kB ∧
      ∀ fuel, T.height ≤ fuel → parentageLoop h B fuel nA._parent_node = .ok () := by
  obtain ⟨sP, kB, nA, nB, nP, hsP, hkB, hkaddr, hkT, hnk, hrk, hlA, hlB, hlP, hpB, hcP, hBmem,
    hsc, hPB, hAk, hPk⟩ := reparent_setup hw hA hB hAB hnd
  obtain ⟨haddr, hr, hn, hcov⟩ := hw
  have hPA : sP.addr ≠ A := fun e => hpar nB hlB (e ▸ hpB)
  have hload := load_reparented hlA hlB hlP hPA hAB hPB
  have hnP : sP.pre.Nodup := List.Nodup.sublist (subtree_pre_sublist T sP hsP) hn
  have hcn : nP._children.Nodup := by
    rw [hcP]
    exact List.Nodup.sublist (roots_sublist _) (OTree.kids_nodup hnP)
  -- the tree without B
  have hperm1 : T.pre.Perm ((OTree.prune B T).pre ++ kB.pre) :=
    OTree.prune_perm B kB T hn hkT hkaddr
  have hn1 : ((OTree.prune B T).pre ++ kB.pre).Nodup := hperm1.nodup_iff.1 hn
  obtain ⟨hnT1, _, hdis⟩ := List.nodup_append.1 hn1
  have hBk : B ∈ kB.pre := hkaddr ▸ OTree.addr_mem_pre kB
  have hBT1 : B ∉ (OTree.prune B T).pre := fun hc => List.disjoint_left.1 hdis hc hBk
  have hAT1 : A ∈ (OTree.prune B T).pre := by
    rcases List.mem_append.1 (hperm1.mem_iff.1 hA) with h1 | h1
    · exact h1
    · exact absurd h1 hAk
  have hlP1 : load (store h sP.addr { nP with _children := nP._children.erase B }) sP.addr
      = some { nP with _children := nP._children.erase B } := load_store_same _ hlP
  have hr1 : Realizes (store h sP.addr { nP with _children := nP._children.erase B }) none
      (OTree.prune B T) := by
    refine realizes_prune B sP.addr ⟨nB, hlB, hpB⟩ ?_ T hn ?_ none hr
    · intro n hl
      rw [hlP] at hl
      cases hl
      exact ⟨_, hlP1, rfl, rfl⟩
    · intro x _ hxP
      rw [load_store_ne _ _ (Ne.symm hxP)]
  -- the subtree of B in the final store
  have hrB : Realizes (reparented h A B sP.addr nA nB nP) (some A) kB := by
    have hlB' : load h kB.addr = some nB := by
      rw [hkaddr]
      exact hlB
    have hlB3 : load (reparented h A B sP.addr nA nB nP) kB.addr
        = some { nB with _parent_node := some A } := by
      rw [hkaddr, hload, if_pos rfl]
    refine realizes_move hrk hlB' hlB3 rfl rfl ?_
    · intro x hx
      have hxk : x ∈ kB.pre := by
        rw [OTree.pre_eq]
        exact List.mem_cons_of_mem _ hx
      have hxB : x ≠ B := fun e => OTree.addr_not_mem_kids hnk (hkaddr ▸ e ▸ hx)
      have hxA : x ≠ A := fun e => hAk (e ▸ hxk)
      have hxP : x ≠ sP.addr := fun e => hPk (e ▸ hxk)
      rw [hload]
      simp [hxB, hxA, hxP]
  -- the whole tree in the final store
  have hrT : Realizes (reparented h A B sP.addr nA nB nP) none
      (OTree.graft A kB (OTree.prune B T)) := by
    refine realizes_graft A kB hrB ?_ (OTree.prune B T) ?_ none hr1
    · intro n hl
      rw [load_store_ne _ _ hPA, hlA] at hl
      cases hl
      refine ⟨{ nA with _children := nA._children ++ [B] }, ?_, ?_, rfl⟩
      · rw [hload, if_neg hAB, if_pos rfl]
      · simp [hkaddr]
    · intro x hx hxA
      have hxB : x ≠ B := fun e => hBT1 (e ▸ hx)
      unfold reparented
      rw [load_store_ne _ _ (Ne.symm hxB), load_store_ne _ _ (Ne.symm hxA)]
  have hperm2 : (OTree.graft A kB (OTree.prune B T)).pre.Perm T.pre :=
    (OTree.graft_perm A kB (OTree.prune B T) hnT1 hAT1).trans hperm1.symm
  refine ⟨sP.addr, kB, nA, nB, nP, hlA, hlB, hlP, hpB, hPA, hPB, hBmem, hcn, hsc, hkaddr, hrk,
    ⟨?_, hrT, hperm2.nodup_iff.2 hn, ?_⟩, hperm2, hrB, ?_⟩
  · rw [OTree.graft_addr, OTree.prune_addr]
    exact haddr
  · intro a n hl
    rw [hperm2.mem_iff]
    rw [hload] at hl
    by_cases haB : a = B
    · simp only [haB, if_true, Option.some.injEq] at hl
      subst hl
      rw [haB]
      exact hcov B nB hlB
    · by_cases haA : a = A
      · simp only [haB, haA, hAB, if_false, if_true, Option.some.injEq] at hl
        subst hl
        rw [haA]
        exact hcov A nA hlA
      · by_cases haP : a = sP.addr
        · simp only [haP, hPB, hPA, if_false, if_true, Option.some.injEq] at hl
          subst hl
          rw [haP]
          exact hcov sP.addr nP hlP
        · simp only [haB, haA, haP, if_false] at hl
          exact hcov a n hl
  · intro fuel hf
    obtain ⟨j, hj, hloop⟩ := climb (OTree.prune B T) none hr1 hBT1 A hAT1
    have hjf : j ≤ fuel := by
      have := OTree.prune_height B T
      omega
    have hpp : ∀ a, (load (store h sP.addr { nP with _children := nP._children.erase B }) a).map
        (fun n => n._parent_node) = (load h a).map (fun n => n._parent_node) := by
      intro a
      by_cases haP : sP.addr = a
      · subst haP
        rw [hlP1, hlP]
        rfl
      · rw [load_store_ne _ _ haP]
    have hcongr := parentageLoop_congr B hpp
    rw [← parentageLoop_step hAB hlA fuel, ← hcongr,
      show fuel + 1 = (fuel - j) + j + 1 by omega, hloop, parentageLoop_none]

/-! ## No node is its own ancestor -/

theorem wellFormed_acyclic {F D : Type} {h : Heap F D} {scene : Nat} {T : OTree}
    (hw : WellFormed h scene T) {x : Nat} (hx : x ∈ T.pre) : ¬ Descends h x x := by
  intro hd
  obtain ⟨s, hs, hsx⟩ := mem_pre_iff.1 hx
  obtain ⟨q, hq⟩ := realizes_sub T none hw.2.1 s hs
  have hns : s.pre.Nodup := List.Nodup.sublist (subtree_pre_sublist T s hs) hw.2.2.1
  rw [← hsx] at hd
  exact OTree.addr_not_mem_kids hns (mem_of_descends hq hd)

theorem isChild_of_isParent {F D : Type} {h : Heap F D} {scene : Nat} {T : OTree}
    (hw : WellFormed h scene T) {q x : Nat} (hx : x ∈ T.pre) (hp : isParent h q x) :
    isChild h q x ∧ q ∈ T.pre := by
  obtain ⟨n, hl, hpar⟩ := hp
  rw [OTree.pre_eq] at hx
  rcases List.mem_cons.1 hx with e | hx
  · exfalso
    obtain ⟨m, hm, hpm, _⟩ := realizes_load hw.2.1
    rw [← e, hl] at hm
    cases hm
    rw [hpar] at hpm
    cases hpm
  · obtain ⟨sP, hsP, k, hk, hkx⟩ := parent_in_tree T x hx
    obtain ⟨q', hq'⟩ := realizes_sub T none hw.2.1 sP hsP
    obtain ⟨m, hm, hpm, _⟩ := realizes_load (realizes_kids hq' k hk)
    rw [hkx, hl] at hm
    cases hm
    rw [hpar] at hpm
    cases hpm
    exact ⟨hkx ▸ isChild_of_kid hq' hk, mem_pre_iff.2 ⟨sP, hsP, rfl⟩⟩

theorem descends_of_parents {F D : Type} {h : Heap F D} {scene : Nat} {T : OTree}
    (hw : WellFormed h scene T) {q x : Nat} (hx : x ∈ T.pre)
    (hp : Relation.TransGen (isParent h) q x) : Descends h q x ∧ q ∈ T.pre := by
  induction hp using Relation.TransGen.head_induction_on with
  | base hqx =>
    obtain ⟨hc, hq⟩ := isChild_of_isParent hw hx hqx
    exact ⟨Relation.TransGen.single hc, hq⟩
  | ih hac _ ih =>
    obtain ⟨hc, ha⟩ := isChild_of_isParent hw ih.2 hac
    exact ⟨Relation.TransGen.head hc ih.1, ha⟩

theorem wellFormed_acyclic_parents {F D : Type} {h : Heap F D} {scene : Nat} {T : OTree}
    (hw : WellFormed h scene T) {x : Nat} (hx : x ∈ T.pre) :
    ¬ Relation.TransGen (isParent h) x x :=
  fun hp => wellFormed_acyclic hw hx (descends_of_parents hw hx hp).1

theorem wellFormed_reach {F D : Type} {h : Heap F D} {scene : Nat} {T : OTree}
    (hw : WellFormed h scene T) (x : Nat) : Descends h scene x ↔ x ∈ preList T.kids := by
  rw [← hw.1]
  exact (descends_iff hw.2.1 x).symm

/-! ## More on grafting and on append(node&) -/

theorem OTree.graft_height (a : Nat) (s : OTree) : ∀ t : OTree,
    (OTree.graft a s t).height ≤ t.height + s.height := by
  apply OTree.ind
  intro x ks ih
  simp only [OTree.graft, OTree.height]
  have : heightList (graftList a s ks ++ if x = a then [s] else [])
      ≤ heightList ks + s.height := by
    rw [heightList_le]
    intro k hk
    rcases List.mem_append.1 hk with hk | hk
    · rw [graftList_eq] at hk
      obtain ⟨k0, hk0, rfl⟩ := List.mem_map.1 hk
      have h1 := ih k0 hk0
      have h2 := height_le_heightList hk0
      omega
    · by_cases hxa : x = a
      · simp only [hxa, if_true, List.mem_singleton] at hk
        subst hk
        omega
      · simp [hxa] at hk
  omega

theorem append_eval_error {F D : Type} {h : Heap F D} {this child : Nat} {nt nc : node F D}
    (hlt : load h this = some nt) (hlc : load h child = some nc)
    (hpar : nc._parent_node ≠ some this) (hsc : nt._scene = nc._scene) {fuel : Nat} {e : Fault}
    (hloop : parentageLoop h child fuel nt._parent_node = .error e) :
    node.append fuel h this child = .error e := by
  simp only [node.append, hlt, hlc]
  rw [if_neg hpar, if_neg (not_not.2 hsc), hloop]

theorem append_ok_parent {F D : Type} {h h' : Heap F D} {this child : Nat} {fuel : Nat}
    (hok : node.append fuel h this child = .ok h') :
    ∀ nc, load h child = some nc → nc._parent_node ≠ some this := by
  intro nc hlc hpar
  cases hlt : load h this with
  | none => simp [node.append, hlt] at hok
  | some nt =>
    rw [append_assert_parent hlt hlc hpar] at hok
    cases hok

/-- When `append(node&)` completes in a well-formed scene on a node `B` that is
neither `A` nor an ancestor of `A`, the store it leaves is the reparented one. -/
theorem append_ok_spec {F D : Type} {h h' : Heap F D} {scene : Nat} {T : OTree}
    (hw : WellFormed h scene T) {A B : Nat} (hA : A ∈ T.pre) (hB : B ∈ T.pre) (hAB : A ≠ B)
    (hnd : ¬ Descends h B A) {fuel : Nat} (hok : node.append fuel h A B = .ok h') :
    ∃ P kB nA nB nP,
      load h A = some nA ∧ load h B = some nB ∧ load h P = some nP ∧
      nB._parent_node = some P ∧ P ≠ A ∧ P ≠ B ∧ B ∈ nP._children ∧ nP._children.Nodup ∧
      kB.addr = B ∧ Realizes h (some P) kB ∧
      h' = reparented h A B P nA nB nP ∧
      WellFormed h' scene (OTree.graft A kB (OTree.prune B T)) ∧
      (OTree.graft A kB (OTree.prune B T)).pre.Perm T.pre ∧
      Realizes h' (some A) kB := by
  obtain ⟨P, kB, nA, nB, nP, hlA, hlB, hlP, hpB, hPA, hPB, hBmem, hcn, hsc, hkaddr, hrk, hw',
    hperm, hrB, _⟩ := reparent_spec hw hA hB hAB hnd (append_ok_parent hok)
  have heq : h' = reparented h A B P nA nB nP := by
    rw [append_eval_reparented hlA hlB hpB hPA hsc hlP hBmem hAB hPB fuel] at hok
    cases hloop : parentageLoop h B fuel nA._parent_node with
    | error e =>
      rw [hloop] at hok
      cases hok
    | ok u =>
      rw [hloop] at hok
      simp only [Except.ok.injEq] at hok
      exact hok.symm
  subst heq
  exact ⟨P, kB, nA, nB, nP, hlA, hlB, hlP, hpB, hPA, hPB, hBmem, hcn, hkaddr, hrk, rfl, hw',
    hperm, hrB⟩

theorem visit_yes_log {F D S : Type}
    (callback : S → Nat → node F D → S × D × transform F × Bool)
    (hyes : ∀ s a n, (callback s a n).2.2.2 = true)
    {h : Heap F D} {scene : Nat} {T : OTree} (hw : WellFormed h scene T) {fuel : Nat}
    (hf : T.height ≤ fuel + 1) (s : S) :
    ∃ st, skene.visit callback fuel h scene s = some st ∧
      st.2.2 = (preList T.kids).map (fun a => (a, true)) := by
  obtain ⟨st, hst, hwalk, _, hans⟩ := visit_walk callback hw hf s
  refine ⟨st, hst, walkAll_yes T.kids (fun k _ => walk_yes k) st.2.2 hwalk ?_⟩
  intro e he
  obtain ⟨s1, n1, h1⟩ := hans e he
  rw [h1]
  exact hyes s1 e.1 n1

theorem demo_leaf_B : Realizes demo (some 1) (OTree.mk 2 []) :=
  (realizes_mk _ _ _ _).2 ⟨_, rfl, rfl, rfl, by simp⟩

theorem demo_B_no_descendant (x : Nat) : ¬ Descends demo 2 x := by
  intro hd
  have := mem_of_descends demo_leaf_B hd
  simp [OTree.kids, preList] at this

/-! ## Matrices of transforms -/

theorem mat4.eq_iff {F : Type} [DecidableEq F] (a b : mat4 F) : mat4.eq a b = true ↔ a = b := by
  constructor
  · intro h
    simp only [mat4.eq, List.all_cons, List.all_nil, Bool.and_true, Bool.and_eq_true,
      decide_eq_true_eq] at h
    ext i j
    fin_cases i <;> fin_cases j <;> simp_all
  · intro h
    subst h
    simp [mat4.eq]

theorem mulRight_one {F : Type} [CommRing F] (e : Except Fault (mat4 F)) : mulRight e 1 = e := by
  cases e with
  | error f => rfl
  | ok m => simp [mulRight]

theorem mulRight_mul {F : Type} [CommRing F] (e : Except Fault (mat4 F)) (a b : mat4 F) :
    mulRight (mulRight e a) b = mulRight e (a * b) := by
  cases e with
  | error f => rfl
  | ok m => simp [mulRight, mul_assoc]

theorem glm_translate_zero {F : Type} [CommRing F] :
    glm.translate (1 : mat4 F) (vec3.splat 0) = 1 := by
  simp only [glm.translate, vec3.splat, one_mul]
  ext i j
  fin_cases i <;> fin_cases j <;> rfl

theorem glm_scale_one {F : Type} [CommRing F] :
    glm.scale (1 : mat4 F) (vec3.splat 1) = 1 := by
  simp only [glm.scale, vec3.splat, one_mul]
  ext i j
  fin_cases i <;> fin_cases j <;> rfl

theorem glm_rotate_zero {F : Type} [CommRing F] (T : trig F) (hc : T.cos 0 = 1)
    (hs : T.sin 0 = 0) (m : mat4 F) (axis : vec3 F) : glm.rotate T m 0 axis = m := by
  have : (!![(1 : F), 0, 0, 0; 0, 1, 0, 0; 0, 0, 1, 0; 0, 0, 0, 1] : mat4 F) = 1 := by
    ext i j
    fin_cases i <;> fin_cases j <;> rfl
  simp only [glm.rotate, hc, hs, sub_self, zero_mul, add_zero, sub_zero, zero_add, this,
    mul_one]

theorem localMatrix_identity {F : Type} [CommRing F] (T : trig F) (hc : T.cos 0 = 1)
    (hs : T.sin 0 = 0) : localMatrix T (transform.identity : transform F) = 1 := by
  simp only [localMatrix, transform.identity]
  have hz : (vec3.splat (0 : F)).z = 0 := rfl
  have hy : (vec3.splat (0 : F)).y = 0 := rfl
  have hx : (vec3.splat (0 : F)).x = 0 := rfl
  rw [hz, hy, hx, glm_rotate_zero T hc hs, glm_rotate_zero T hc hs, glm_rotate_zero T hc hs,
    glm_translate_zero, glm_scale_one]
  simp

theorem localMatrix_origin {F : Type} [CommRing F] (T : trig F) (tr : transform F) :
    (localMatrix T tr).mulVec (![0, 0, 0, 1] : vec4 F)
      = ![tr._translate.x, tr._translate.y, tr._translate.z, 1] := by
  simp only [localMatrix, glm.translate, glm.scale, glm.rotate, one_mul]
  rw [← Matrix.mulVec_mulVec, ← Matrix.mulVec_mulVec, ← Matrix.mulVec_mulVec,
    ← Matrix.mulVec_mulVec]
  have e : ∀ (a b c d e f g h i x y z: F),
      (!![a, b, c, x; d, e, f, y; g, h, i, z; 0, 0, 0, 1] : mat4 F).mulVec ![0, 0, 0, 1]
        = ![x, y, z, 1] := by
    intro a b c d e f g h i x y z
    ext k
    fin_cases k <;> simp [Matrix.mulVec, Matrix.dotProduct, Fin.sum_univ_four]
  rw [e, e, e, e, e]

/-! ## Paths from the root and local_to_world -/

theorem local_to_world_child {F D : Type} [CommRing F] [DecidableEq F] (T : trig F) (fuel : Nat)
    {h : Heap F D} {this p : Nat} {n : node F D} (hl : load h this = some n)
    (hp : n._parent_node = some p) :
    node.local_to_world T (fuel + 1) h this
      = mulRight (node.local_to_world T fuel h p) (localMatrix T n._transform) := by
  simp [node.local_to_world, hl, hp, PAL_STUB_ASSUME, node.not_root]

theorem local_to_world_root {F D : Type} [CommRing F] [DecidableEq F] (T : trig F) (fuel : Nat)
    {h : Heap F D} {this : Nat} {n : node F D} (hl : load h this = some n)
    (hp : n._parent_node = none) :
    node.local_to_world T (fuel + 1) h this
      = if localMatrix T n._transform = 1 then .ok 1 else .error .assume := by
  simp only [node.local_to_world, hl, hp, PAL_STUB_ASSUME, node.not_root, Option.isSome_none,
    Bool.false_or, mat4.eq_iff]
  by_cases e : localMatrix T n._transform = 1
  · rw [if_pos e, if_pos e.symm, e]
  · rw [if_neg e, if_neg (fun e' => e e'.symm)]

theorem localOf_eq {F D : Type} [CommRing F] (T : trig F) {h : Heap F D} {a : Nat}
    {n : node F D} (hl : load h a = some n) : localOf T h a = localMatrix T n._transform := by
  simp [localOf, hl]

theorem pathTo_mk (x a : Nat) (ks : List OTree) :
    OTree.pathTo x (OTree.mk a ks)
      = if x = a then [a] else
          match pathToList x ks with
          | [] => []
          | b :: rest => a :: b :: rest := by
  simp only [OTree.pathTo]

theorem pathToList_cons (x : Nat) (k : OTree) (ks : List OTree) :
    pathToList x (k :: ks)
      = match OTree.pathTo x k with
        | [] => pathToList x ks
        | b :: rest => b :: rest := by
  simp only [pathToList]

theorem pathTo_eq_nil : ∀ t : OTree, ∀ x, x ∉ t.pre → OTree.pathTo x t = [] := by
  apply OTree.ind
  intro a ks ih x hx
  simp only [OTree.pre, List.mem_cons, not_or] at hx
  have hks : ∀ l : List OTree, (∀ k, k ∈ l → k ∈ ks) → pathToList x l = [] := by
    intro l
    induction l with
    | nil => intro _; simp only [pathToList]
    | cons k l ihl =>
      intro hsub
      have hk : k ∈ ks := hsub k (List.mem_cons_self _ _)
      have hxk : x ∉ k.pre := fun hm => hx.2 (mem_preList.2 ⟨k, hk, hm⟩)
      rw [pathToList_cons, ih k hk x hxk]
      exact ihl (fun k' hk' => hsub k' (List.mem_cons_of_mem _ hk'))
  rw [pathTo_mk, if_neg hx.1, hks ks (fun _ hk => hk)]

theorem pathToList_first (x : Nat) : ∀ ks : List OTree,
    (∀ k, k ∈ ks → x ∈ k.pre → OTree.pathTo x k ≠ []) → x ∈ preList ks →
    ∃ k, k ∈ ks ∧ x ∈ k.pre ∧ pathToList x ks = OTree.pathTo x k := by
  intro ks
  induction ks with
  | nil => intro _ hx; simp [preList] at hx
  | cons k ks ihl =>
    intro hne hx
    by_cases hxk : x ∈ k.pre
    · refine ⟨k, List.mem_cons_self _ _, hxk, ?_⟩
      have := hne k (List.mem_cons_self _ _) hxk
      rw [pathToList_cons]
      cases e : OTree.pathTo x k with
      | nil => exact absurd e this
      | cons b rest => rfl
    · have hx' : x ∈ preList ks := by
        simp only [preList, List.mem_append] at hx
        exact hx.resolve_left hxk
      obtain ⟨k', hk', hxk', e⟩ :=
        ihl (fun k' hk' => hne k' (List.mem_cons_of_mem _ hk')) hx'
      refine ⟨k', List.mem_cons_of_mem _ hk', hxk', ?_⟩
      rw [pathToList_cons, pathTo_eq_nil k x hxk]
      exact e

theorem pathTo_ne_nil : ∀ t : OTree, ∀ x, x ∈ t.pre → OTree.pathTo x t ≠ [] := by
  apply OTree.ind
  intro a ks ih x hx
  rw [pathTo_mk]
  by_cases e : x = a
  · rw [if_pos e]; simp
  · rw [if_neg e]
    simp only [OTree.pre, List.mem_cons] at hx
    obtain ⟨k, hk, hxk, ek⟩ := pathToList_first x ks (fun k hk => ih k hk x) (hx.resolve_left e)
    rw [ek]
    have := ih k hk x hxk
    cases e2 : OTree.pathTo x k with
    | nil => exact absurd e2 this
    | cons b rest => simp

theorem pathTo_cases {x a : Nat} {ks : List OTree} (hx : x ∈ (OTree.mk a ks).pre) :
    (x = a ∧ OTree.pathTo x (OTree.mk a ks) = [a]) ∨
      (x ≠ a ∧ ∃ k, k ∈ ks ∧ x ∈ k.pre ∧
        OTree.pathTo x (OTree.mk a ks) = a :: OTree.pathTo x k) := by
  by_cases e : x = a
  · left
    exact ⟨e, by rw [pathTo_mk, if_pos e]⟩
  · right
    simp only [OTree.pre, List.mem_cons] at hx
    obtain ⟨k, hk, hxk, ek⟩ :=
      pathToList_first x ks (fun k _ => pathTo_ne_nil k x) (hx.resolve_left e)
    refine ⟨e, k, hk, hxk, ?_⟩
    rw [pathTo_mk, if_neg e, ek]
    have := pathTo_ne_nil k x hxk
    cases e2 : OTree.pathTo x k with
    | nil => exact absurd e2 this
    | cons b rest => rfl

theorem pathTo_head : ∀ t : OTree, ∀ x, x ∈ t.pre → (OTree.pathTo x t).head? = some t.addr := by
  intro t x hx
  cases t with
  | mk a ks =>
    rcases pathTo_cases hx with ⟨_, e⟩ | ⟨_, k, _, _, e⟩ <;> rw [e] <;> rfl

theorem pathTo_last : ∀ t : OTree, ∀ x, x ∈ t.pre → (OTree.pathTo x t).getLast? = some x := by
  apply OTree.ind
  intro a ks ih x hx
  rcases pathTo_cases hx with ⟨e1, e⟩ | ⟨_, k, hk, hxk, e⟩
  · rw [e, e1]; rfl
  · rw [e, List.getLast?_cons, ih k hk x hxk]
    rfl

theorem pathTo_length : ∀ t : OTree, ∀ x, x ∈ t.pre → (OTree.pathTo x t).length ≤ t.height := by
  apply OTree.ind
  intro a ks ih x hx
  rcases pathTo_cases hx with ⟨_, e⟩ | ⟨_, k, hk, hxk, e⟩
  · rw [e]
    simp [OTree.height]
  · rw [e]
    have h1 := ih k hk x hxk
    have h2 := @kid_height (OTree.mk a ks) k hk
    simp only [List.length_cons]
    omega

theorem pathTo_chain {F D : Type} {h : Heap F D} : ∀ t : OTree, ∀ p, Realizes h p t →
    ∀ x, x ∈ t.pre → List.Chain' (isChild h) (OTree.pathTo x t) := by
  apply OTree.ind
  intro a ks ih p hr x hx
  rcases pathTo_cases hx with ⟨_, e⟩ | ⟨_, k, hk, hxk, e⟩
  · rw [e]
    exact List.chain'_singleton a
  · rw [e, List.chain'_cons']
    refine ⟨?_, ih k hk _ (realizes_kids hr k hk) x hxk⟩
    intro y hy
    rw [pathTo_head k x hxk] at hy
    cases hy
    exact @isChild_of_kid F D h p (OTree.mk a ks) k hr hk

/-- What the call on the parent contributes: nothing above the root. -/
theorem local_to_world_climb {F D : Type} [CommRing F] [DecidableEq F] (T : trig F)
    {h : Heap F D} : ∀ t : OTree, ∀ p, Realizes h p t →
    (p = none → localOf T h t.addr = 1) → ∀ x, x ∈ t.pre → ∀ f,
    node.local_to_world T (f + (OTree.pathTo x t).length) h x
      = mulRight (match p with
          | none => .ok 1
          | some q => node.local_to_world T f h q)
        ((OTree.pathTo x t).map (localOf T h)).prod := by
  apply OTree.ind
  intro a ks ih p hr hroot x hx f
  have hr' := hr
  rw [realizes_mk] at hr
  obtain ⟨n, hl, hp, hc, hk⟩ := hr
  have key : node.local_to_world T (f + 1) h a
      = mulRight (match p with
          | none => .ok 1
          | some q => node.local_to_world T f h q) (localOf T h a) := by
    cases p with
    | none =>
      have h1 := hroot rfl
      simp only [OTree.addr] at h1
      rw [local_to_world_root T f hl hp, ← localOf_eq T hl, h1, if_pos rfl]
      simp [mulRight]
    | some q =>
      rw [local_to_world_child T f hl hp, localOf_eq T hl]
  rcases pathTo_cases hx with ⟨e1, e⟩ | ⟨_, k, hkm, hxk, e⟩
  · rw [e, e1]
    simp only [List.length_singleton, List.map_cons, List.map_nil, List.prod_cons,
      List.prod_nil, mul_one]
    exact key
  · rw [e]
    simp only [List.length_cons, List.map_cons, List.prod_cons]
    have h1 := ih k hkm (some a) (hk k hkm) (fun e => by cases e) x hxk (f + 1)
    have e2 : f + ((OTree.pathTo x k).length + 1) = f + 1 + (OTree.pathTo x k).length := by
      omega
    rw [e2, h1]
    simp only
    rw [key, mulRight_mul]

theorem local_to_world_mono {F D : Type} [CommRing F] [DecidableEq F] (T : trig F)
    {h : Heap F D} : ∀ f this M, node.local_to_world T f h this = .ok M →
    node.local_to_world T (f + 1) h this = .ok M := by
  intro f
  induction f with
  | zero => intro this M e; simp [node.local_to_world] at e
  | succ f ih =>
    intro this M e
    cases hl : load h this with
    | none => simp [node.local_to_world, hl] at e
    | some n =>
      cases hp : n._parent_node with
      | none =>
        rw [local_to_world_root T f hl hp] at e
        rw [local_to_world_root T (f + 1) hl hp]
        exact e
      | some p =>
        rw [local_to_world_child T f hl hp] at e
        rw [local_to_world_child T (f + 1) hl hp]
        cases e1 : node.local_to_world T f h p with
        | error x => rw [e1] at e; simp [mulRight] at e
        | ok P =>
          rw [ih p P e1]
          rw [e1] at e
          exact e

theorem local_to_world_ext {F D : Type} [CommRing F] [DecidableEq F] (T : trig F)
    {h h' : Heap F D}
    (hO : ∀ a n, load h a = some n →
      ∃ n', load h' a = some n' ∧ n'._parent_node = n._parent_node ∧
        n'._transform = n._transform) :
    ∀ f this M, node.local_to_world T f h this = .ok M →
      node.local_to_world T f h' this = .ok M := by
  intro f
  induction f with
  | zero => intro this M e; simp [node.local_to_world] at e
  | succ f ih =>
    intro this M e
    cases hl : load h this with
    | none => simp [node.local_to_world, hl] at e
    | some n =>
      obtain ⟨n', hl', hp', ht'⟩ := hO this n hl
      cases hp : n._parent_node with
      | none =>
        rw [local_to_world_root T f hl hp] at e
        rw [local_to_world_root T f hl' (hp'.trans hp), ht']
        exact e
      | some p =>
        rw [local_to_world_child T f hl hp] at e
        rw [local_to_world_child T f hl' (hp'.trans hp), ht']
        cases e1 : node.local_to_world T f h p with
        | error x => rw [e1] at e; simp [mulRight] at e
        | ok P =>
          rw [ih p P e1]
          rw [e1] at e
          exact e

theorem local_to_world_tree {F D : Type} [CommRing F] [DecidableEq F] (T : trig F)
    {h : Heap F D} {scene : Nat} {t : OTree} (hw : WellFormed h scene t)
    (hroot : localOf T h scene = 1) {x : Nat} (hx : x ∈ t.pre) (f : Nat) :
    node.local_to_world T (f + t.height) h x
      = .ok ((OTree.pathTo x t).map (localOf T h)).prod := by
  have hlen := pathTo_length t x hx
  have h1 := local_to_world_climb T t none hw.2.1 (fun _ => by rw [hw.1]; exact hroot) x hx
    (f + t.height - (OTree.pathTo x t).length)
  have e : f + t.height - (OTree.pathTo x t).length + (OTree.pathTo x t).length
      = f + t.height := by omega
  rw [e] at h1
  rw [h1]
  simp [mulRight]

theorem glm_rotate_mul {F : Type} [CommRing F] (T : trig F) (m : mat4 F) (angle : F)
    (axis : vec3 F) : glm.rotate T m angle axis = m * glm.rotate T 1 angle axis := by
  simp only [glm.rotate, one_mul]

theorem localMatrix_eq {F : Type} [CommRing F] (T : trig F) (tr : transform F) :
    localMatrix T tr
      = glm.translate 1 tr._translate * glm.rotate T 1 tr._rotate.z ⟨0, 0, 1⟩
        * glm.rotate T 1 tr._rotate.y ⟨0, 1, 0⟩ * glm.rotate T 1 tr._rotate.x ⟨1, 0, 0⟩
        * glm.scale 1 tr._scale := by
  simp only [localMatrix]
  rw [glm_rotate_mul T (glm.rotate T _ _ _), glm_rotate_mul T (glm.rotate T 1 _ _)]
  simp only [mul_assoc]

theorem wellFormed_sameLinks {F D : Type} {h h' : Heap F D} {scene : Nat} {t : OTree}
    (hs : SameLinks h h') (hw : WellFormed h scene t) : WellFormed h' scene t := by
  refine ⟨hw.1, realizes_congr hs t none hw.2.1, hw.2.2.1, ?_⟩
  intro a n' hl'
  have h1 := hs a
  rw [hl'] at h1
  cases hl : load h a with
  | none => rw [hl] at h1; simp at h1
  | some n =>
    rw [hl] at h1
    simp only [Option.map_some', Option.some.injEq, links, Prod.mk.injEq] at h1
    rw [h1.2.2]
    exact hw.2.2.2 a n hl

theorem sameLinks_setTransform {F D : Type} (h : Heap F D) (a : Nat) (tr : transform F) :
    SameLinks h (setTransform h a tr) := by
  unfold setTransform
  cases hl : load h a with
  | none => exact SameLinks.refl h
  | some n => exact SameLinks.of_store hl rfl

theorem demoT_wellFormed : WellFormed demoT 0 demoTree :=
  wellFormed_sameLinks
    (SameLinks.trans (SameLinks.trans (sameLinks_setTransform _ _ _)
      (sameLinks_setTransform _ _ _)) (sameLinks_setTransform _ _ _))
    demo_wellFormed

/-! ## push_it -/

theorem local_to_world_mono_add {F D : Type} [CommRing F] [DecidableEq F] (T : trig F)
    {h : Heap F D} {f : Nat} {this : Nat} {M : mat4 F}
    (e : node.local_to_world T f h this = .ok M) :
    ∀ k, node.local_to_world T (f + k) h this = .ok M := by
  intro k
  induction k with
  | zero => exact e
  | succ k ih => exact local_to_world_mono T _ _ _ ih

theorem local_to_world_unique {F D : Type} [CommRing F] [DecidableEq F] (T : trig F)
    {h : Heap F D} {f g : Nat} {this : Nat} {M N : mat4 F}
    (e1 : node.local_to_world T f h this = .ok M)
    (e2 : node.local_to_world T g h this = .ok N) : M = N := by
  have h1 := local_to_world_mono_add T e1 g
  have h2 := local_to_world_mono_add T e2 f
  rw [Nat.add_comm] at h2
  rw [h1] at h2
  cases h2
  rfl

theorem pathTo_mem_descends {F D : Type} {h : Heap F D} : ∀ t : OTree, ∀ q, Realizes h q t →
    ∀ y, y ∈ t.pre → ∀ x, x ∈ OTree.pathTo y t → x = y ∨ Descends h x y := by
  apply OTree.ind
  intro a ks ih q hr y hy x hx
  rcases pathTo_cases hy with ⟨e1, e⟩ | ⟨_, k, hk, hyk, e⟩
  · rw [e] at hx
    simp only [List.mem_singleton] at hx
    left
    rw [hx, e1]
  · rw [e] at hx
    rcases List.mem_cons.1 hx with rfl | hx
    · right
      exact descends_of_mem _ q hr y (mem_preList.2 ⟨k, hk, hyk⟩)
    · exact ih k hk _ (realizes_kids hr k hk) y hyk x hx

theorem parent_not_on_path {F D : Type} {h : Heap F D} {scene : Nat} {t : OTree}
    (hw : WellFormed h scene t) {n p : Nat} {nn : node F D} (hn : n ∈ t.pre)
    (hl : load h n = some nn) (hp : nn._parent_node = some p) :
    p ∈ t.pre ∧ n ∉ OTree.pathTo p t := by
  obtain ⟨hc, hpt⟩ := isChild_of_isParent hw hn ⟨nn, hl, hp⟩
  refine ⟨hpt, fun hmem => ?_⟩
  have hd : Descends h p n := Relation.TransGen.single hc
  rcases pathTo_mem_descends t none hw.2.1 p hpt n hmem with e | hd'
  · rw [e] at hd
    exact wellFormed_acyclic hw hpt hd
  · exact wellFormed_acyclic hw hn (Relation.TransGen.trans hd' hd)

theorem local_to_world_parent {F D : Type} [CommRing F] [DecidableEq F] (T : trig F)
    {h : Heap F D} {scene : Nat} {t : OTree} (hw : WellFormed h scene t)
    (hroot : localOf T h scene = 1) {n p : Nat} {nn : node F D} (hn : n ∈ t.pre)
    (hl : load h n = some nn) (hp : nn._parent_node = some p) (f : Nat) :
    node.local_to_world T (f + t.height) h p
        = .ok ((OTree.pathTo p t).map (localOf T h)).prod ∧
      node.local_to_world T (f + t.height) h n
        = .ok (((OTree.pathTo p t).map (localOf T h)).prod * localMatrix T nn._transform) := by
  have hpt := (parent_not_on_path hw hn hl hp).1
  have e1 := local_to_world_tree T hw hroot hpt f
  refine ⟨e1, ?_⟩
  have e2 := local_to_world_tree T hw hroot hn f
  have h1 := local_to_world_mono T _ _ _ e2
  rw [local_to_world_child T _ hl hp, e1] at h1
  simp only [mulRight, Except.ok.injEq] at h1
  rw [h1]
  exact e2

theorem push_it_eq {F D : Type} [CommRing F] [DecidableEq F] (T : trig F) (fuel : Nat)
    {h : Heap F D} {this : Nat} {n : node F D} (hl : load h this = some n) (d : vec3 F) :
    node.push_it T fuel h this d
      = (node.local_to_world T fuel h this).map (fun M =>
          store h this { n with _transform := { n._transform with
            _translate := n._transform._translate.add (vec4.xyz (M.mulVec (d.withW 0))) } }) := by
  simp only [node.push_it, hl, node.world_to_local]
  cases node.local_to_world T fuel h this <;> rfl

theorem origin_mul {F : Type} [CommRing F] (T : trig F) (P : mat4 F) (tr : transform F) :
    originOf (P * localMatrix T tr)
      = vec4.xyz (P.mulVec ![tr._translate.x, tr._translate.y, tr._translate.z, 1]) := by
  have e : ((⟨0, 0, 0⟩ : vec3 F).withW 1) = ![0, 0, 0, 1] := rfl
  rw [originOf, e, ← Matrix.mulVec_mulVec, localMatrix_origin]

theorem origin_shift {F : Type} [CommRing F] (T : trig F) (P : mat4 F) (tr : transform F)
    (v : vec3 F) :
    (originOf (P * localMatrix T { tr with _translate := tr._translate.add v })).sub
        (originOf (P * localMatrix T tr))
      = vec4.xyz (P.mulVec (v.withW 0)) := by
  rw [origin_mul, origin_mul]
  have e : v.withW 0
      = ![(tr._translate.add v).x, (tr._translate.add v).y, (tr._translate.add v).z, 1]
        - ![tr._translate.x, tr._translate.y, tr._translate.z, 1] := by
    ext i
    fin_cases i <;> simp [vec3.withW, vec3.add]
  rw [e, Matrix.mulVec_sub]
  simp [vec3.sub, vec4.xyz]

/-! ## The root stays untransformed -/

theorem load_free {F D : Type} (h : Heap F D) (a b : Nat) :
    load (free h a) b = if a = b then none else load h b := by
  rw [load_eq, load_eq]
  unfold free
  rw [List.getElem?_set]
  by_cases hab : a = b
  · subst hab
    by_cases hlt : a < h.length
    · simp [hlt]
    · simp [hlt]
  · simp [hab]

theorem load_free_ne {F D : Type} (h : Heap F D) {a b : Nat} (hab : a ≠ b) :
    load (free h a) b = load h b := by
  rw [load_free, if_neg hab]

theorem load_free_same {F D : Type} (h : Heap F D) (a : Nat) : load (free h a) a = none := by
  rw [load_free, if_pos rfl]

theorem free_length {F D : Type} (h : Heap F D) (a : Nat) : (free h a).length = h.length := by
  simp [free]

theorem rootIdentity_store {F D : Type} [Zero F] [One F] {h : Heap F D} {scene a : Nat}
    {m m' : node F D} (hq : RootIdentity h scene) (hl : load h a = some m)
    (h1 : a = scene → m'._parent_node = m._parent_node ∧ m'._transform = m._transform)
    (h2 : scene ∉ m'._children) : RootIdentity (store h a m') scene := by
  obtain ⟨⟨n, hn, hp, ht⟩, hc⟩ := hq
  constructor
  · by_cases e : a = scene
    · subst e
      rw [hl] at hn
      cases hn
      exact ⟨m', load_store_same _ hl, (h1 rfl).1.trans hp, (h1 rfl).2.trans ht⟩
    · exact ⟨n, by rw [load_store_ne _ _ e]; exact hn, hp, ht⟩
  · intro b mb hb
    by_cases e : a = b
    · subst e
      rw [load_store_same _ hl] at hb
      cases hb
      exact h2
    · rw [load_store_ne _ _ e] at hb
      exact hc b mb hb

theorem rootIdentity_free {F D : Type} [Zero F] [One F] {h : Heap F D} {scene a : Nat}
    (hq : RootIdentity h scene) (ha : a ≠ scene) : RootIdentity (free h a) scene := by
  obtain ⟨⟨n, hn, hp, ht⟩, hc⟩ := hq
  refine ⟨⟨n, by rw [load_free_ne _ ha]; exact hn, hp, ht⟩, ?_⟩
  intro b mb hb
  by_cases e : a = b
  · subst e
    rw [load_free_same] at hb
    cases hb
  · rw [load_free_ne _ e] at hb
    exact hc b mb hb

theorem rootIdentity_clearLoop {F D : Type} [Zero F] [One F] {scene : Nat}
    (body : Heap F D → Nat → Except Fault (Heap F D))
    (hbody : ∀ h c h1, c ≠ scene → RootIdentity h scene → body h c = .ok h1 →
      RootIdentity h1 scene) :
    ∀ (l : List Nat) (h h1 : Heap F D), (∀ c, c ∈ l → c ≠ scene) → RootIdentity h scene →
      clearLoop body l h = .ok h1 → RootIdentity h1 scene := by
  intro l
  induction l with
  | nil =>
    intro h h1 _ hq e
    simp only [clearLoop, Except.ok.injEq] at e
    rw [← e]
    exact hq
  | cons c rest ih =>
    intro h h1 hl hq e
    simp only [clearLoop] at e
    cases e1 : body h c with
    | error x => rw [e1] at e; cases e
    | ok h2 =>
      rw [e1] at e
      have hc : c ≠ scene := hl c (List.mem_cons_self _ _)
      exact ih _ _ (fun c' hc' => hl c' (List.mem_cons_of_mem _ hc'))
        (rootIdentity_free (hbody h c h2 hc hq e1) hc) e

theorem dtor_result {F D : Type} {fuel : Nat} {h h2 : Heap F D} {this : Nat}
    (e : node.dtor (fuel + 1) h this = .ok h2) :
    ∃ n h1 n1, load h this = some n ∧
      clearLoop (fun h3 c => node.dtor fuel h3 c) n._children h = .ok h1 ∧
      load h1 this = some n1 ∧ h2 = store h1 this { n1 with _children := [] } := by
  cases hl : load h this with
  | none => simp [node.dtor, hl] at e
  | some n =>
    simp only [node.dtor, hl] at e
    cases e1 : clearLoop (fun h3 c => node.dtor fuel h3 c) n._children h with
    | error x => rw [e1] at e; cases e
    | ok h1 =>
      rw [e1] at e
      simp only at e
      cases hl1 : load h1 this with
      | none => rw [hl1] at e; cases e
      | some n1 =>
        rw [hl1] at e
        simp only at e
        refine ⟨n, h1, n1, rfl, e1, hl1, ?_⟩
        generalize store h1 this { n1 with _children := [] } = hs at e ⊢
        cases hp : n1._parent_node with
        | none =>
          rw [hp] at e
          simp only [Except.ok.injEq] at e
          exact e.symm
        | some p =>
          rw [hp] at e
          simp only at e
          cases hlp : load hs p with
          | none => rw [hlp] at e; cases e
          | some np =>
            rw [hlp] at e
            simp only at e
            by_cases hm : this ∈ np._children
            · rw [if_pos hm] at e; cases e
            · rw [if_neg hm] at e
              simp only [Except.ok.injEq] at e
              exact e.symm

theorem rootIdentity_dtor {F D : Type} [Zero F] [One F] {scene : Nat} :
    ∀ (fuel : Nat) (h : Heap F D) (this : Nat) (h1 : Heap F D), this ≠ scene →
      RootIdentity h scene → node.dtor fuel h this = .ok h1 → RootIdentity h1 scene := by
  intro fuel
  induction fuel with
  | zero => intro h this h1 _ _ e; simp [node.dtor] at e
  | succ fuel ih =>
    intro h this h2 hne hq e
    obtain ⟨n, h1, n1, hl, e1, hl1, rfl⟩ := dtor_result e
    have hq1 : RootIdentity h1 scene := by
      refine rootIdentity_clearLoop _ (fun h3 c h4 hc hq3 e3 => ih h3 c h4 hc hq3 e3)
        n._children _ h1 ?_ hq e1
      intro c hc e'
      rw [e'] at hc
      exact hq.2 this n hl hc
    exact rootIdentity_store hq1 hl1 (fun e' => absurd e' hne) (by simp)

theorem rootIdentity_remove {F D : Type} [Zero F] [One F] {scene : Nat} {fuel : Nat}
    {h h1 : Heap F D} {this : Nat} (hq : RootIdentity h scene)
    (e : node.remove fuel h this = .ok h1) : RootIdentity h1 scene := by
  unfold node.remove at e
  cases hl : load h this with
  | none => rw [hl] at e; cases e
  | some n =>
    rw [hl] at e
    simp only at e
    cases hp : n._parent_node with
    | none => rw [hp] at e; cases e
    | some p =>
      rw [hp] at e
      simp only at e
      have hne : this ≠ scene := by
        intro e'
        obtain ⟨⟨nr, hnr, hpr, _⟩, _⟩ := hq
        rw [e', hnr] at hl
        cases hl
        rw [hp] at hpr
        cases hpr
      cases hlp : load h p with
      | none => rw [hlp] at e; cases e
      | some np =>
        rw [hlp] at e
        simp only at e
        by_cases hm : this ∈ np._children
        · rw [if_pos hm] at e
          cases e2 : node.dtor fuel
              (store h p { np with _children := np._children.erase this }) this with
          | error x => rw [e2] at e; cases e
          | ok h2 =>
            rw [e2] at e
            simp only [Except.ok.injEq] at e
            rw [← e]
            refine rootIdentity_free (rootIdentity_dtor fuel _ this h2 hne ?_ e2) hne
            refine rootIdentity_store hq hlp (fun _ => ⟨rfl, rfl⟩) ?_
            exact fun hmem => hq.2 p np hlp (List.mem_of_mem_erase hmem)
        · rw [if_neg hm] at e
          simp only [Except.ok.injEq] at e
          rw [← e]
          exact hq

theorem rootIdentity_append_args {F D : Type} [Zero F] [One F] {scene : Nat}
    {h h1 : Heap F D} {this c : Nat} {args : D} (hq : RootIdentity h scene)
    (e : node.append_args h this args = some (h1, c)) : RootIdentity h1 scene := by
  cases hl : load h this with
  | none => simp [node.append_args, hl] at e
  | some n =>
    rw [append_args_eq hl] at e
    simp only [Option.some.injEq, Prod.mk.injEq] at e
    obtain ⟨rfl, rfl⟩ := e
    obtain ⟨nr, hnr, hpr, htr⟩ := hq.1
    have hlt : scene < h.length := load_lt hnr
    have hq0 : RootIdentity (h ++ [some (node.ctor n._scene (some this) args)]) scene := by
      refine ⟨⟨nr, by rw [load_append_lt h _ hlt]; exact hnr, hpr, htr⟩, ?_⟩
      intro a m hm
      by_cases ha : a = h.length
      · rw [ha, load_append_new] at hm
        cases hm
        simp [node.ctor]
      · rw [load_append_old h _ ha] at hm
        exact hq.2 a m hm
    have hl0 : load (h ++ [some (node.ctor n._scene (some this) args)]) this = some n := by
      rw [load_append_lt h _ (load_lt hl)]
      exact hl
    refine rootIdentity_store hq0 hl0 (fun _ => ⟨rfl, rfl⟩) ?_
    intro hmem
    rcases List.mem_append.1 hmem with h1 | h1
    · exact hq.2 this n hl h1
    · simp only [List.mem_singleton] at h1
      omega

theorem rootIdentity_push_it {F D : Type} [CommRing F] [DecidableEq F] (T : trig F)
    {scene : Nat} {fuel : Nat} {h h1 : Heap F D} {this : Nat} {d : vec3 F}
    (hq : RootIdentity h scene) (hne : this ≠ scene)
    (e : node.push_it T fuel h this d = .ok h1) : RootIdentity h1 scene := by
  cases hl : load h this with
  | none => simp [node.push_it, hl] at e
  | some n =>
    rw [push_it_eq T fuel hl] at e
    cases e0 : node.local_to_world T fuel h this with
    | error x => rw [e0] at e; cases e
    | ok M0 =>
      rw [e0] at e
      simp only [Except.map, Except.ok.injEq] at e
      rw [← e]
      exact rootIdentity_store hq hl (fun e' => absurd e' hne) (hq.2 this n hl)

theorem rootIdentity_append {F D : Type} [Zero F] [One F] {scene : Nat} {fuel : Nat}
    {h h1 : Heap F D} {this child : Nat} (hq : RootIdentity h scene)
    (e : node.append fuel h this child = .ok h1) : RootIdentity h1 scene := by
  unfold node.append at e
  cases hlt : load h this with
  | none => rw [hlt] at e; cases e
  | some nt =>
    cases hlc : load h child with
    | none => rw [hlt, hlc] at e; cases e
    | some nc =>
      rw [hlt, hlc] at e
      simp only at e
      by_cases c1 : nc._parent_node = some this
      · rw [if_pos c1] at e; cases e
      · rw [if_neg c1] at e
        by_cases c2 : nt._scene ≠ nc._scene
        · rw [if_pos c2] at e; cases e
        · rw [if_neg c2] at e
          cases hloop : parentageLoop h child fuel nt._parent_node with
          | error x => rw [hloop] at e; cases e
          | ok u =>
            rw [hloop] at e
            simp only at e
            cases hp : nc._parent_node with
            | none => rw [hp] at e; cases e
            | some p =>
              rw [hp] at e
              simp only at e
              have hne : child ≠ scene := by
                intro e'
                obtain ⟨⟨nr, hnr, hpr, _⟩, _⟩ := hq
                rw [e', hnr] at hlc
                cases hlc
                rw [hp] at hpr
                cases hpr
              cases hlp : load h p with
              | none => rw [hlp] at e; cases e
              | some np =>
                rw [hlp] at e
                simp only at e
                by_cases hm : child ∈ np._children
                · rw [if_pos hm] at e
                  have q1 : RootIdentity
                      (store h p { np with _children := np._children.erase child }) scene :=
                    rootIdentity_store hq hlp (fun _ => ⟨rfl, rfl⟩)
                      (fun hmem => hq.2 p np hlp (List.mem_of_mem_erase hmem))
                  cases hl1 : load (store h p { np with _children := np._children.erase child })
                      this with
                  | none => rw [hl1] at e; cases e
                  | some nt1 =>
                    rw [hl1] at e
                    simp only at e
                    have q2 : RootIdentity
                        (store (store h p { np with _children := np._children.erase child })
                          this { nt1 with _children := nt1._children ++ [child] }) scene := by
                      refine rootIdentity_store q1 hl1 (fun _ => ⟨rfl, rfl⟩) ?_
                      intro hmem
                      rcases List.mem_append.1 hmem with h3 | h3
                      · exact q1.2 this nt1 hl1 h3
                      · simp only [List.mem_singleton] at h3
                        exact hne h3.symm
                    cases hl2 : load
                        (store (store h p { np with _children := np._children.erase child })
                          this { nt1 with _children := nt1._children ++ [child] }) child with
                    | none => rw [hl2] at e; cases e
                    | some nc2 =>
                      rw [hl2] at e
                      simp only [Except.ok.injEq] at e
                      rw [← e]
                      exact rootIdentity_store q2 hl2 (fun e' => absurd e' hne)
                        (q2.2 child nc2 hl2)
                · rw [if_neg hm] at e; cases e

theorem rootIdentity_run {F D : Type} [CommRing F] [DecidableEq F] (T : trig F)
    {scene : Nat} {fuel : Nat} {h h1 : Heap F D} {op : Op F D} (hq : RootIdentity h scene)
    (hop : ∀ d, op ≠ Op.push_it scene d) (e : Op.run T fuel h op = .ok h1) :
    RootIdentity h1 scene := by
  cases op with
  | append_args this args =>
    simp only [Op.run] at e
    cases e1 : node.append_args h this args with
    | none => rw [e1] at e; cases e
    | some r =>
      rw [e1] at e
      simp only [Except.ok.injEq] at e
      rw [← e]
      exact @rootIdentity_append_args F D _ _ scene h r.1 this r.2 args hq e1
  | append this child => exact rootIdentity_append hq e
  | remove this => exact rootIdentity_remove hq e
  | push_it this d =>
    refine rootIdentity_push_it T hq ?_ e
    intro e'
    exact hop d (by rw [e'])

theorem rootIdentity_runOps {F D : Type} [CommRing F] [DecidableEq F] (T : trig F)
    {scene : Nat} : ∀ (ops : List (Nat × Op F D)) (h h1 : Heap F D), RootIdentity h scene →
    (∀ fuel d, (fuel, Op.push_it scene d) ∉ ops) → runOps T h ops = .ok h1 →
    RootIdentity h1 scene := by
  intro ops
  induction ops with
  | nil =>
    intro h h1 hq _ e
    simp only [runOps, Except.ok.injEq] at e
    rw [← e]
    exact hq
  | cons o rest ih =>
    intro h h1 hq hno e
    obtain ⟨fuel, op⟩ := o
    simp only [runOps] at e
    cases e1 : Op.run T fuel h op with
    | error x => rw [e1] at e; cases e
    | ok h2 =>
      rw [e1] at e
      refine ih h2 h1 (rootIdentity_run T hq ?_ e1)
        (fun f d hm => hno f d (List.mem_cons_of_mem _ hm)) e
      intro d e'
      exact hno fuel d (by rw [e']; exact List.mem_cons_self _ _)

theorem rootIdentity_ctor {F D : Type} [Zero F] [One F] (args : D) :
    RootIdentity (skene.ctor ([] : Heap F D) args).1 (skene.ctor ([] : Heap F D) args).2 := by
  refine ⟨⟨node.ctor 0 none args, rfl, rfl, rfl⟩, ?_⟩
  intro a m hm
  have hlt := load_lt hm
  simp only [skene.ctor, List.nil_append, List.length_singleton, Nat.lt_one_iff] at hlt
  subst hlt
  cases hm
  simp [node.ctor]

theorem rootIdentity_local_to_world {F D : Type} [CommRing F] [DecidableEq F] (T : trig F)
    (hc : T.cos 0 = 1) (hs : T.sin 0 = 0) {h : Heap F D} {scene : Nat}
    (hq : RootIdentity h scene) (f : Nat) :
    node.local_to_world T (f + 1) h scene = .ok 1 := by
  obtain ⟨⟨n, hn, hp, ht⟩, _⟩ := hq
  rw [local_to_world_root T f hn hp, ht, localMatrix_identity T hc hs, if_pos rfl]

theorem demo_rootIdentity : RootIdentity demo 0 := by
  refine ⟨⟨_, rfl, rfl, rfl⟩, ?_⟩
  intro a m hl
  have hlt : a < 4 := load_lt hl
  have ha : a = 0 ∨ a = 1 ∨ a = 2 ∨ a = 3 := by omega
  rcases ha with rfl | rfl | rfl | rfl <;>
  · cases hl
    decide

/-! ## Destruction of a leaf -/

theorem dtor_leaf {F D : Type} (fuel : Nat) {h : Heap F D} {this : Nat} {n : node F D}
    (hl : load h this = some n) (hc : n._children = [])
    (hp : ∀ p, n._parent_node = some p → ∃ np, load h p = some np ∧ this ∉ np._children) :
    node.dtor (fuel + 1) h this = .ok h := by
  have hn : ({ n with _children := [] } : node F D) = n := by
    cases n
    simp only at hc
    subst hc
    rfl
  simp only [node.dtor, hl, hc, clearLoop, hn, store_self hl]
  cases hpar : n._parent_node with
  | none => rfl
  | some p =>
    obtain ⟨np, hlp, hm⟩ := hp p hpar
    simp only [hlp, if_neg hm]

theorem remove_absent {F D : Type} (fuel : Nat) {h : Heap F D} {this p : Nat}
    {n np : node F D} (hl : load h this = some n) (hp : n._parent_node = some p)
    (hlp : load h p = some np) (hm : this ∉ np._children) :
    node.remove fuel h this = .ok h := by
  simp only [node.remove, hl, hp, hlp, if_neg hm]

theorem remove_gone {F D : Type} (fuel : Nat) {h : Heap F D} {this : Nat}
    (hl : load h this = none) : node.remove fuel h this = .error .wild := by
  simp only [node.remove, hl]

theorem remove_leaf {F D : Type} (fuel : Nat) {h : Heap F D} {this p : Nat}
    {n np : node F D} (hl : load h this = some n) (hc : n._children = [])
    (hp : n._parent_node = some p) (hlp : load h p = some np) (hm : this ∈ np._children)
    (hnd : np._children.Nodup) (hne : p ≠ this) :
    node.remove (fuel + 1) h this
      = .ok (free (store h p { np with _children := np._children.erase this }) this) := by
  have hl0 : load (store h p { np with _children := np._children.erase this }) this
      = some n := by
    rw [load_store_ne _ _ hne]
    exact hl
  have hd := dtor_leaf fuel hl0 hc (fun q hq => by
    rw [hp] at hq
    cases hq
    exact ⟨_, load_store_same _ hlp, fun hmem => ((List.Nodup.mem_erase_iff hnd).1 hmem).1 rfl⟩)
  simp only [node.remove, hl, hp, hlp, if_pos hm, hd]

/-- In the scenario `A.remove()` does not complete: the `clear` of A's list
destroys B while B is still linked, and B erases itself from that list. -/
theorem demo_remove_A : node.remove 3 demo 1 = .error .destroyed_twice := rfl

/-! ## Claims -/

/-- C2: `foldPull` is a post-order reduction.  On a node whose subtree the
store holds as `t` (no node twice), with a step budget of at least the height
of `t`, the call returns, and what it returns is the left fold of `merge` over
the post-order listing of `t` (children left to right, then the node), started
from the caller's user state and leaf value, every result being the
accumulator of the next call.  Every node of the subtree is listed, hence
merged, exactly once, and on a leaf the result is the single call
`merge(user, n, payload, leaf)`. -/
theorem foldPull_post_order {F D I R : Type} (merge : I → Nat → node F D → D → R → I × D × R)
    (h : Heap F D) (p : Option Nat) (t : OTree) (fuel : Nat) (user : I) (leaf : R)
    (hr : Realizes h p t) (hn : t.pre.Nodup) (hf : t.height ≤ fuel) :
    (node.foldPull merge fuel h t.addr user leaf).isSome = true ∧
    node.foldPull merge fuel h t.addr user leaf
      = t.post.foldlM (mergeStep merge) (h, user, leaf) ∧
    (∀ x, x ∈ t.pre → t.post.count x = 1) ∧
    (t.kids = [] →
      node.foldPull merge fuel h t.addr user leaf = callMerge merge h t.addr user leaf) := by
  obtain ⟨st, hst, hpost, _⟩ := foldPull_spec merge t p fuel h user leaf hr hf
  refine ⟨by simp [hst], hst.trans hpost.symm, ?_, ?_⟩
  · intro x hx
    rw [(OTree.post_perm_pre t).count_eq]
    exact List.count_eq_one_of_mem hn hx
  · intro hk
    rw [hst, ← hpost]
    cases t with
    | mk a ks =>
      simp only [OTree.kids] at hk
      subst hk
      simp [OTree.post, postList, mergeStep, OTree.addr]

theorem foldPull_post_order_witness :
    Realizes demo none demoTree ∧ demoTree.pre.Nodup ∧ demoTree.height ≤ 3 ∧
    (node.foldPull sumMerge 3 demo demoTree.addr () 0).isSome = true ∧
    node.foldPull sumMerge 3 demo demoTree.addr () 0
      = demoTree.post.foldlM (mergeStep sumMerge) (demo, (), 0) ∧
    (∀ x, x ∈ demoTree.pre → demoTree.post.count x = 1) ∧
    (demoTree.kids = [] →
      node.foldPull sumMerge 3 demo demoTree.addr () 0
        = callMerge sumMerge demo demoTree.addr () 0) :=
  ⟨demo_realizes, by decide, by decide,
    foldPull_post_order sumMerge demo none demoTree 3 () 0 demo_realizes (by decide) (by decide)⟩

/-- C1: on a store grown from a new scene by `append(args...)` alone, with
integer payloads, every node `n` is the top of a duplicate-free subtree `t` held
by the store, and `n.foldPull` with leaf 0 and merge = accumulator + payload,
given a step budget of at least the height of `t`, returns the sum of the
payloads of the nodes of `t`, whatever the shape of `t`. -/
theorem foldPull_sum {F : Type} [Zero F] [One F] (h : Heap F Int) (hg : Grown h) (n : Nat)
    (hn : n < h.length) :
    ∃ t p, t.addr = n ∧ Realizes h p t ∧ t.pre.Nodup ∧
      ∀ fuel, t.height ≤ fuel →
        (node.foldPull sumMerge fuel h n () 0).map (fun st => st.2.2)
          = some ((t.pre.map (payload h)).sum) := by
  obtain ⟨T, hw, hall⟩ := grown_wellFormed hg
  obtain ⟨t, ht, haddr⟩ := mem_pre_iff.1 (hall n hn)
  obtain ⟨p, hp⟩ := realizes_sub T none hw.2.1 t ht
  refine ⟨t, p, haddr, hp, List.Nodup.sublist (subtree_pre_sublist T t ht) hw.2.2.1, ?_⟩
  intro fuel hf
  obtain ⟨st, hst, hpost, _⟩ := foldPull_spec sumMerge t p fuel h () 0 hp hf
  rw [foldlM_sumMerge h t.post 0
    (fun x hx => realizes_live hp ((OTree.post_perm_pre t).mem_iff.1 hx))] at hpost
  rw [← haddr, hst, ← Option.some.inj hpost]
  simp only [Option.map_some', zero_add]
  rw [((OTree.post_perm_pre t).map (payload h)).sum_eq]

theorem foldPull_sum_witness :
    Grown demo ∧ 0 < demo.length ∧
    (∃ t p, t.addr = 0 ∧ Realizes demo p t ∧ t.pre.Nodup ∧
      ∀ fuel, t.height ≤ fuel →
        (node.foldPull sumMerge fuel demo 0 () 0).map (fun st => st.2.2)
          = some ((t.pre.map (payload demo)).sum)) ∧
    (node.foldPull sumMerge 3 demo 0 () 0).map (fun st => st.2.2) = some 6 :=
  ⟨demo_grown, by decide, foldPull_sum demo demo_grown 0 (by decide), by decide⟩

/-- C3: on a well-formed scene with tree `T`, `visit` with a callback that
always answers `true`, given a step budget of at least the height of `T` minus
one, returns, and its log of callback invocations is exactly the pre-order
listing of the trees below the root, children in child-sequence order.  That
listing has no node twice, does not contain the root, and consists of exactly
the proper descendants of the root. -/
theorem visit_pre_order {F D S : Type}
    (callback : S → Nat → node F D → S × D × transform F × Bool)
    (hyes : ∀ s a n, (callback s a n).2.2.2 = true)
    (h : Heap F D) (scene : Nat) (T : OTree) (fuel : Nat) (s : S)
    (hw : WellFormed h scene T) (hf : T.height ≤ fuel + 1) :
    ∃ st, skene.visit callback fuel h scene s = some st ∧
      st.2.2 = (preList T.kids).map (fun a => (a, true)) ∧
      (preList T.kids).Nodup ∧ scene ∉ preList T.kids ∧
      ∀ x, x ∈ preList T.kids ↔ Descends h scene x := by
  obtain ⟨st, hst, hwalk, _, hans⟩ := visit_walk callback hw hf s
  refine ⟨st, hst, ?_, OTree.kids_nodup hw.2.2.1, ?_, ?_⟩
  · refine walkAll_yes T.kids (fun k _ => walk_yes k) st.2.2 hwalk ?_
    intro e he
    obtain ⟨s1, n1, h1⟩ := hans e he
    rw [h1]
    exact hyes s1 e.1 n1
  · rw [← hw.1]
    exact OTree.addr_not_mem_kids hw.2.2.1
  · intro x
    rw [← hw.1]
    exact descends_iff hw.2.1 x

theorem visit_pre_order_witness :
    (∀ (s : Unit) (a : Nat) (n : node Int Int), (yes s a n).2.2.2 = true) ∧
    WellFormed demo 0 demoTree ∧ demoTree.height ≤ 2 + 1 ∧
    (∃ st, skene.visit yes 2 demo 0 () = some st ∧
      st.2.2 = (preList demoTree.kids).map (fun a => (a, true)) ∧
      (preList demoTree.kids).Nodup ∧ 0 ∉ preList demoTree.kids ∧
      ∀ x, x ∈ preList demoTree.kids ↔ Descends demo 0 x) ∧
    (skene.visit yes 2 demo 0 ()).map (fun st => st.2.2.map Prod.fst) = some [1, 2, 3] :=
  ⟨fun _ _ _ => rfl, demo_wellFormed, by decide,
    visit_pre_order yes (fun _ _ _ => rfl) demo 0 demoTree 2 () demo_wellFormed (by decide),
    by decide⟩

/-- C4: on a well-formed scene with tree `T`, `visit` with any callback,
given a step budget of at least the height of `T` minus one, returns a log such
that (1) after an answer `false` on a node `X` no proper descendant of `X` is
in the log; (2) whenever a node `X` is in the log, the children of its parent
are all in the log, each once, in child-sequence order, so the later siblings
of `X` are still visited; (3) whenever a node `Y` answered `true`, its children
are all in the log, each once, in child-sequence order. -/
theorem visit_prune {F D S : Type}
    (callback : S → Nat → node F D → S × D × transform F × Bool)
    (h : Heap F D) (scene : Nat) (T : OTree) (fuel : Nat) (s : S)
    (hw : WellFormed h scene T) (hf : T.height ≤ fuel + 1) :
    ∃ st, skene.visit callback fuel h scene s = some st ∧
      (∀ X, (X, false) ∈ st.2.2 → ∀ d, Descends h X d → ∀ b, (d, b) ∉ st.2.2) ∧
      (∀ X b, (X, b) ∈ st.2.2 → ∀ nX P nP, load h X = some nX →
        nX._parent_node = some P → load h P = some nP →
        (st.2.2.map Prod.fst).filter (fun a => decide (a ∈ nP._children)) = nP._children) ∧
      (∀ Y, (Y, true) ∈ st.2.2 → ∀ nY, load h Y = some nY →
        (st.2.2.map Prod.fst).filter (fun a => decide (a ∈ nY._children)) = nY._children) := by
  obtain ⟨st, hst, hwalk, _, _⟩ := visit_walk callback hw hf s
  have hnk : (preList T.kids).Nodup := OTree.kids_nodup hw.2.2.1
  have htrue : ∀ Y, (Y, true) ∈ st.2.2 → ∀ nY, load h Y = some nY →
      (st.2.2.map Prod.fst).filter (fun a => decide (a ∈ nY._children)) = nY._children := by
    intro Y hY nY hl
    obtain ⟨sY, hsY, rfl, hnY, q, hq⟩ := wellFormed_subtree hw (walkAll_mem_pre hwalk _ hY)
    obtain ⟨n, hl', _, hc⟩ := realizes_load hq
    rw [hl] at hl'
    cases hl'
    rw [hc]
    exact located_true (walkAll_located hwalk hnk hsY) hnY hY
  refine ⟨st, hst, ?_, ?_, htrue⟩
  · intro X hX d hd b
    obtain ⟨sX, hsX, rfl, hnX, q, hq⟩ := wellFormed_subtree hw (walkAll_mem_pre hwalk _ hX)
    exact located_false (walkAll_located hwalk hnk hsX) hnX hX d (mem_of_descends hq hd) b
  · intro X b hX nX P nP hlX hpar hlP
    obtain ⟨sP, hsP, k, hk, rfl⟩ := parent_in_tree T X (walkAll_mem_pre hwalk _ hX)
    obtain ⟨q, hq⟩ := realizes_sub T none hw.2.1 sP hsP
    obtain ⟨n, hl, hp, _⟩ := realizes_load (realizes_kids hq k hk)
    rw [hlX] at hl
    cases hl
    rw [hpar] at hp
    cases hp
    rw [OTree.subtrees_eq] at hsP
    rcases List.mem_cons.1 hsP with rfl | hsP
    · obtain ⟨n, hl, _, hc⟩ := realizes_load hw.2.1
      rw [hlP] at hl
      cases hl
      rw [hc]
      obtain ⟨hq1, hq2⟩ := kids_filter_ok hw.2.2.1
      exact walkAll_filter _ hwalk hq1 hq2
    · have hPmem : sP.addr ∈ preList T.kids := (subtree_sublist_kids hsP).subset
        (OTree.addr_mem_pre sP)
      have hst' : sP ∈ T.subtrees := by
        rw [OTree.subtrees_eq]
        exact List.mem_cons_of_mem _ hsP
      have hnP : sP.pre.Nodup :=
        List.Nodup.sublist (subtree_pre_sublist T sP hst') hw.2.2.1
      exact htrue sP.addr (located_kid (walkAll_located hwalk hnk hsP) hnP hk hX) nP hlP

theorem visit_prune_witness :
    WellFormed demo 0 demoTree ∧ demoTree.height ≤ 2 + 1 ∧
    (∃ st, skene.visit (stopAt 2) 2 demo 0 () = some st ∧
      (∀ X, (X, false) ∈ st.2.2 → ∀ d, Descends demo X d → ∀ b, (d, b) ∉ st.2.2) ∧
      (∀ X b, (X, b) ∈ st.2.2 → ∀ nX P nP, load demo X = some nX →
        nX._parent_node = some P → load demo P = some nP →
        (st.2.2.map Prod.fst).filter (fun a => decide (a ∈ nP._children)) = nP._children) ∧
      (∀ Y, (Y, true) ∈ st.2.2 → ∀ nY, load demo Y = some nY →
        (st.2.2.map Prod.fst).filter (fun a => decide (a ∈ nY._children)) = nY._children)) ∧
    (skene.visit (stopAt 2) 2 demo 0 ()).map (fun st => st.2.2)
      = some [(1, true), (2, false), (3, true)] ∧
    (skene.visit (stopAt 1) 2 demo 0 ()).map (fun st => st.2.2) = some [(1, false)] :=
  ⟨demo_wellFormed, by decide,
    visit_prune (stopAt 2) demo 0 demoTree 2 () demo_wellFormed (by decide),
    by decide, by decide⟩

/-- C5, as stated, fails: in the scenario B = 2 is not A = 1 and not an
ancestor of A, both are in the same well-formed scene, and yet `A.append(B)`
stops at the first check, because B is already a child of A. -/
theorem append_own_child_asserts :
    WellFormed demo 0 demoTree ∧ 1 ∈ demoTree.pre ∧ 2 ∈ demoTree.pre ∧ (2 : Nat) ≠ 1 ∧
    ¬ Descends demo 2 1 ∧ node.append 3 demo 1 2 = .error .assert_parent :=
  ⟨demo_wellFormed, by decide, by decide, by decide, demo_B_no_descendant 1, rfl⟩

/-- C5, amended: in a well-formed scene with tree `T`, for nodes `A` and `B`
of the scene such that `B` is not `A`, `B` is not an ancestor of `A` and the
parent of `B` is not `A`, the call `A.append(B)` with a step budget of at least
the height of `T` completes; afterwards the parent of `B` is `A`, the old
parent of `B` has one child less and `A` has one child more. -/
theorem append_reparents {F D : Type} (h : Heap F D) (scene : Nat) (T : OTree) (A B fuel : Nat)
    (hw : WellFormed h scene T) (hA : A ∈ T.pre) (hB : B ∈ T.pre) (hBA : B ≠ A)
    (hnd : ¬ Descends h B A)
    (hpar : ∀ nB, load h B = some nB → nB._parent_node ≠ some A)
    (hf : T.height ≤ fuel) :
    ∃ h' P nA nB nP nA' nB' nP',
      node.append fuel h A B = .ok h' ∧
      load h A = some nA ∧ load h B = some nB ∧ load h P = some nP ∧
      nB._parent_node = some P ∧
      load h' A = some nA' ∧ load h' B = some nB' ∧ load h' P = some nP' ∧
      nB'._parent_node = some A ∧
      nP'._children.length + 1 = nP._children.length ∧
      nA'._children.length = nA._children.length + 1 := by
  have hAB : A ≠ B := fun e => hBA e.symm
  obtain ⟨P, kB, nA, nB, nP, hlA, hlB, hlP, hpB, hPA, hPB, hBmem, _, hsc, _, _, _, _, _,
    hloop⟩ := reparent_spec hw hA hB hAB hnd hpar
  have hload := load_reparented hlA hlB hlP hPA hAB hPB
  refine ⟨reparented h A B P nA nB nP, P, nA, nB, nP,
    { nA with _children := nA._children ++ [B] }, { nB with _parent_node := some A },
    { nP with _children := nP._children.erase B }, ?_, hlA, hlB, hlP, hpB, ?_, ?_, ?_, rfl,
    ?_, ?_⟩
  · rw [append_eval_reparented hlA hlB hpB hPA hsc hlP hBmem hAB hPB fuel, hloop fuel hf]
  · rw [hload, if_neg hAB, if_pos rfl]
  · rw [hload, if_pos rfl]
  · rw [hload, if_neg hPB, if_neg hPA, if_pos rfl]
  · simp only [List.length_erase_of_mem hBmem]
    have := List.length_pos_of_mem hBmem
    omega
  · simp

theorem append_reparents_witness :
    WellFormed demo 0 demoTree ∧ 0 ∈ demoTree.pre ∧ 2 ∈ demoTree.pre ∧ (2 : Nat) ≠ 0 ∧
    ¬ Descends demo 2 0 ∧
    (∀ nB, load demo 2 = some nB → nB._parent_node ≠ some 0) ∧ demoTree.height ≤ 3 ∧
    (∃ h' P nA nB nP nA' nB' nP',
      node.append 3 demo 0 2 = .ok h' ∧
      load demo 0 = some nA ∧ load demo 2 = some nB ∧ load demo P = some nP ∧
      nB._parent_node = some P ∧
      load h' 0 = some nA' ∧ load h' 2 = some nB' ∧ load h' P = some nP' ∧
      nB'._parent_node = some 0 ∧
      nP'._children.length + 1 = nP._children.length ∧
      nA'._children.length = nA._children.length + 1) ∧
    (node.append 3 demo 0 2).toOption.map
        (fun h => h.map (Option.map (fun n => n._children.length)))
      = some [some 2, some 1, some 0, some 0] :=
  have hpar : ∀ nB, load demo 2 = some nB → nB._parent_node ≠ some 0 := by
    intro nB hl
    cases hl
    decide
  ⟨demo_wellFormed, by decide, by decide, by decide, demo_B_no_descendant 0, hpar, by decide,
    append_reparents demo 0 demoTree 0 2 3 demo_wellFormed (by decide) (by decide) (by decide)
      (demo_B_no_descendant 0) hpar (by decide),
    by decide⟩

/-- C6: `A.append(A)` does not trigger any check.  In the scenario, for the
non-root node A = 1 all three checks pass and the call completes, leaving A
unlinked from the root, listed in its own child sequence and with itself as
parent; for the root the checks pass as well and the call then dereferences the
null parent pointer. -/
theorem append_self_no_assert :
    (node.append 3 demo 1 1).toOption.map
        (fun h => h.map (Option.map (fun n => (n._children, n._parent_node))))
      = some [some ([], none), some ([2, 3, 1], some 1), some ([], some 1), some ([], some 1)] ∧
    node.append 3 demo 0 0 = .error .wild :=
  ⟨by decide, rfl⟩

/-- C7: in a well-formed scene with tree `T`, for a node `B` of the scene and
a proper descendant `D` of `B`, the call `D.append(B)` with a step budget of at
least the height of `T` ends in the failure of the check
`assert(parentage != &(child))`: the first two checks pass, the walk up the
parent pointers of `D` reaches `B`, and no store is produced. -/
theorem append_descendant_asserts {F D : Type} (h : Heap F D) (scene : Nat) (T : OTree)
    (B Dn fuel : Nat) (hw : WellFormed h scene T) (hB : B ∈ T.pre) (hd : Descends h B Dn)
    (hf : T.height ≤ fuel) :
    node.append fuel h Dn B = .error .assert_parentage := by
  obtain ⟨sB, hsB, hsaddr⟩ := mem_pre_iff.1 hB
  obtain ⟨q, hq⟩ := realizes_sub T none hw.2.1 sB hsB
  have hns : sB.pre.Nodup := List.Nodup.sublist (subtree_pre_sublist T sB hsB) hw.2.2.1
  have hDk : Dn ∈ preList sB.kids := mem_of_descends hq (hsaddr ▸ hd)
  obtain ⟨kD, hkD, hDkD⟩ := mem_preList.1 hDk
  have hBk : sB.addr ∉ kD.pre := fun hc =>
    OTree.addr_not_mem_kids hns (mem_preList.2 ⟨kD, hkD, hc⟩)
  obtain ⟨j, hj, hloop⟩ := climb kD (some sB.addr) (realizes_kids hq kD hkD) hBk Dn hDkD
  have hDT : Dn ∈ T.pre := by
    refine (subtree_pre_sublist T sB hsB).subset ?_
    rw [OTree.pre_eq]
    exact List.mem_cons_of_mem _ hDk
  obtain ⟨nD, hlD⟩ := realizes_live hw.2.1 hDT
  obtain ⟨nB, hlB, _, _⟩ := realizes_load hq
  rw [hsaddr] at hlB
  have hDB : Dn ≠ B := fun e => OTree.addr_not_mem_kids hns (hsaddr ▸ e ▸ hDk)
  have hpar : nB._parent_node ≠ some Dn := by
    intro hp
    have hc := (isChild_of_isParent hw hB ⟨nB, hlB, hp⟩).1
    exact wellFormed_acyclic hw hB (Relation.TransGen.tail hd hc)
  have hsc : nD._scene = nB._scene := by
    rw [(hw.2.2.2 Dn nD hlD).2 hDT, (hw.2.2.2 B nB hlB).2 hB]
  refine append_eval_error hlD hlB hpar hsc ?_
  have h1 := kid_height hkD
  have h2 := subtree_height T sB hsB
  rw [hsaddr] at hloop
  rw [← parentageLoop_step hDB hlD fuel,
    show fuel + 1 = (fuel - j - 1 + 1) + j + 1 by omega, hloop, parentageLoop_hit]

theorem append_descendant_asserts_witness :
    WellFormed demo 0 demoTree ∧ 1 ∈ demoTree.pre ∧ Descends demo 1 2 ∧ demoTree.height ≤ 3 ∧
    node.append 3 demo 2 1 = .error .assert_parentage :=
  have hd : Descends demo 1 2 := Relation.TransGen.single ⟨_, rfl, by decide⟩
  ⟨demo_wellFormed, by decide, hd, by decide,
    append_descendant_asserts demo 0 demoTree 1 2 3 demo_wellFormed (by decide) hd (by decide)⟩

/-- C8: reparenting preserves the tree.  In a well-formed scene with tree `T`
(which has no node that is its own ancestor), for nodes `A` and `B` of the
scene with `B` not `A` and `A` not a descendant of `B`, whenever `A.append(B)`
completes the store it leaves is again a well-formed scene below the same
root, no node of it is its own ancestor, neither along the child sequences nor
along the parent pointers, it has the same nodes, and every node that was
reachable from the root still is. -/
theorem append_keeps_tree {F D : Type} (h h' : Heap F D) (scene : Nat) (T : OTree)
    (A B fuel : Nat) (hw : WellFormed h scene T) (hA : A ∈ T.pre) (hB : B ∈ T.pre)
    (hBA : B ≠ A) (hnd : ¬ Descends h B A) (hok : node.append fuel h A B = .ok h') :
    ∃ T', WellFormed h' scene T' ∧
      (∀ x, x ∈ T'.pre → ¬ Descends h' x x) ∧
      (∀ x, x ∈ T'.pre → ¬ Relation.TransGen (isParent h') x x) ∧
      (∀ x, x ∈ T.pre ↔ x ∈ T'.pre) ∧
      (∀ x, Descends h scene x → Descends h' scene x) := by
  have hAB : A ≠ B := fun e => hBA e.symm
  obtain ⟨P, kB, nA, nB, nP, _, _, _, _, _, _, _, _, _, _, _, hw', hperm, _⟩ :=
    append_ok_spec hw hA hB hAB hnd hok
  refine ⟨_, hw', fun x hx => wellFormed_acyclic hw' hx,
    fun x hx => wellFormed_acyclic_parents hw' hx, fun x => (hperm.mem_iff).symm, ?_⟩
  intro x hx
  have hx1 : x ∈ preList T.kids := (wellFormed_reach hw x).1 hx
  have hx2 : x ∈ T.pre := by
    rw [OTree.pre_eq]
    exact List.mem_cons_of_mem _ hx1
  have hx3 := hperm.mem_iff.2 hx2
  rw [wellFormed_reach hw' x]
  rw [OTree.pre_eq] at hx3
  rcases List.mem_cons.1 hx3 with e | hx3
  · exfalso
    rw [hw'.1, ← hw.1] at e
    exact OTree.addr_not_mem_kids hw.2.2.1 (e ▸ hx1)
  · exact hx3

theorem append_keeps_tree_witness :
    WellFormed demo 0 demoTree ∧ 0 ∈ demoTree.pre ∧ 2 ∈ demoTree.pre ∧ (2 : Nat) ≠ 0 ∧
    ¬ Descends demo 2 0 ∧ node.append 3 demo 0 2 = .ok demoMoved ∧
    ∃ T', WellFormed demoMoved 0 T' ∧
      (∀ x, x ∈ T'.pre → ¬ Descends demoMoved x x) ∧
      (∀ x, x ∈ T'.pre → ¬ Relation.TransGen (isParent demoMoved) x x) ∧
      (∀ x, x ∈ demoTree.pre ↔ x ∈ T'.pre) ∧
      (∀ x, Descends demo 0 x → Descends demoMoved 0 x) :=
  ⟨demo_wellFormed, by decide, by decide, by decide, demo_B_no_descendant 0, rfl,
    append_keeps_tree demo demoMoved 0 demoTree 0 2 3 demo_wellFormed (by decide) (by decide)
      (by decide) (demo_B_no_descendant 0) rfl⟩

/-- C9: the frame of reparenting.  Under the preconditions of C8, when
`A.append(B)` completes with `P` the old parent of `B`: the scene is again well
formed with as many nodes as before, the store has the same cells, every
payload, transform triple and scene reference is unchanged, the child sequence
of every node other than `A` and `P` is unchanged, in particular that of `B`,
and the whole tree held below `B` is held below it afterwards. -/
theorem append_frame {F D : Type} (h h' : Heap F D) (scene : Nat) (T : OTree)
    (A B fuel : Nat) (hw : WellFormed h scene T) (hA : A ∈ T.pre) (hB : B ∈ T.pre)
    (hBA : B ≠ A) (hnd : ¬ Descends h B A) (hok : node.append fuel h A B = .ok h') :
    ∃ P kB nB T', load h B = some nB ∧ nB._parent_node = some P ∧
      WellFormed h' scene T' ∧ T'.pre.length = T.pre.length ∧ h'.length = h.length ∧
      (∀ x, (load h' x).map (fun n => (n._data, n._transform, n._scene))
        = (load h x).map (fun n => (n._data, n._transform, n._scene))) ∧
      (∀ x, x ≠ A → x ≠ P →
        (load h' x).map (fun n => n._children) = (load h x).map (fun n => n._children)) ∧
      (load h' B).map (fun n => n._children) = (load h B).map (fun n => n._children) ∧
      kB.addr = B ∧ Realizes h (some P) kB ∧ Realizes h' (some A) kB := by
  have hAB : A ≠ B := fun e => hBA e.symm
  obtain ⟨P, kB, nA, nB, nP, hlA, hlB, hlP, hpB, hPA, hPB, _, _, hkaddr, hrk, rfl, hw', hperm,
    hrB⟩ := append_ok_spec hw hA hB hAB hnd hok
  have hload := load_reparented hlA hlB hlP hPA hAB hPB
  refine ⟨P, kB, nB, _, hlB, hpB, hw', hperm.length_eq, ?_, ?_, ?_, ?_, hkaddr, hrk, hrB⟩
  · simp [reparented, store_length]
  · intro x
    rw [hload]
    by_cases hxB : x = B
    · simp [hxB, hlB]
    · by_cases hxA : x = A
      · simp [hxA, hAB, hlA]
      · by_cases hxP : x = P
        · simp [hxP, hPB, hPA, hlP]
        · simp [hxB, hxA, hxP]
  · intro x hxA hxP
    rw [hload]
    by_cases hxB : x = B
    · simp [hxB, hlB]
    · simp [hxB, hxA, hxP]
  · rw [hload]
    simp [hlB]

theorem append_frame_witness :
    WellFormed demo 0 demoTree ∧ 0 ∈ demoTree.pre ∧ 2 ∈ demoTree.pre ∧ (2 : Nat) ≠ 0 ∧
    ¬ Descends demo 2 0 ∧ node.append 3 demo 0 2 = .ok demoMoved ∧
    ∃ P kB nB T', load demo 2 = some nB ∧ nB._parent_node = some P ∧
      WellFormed demoMoved 0 T' ∧ T'.pre.length = demoTree.pre.length ∧
      demoMoved.length = demo.length ∧
      (∀ x, (load demoMoved x).map (fun n => (n._data, n._transform, n._scene))
        = (load demo x).map (fun n => (n._data, n._transform, n._scene))) ∧
      (∀ x, x ≠ 0 → x ≠ P →
        (load demoMoved x).map (fun n => n._children)
          = (load demo x).map (fun n => n._children)) ∧
      (load demoMoved 2).map (fun n => n._children) = (load demo 2).map (fun n => n._children) ∧
      kB.addr = 2 ∧ Realizes demo (some P) kB ∧ Realizes demoMoved (some 0) kB :=
  ⟨demo_wellFormed, by decide, by decide, by decide, demo_B_no_descendant 0, rfl,
    append_frame demo demoMoved 0 demoTree 0 2 3 demo_wellFormed (by decide) (by decide)
      (by decide) (demo_B_no_descendant 0) rfl⟩

/-- C10: `parent.append(args...)` on a live node returns a fresh child `c`
that is a leaf with parent `parent`, the payload built from `args` and the
transform triple translate 0, rotate 0, scale 1; the child sequence of `parent`
is the old one followed by `c`.  When `parent` is a node of a well-formed scene
with tree `T`, a visit of that scene with an always-true callback and a step
budget of at least the height of `T` has `c` in its log. -/
theorem append_args_child {F D : Type} [Zero F] [One F] (h : Heap F D) (parent : Nat)
    (nP : node F D) (args : D) (hl : load h parent = some nP) :
    ∃ h' c nc nP', node.append_args h parent args = some (h', c) ∧
      load h c = none ∧ load h' c = some nc ∧ nc.is_leaf = true ∧
      nc._parent_node = some parent ∧ nc._data = args ∧
      nc._transform = ⟨⟨0, 0, 0⟩, ⟨0, 0, 0⟩, ⟨1, 1, 1⟩⟩ ∧
      load h' parent = some nP' ∧ nP'._children = nP._children ++ [c] ∧
      nP'._children.getLast? = some c ∧ nP'._children.length = nP._children.length + 1 ∧
      ∀ (scene : Nat) (T : OTree), WellFormed h scene T → parent ∈ T.pre →
        ∀ (S : Type) (callback : S → Nat → node F D → S × D × transform F × Bool),
          (∀ s a n, (callback s a n).2.2.2 = true) →
          ∀ (fuel : Nat) (s : S), T.height ≤ fuel →
            ∃ st, skene.visit callback fuel h' scene s = some st ∧ (c, true) ∈ st.2.2 := by
  refine ⟨_, h.length, node.ctor nP._scene (some parent) args,
    { nP with _children := nP._children ++ [h.length] }, append_args_eq hl args, ?_,
    append_args_load_new hl args, rfl, rfl, rfl, rfl, append_args_load_this hl args, rfl,
    by simp, by simp, ?_⟩
  · rw [load_eq, List.getElem?_eq_none (le_refl _)]
    rfl
  · intro scene T hw hparent S callback hyes fuel s hf
    obtain ⟨hw', hperm⟩ := wellFormed_append_args hw hparent (append_args_eq hl args)
    have hheight := OTree.graft_height parent (OTree.mk h.length []) T
    have hleaf : (OTree.mk h.length []).height = 1 := by simp [OTree.height, heightList]
    have hf' : (OTree.graft parent (OTree.mk h.length []) T).height ≤ fuel + 1 := by omega
    obtain ⟨st, hst, hlog⟩ := visit_yes_log callback hyes hw' hf' s
    refine ⟨st, hst, ?_⟩
    rw [hlog]
    refine List.mem_map_of_mem _ ?_
    have hc : h.length ∈ (OTree.graft parent (OTree.mk h.length []) T).pre :=
      hperm.mem_iff.2 (by simp)
    rw [OTree.pre_eq] at hc
    rcases List.mem_cons.1 hc with e | hc
    · exfalso
      rw [hw'.1, ← hw.1] at e
      obtain ⟨n, hn⟩ := realizes_live hw.2.1 (OTree.addr_mem_pre T)
      have := load_lt hn
      omega
    · exact hc

theorem append_args_child_witness :
    load demo 3 = some demoC ∧
    ∃ h' c nc nP', node.append_args demo 3 (7 : Int) = some (h', c) ∧
      load demo c = none ∧ load h' c = some nc ∧ nc.is_leaf = true ∧
      nc._parent_node = some 3 ∧ nc._data = 7 ∧
      nc._transform = ⟨⟨0, 0, 0⟩, ⟨0, 0, 0⟩, ⟨1, 1, 1⟩⟩ ∧
      load h' 3 = some nP' ∧ nP'._children = demoC._children ++ [c] ∧
      nP'._children.getLast? = some c ∧ nP'._children.length = demoC._children.length + 1 ∧
      ∀ (scene : Nat) (T : OTree), WellFormed demo scene T → 3 ∈ T.pre →
        ∀ (S : Type) (callback : S → Nat → node Int Int → S × Int × transform Int × Bool),
          (∀ s a n, (callback s a n).2.2.2 = true) →
          ∀ (fuel : Nat) (s : S), T.height ≤ fuel →
            ∃ st, skene.visit callback fuel h' scene s = some st ∧ (c, true) ∈ st.2.2 :=
  ⟨rfl, append_args_child demo 3 demoC 7 rfl⟩

/-- C19: reparenting fixes the traversal order.  Whenever `A.append(B)`
completes with `B` not `A`, the child sequence of the old parent `P` of `B` is
the previous one with `B` erased (the other children in their previous order;
with distinct children, the previous sequence filtered by "is not `B`"), the
child sequence of `A` is the previous one followed by `B`, and the parent
pointer of `B` is `A`. -/
theorem append_order {F D : Type} (h h' : Heap F D) (A B fuel : Nat)
    (hok : node.append fuel h A B = .ok h') (hBA : B ≠ A) :
    ∃ P nA nB nP nA' nB' nP',
      load h A = some nA ∧ load h B = some nB ∧ nB._parent_node = some P ∧
      load h P = some nP ∧ B ∈ nP._children ∧
      load h' P = some nP' ∧ nP'._children = nP._children.erase B ∧
      (nP._children.Nodup → nP'._children = nP._children.filter (fun x => decide (x ≠ B))) ∧
      load h' A = some nA' ∧ nA'._children = nA._children ++ [B] ∧
      load h' B = some nB' ∧ nB'._parent_node = some A := by
  have hAB : A ≠ B := fun e => hBA e.symm
  cases hlA : load h A with
  | none => simp [node.append, hlA] at hok
  | some nA =>
    cases hlB : load h B with
    | none => simp [node.append, hlA, hlB] at hok
    | some nB =>
      have hnpar : nB._parent_node ≠ some A := append_ok_parent hok nB hlB
      simp only [node.append, hlA, hlB] at hok
      rw [if_neg hnpar] at hok
      by_cases hsc : nA._scene = nB._scene
      · rw [if_neg (not_not.2 hsc)] at hok
        cases hloop : parentageLoop h B fuel nA._parent_node with
        | error e =>
          rw [hloop] at hok
          cases hok
        | ok u =>
          rw [hloop] at hok
          cases hpB : nB._parent_node with
          | none =>
            rw [hpB] at hok
            cases hok
          | some P =>
            have hPA : P ≠ A := fun e => hnpar (e ▸ hpB)
            cases hlP : load h P with
            | none =>
              simp only [hpB, hlP] at hok
              cases hok
            | some nP =>
              simp only [hpB, hlP] at hok
              by_cases hmem : B ∈ nP._children
              · rw [if_pos hmem] at hok
                have h1 : load (store h P { nP with _children := nP._children.erase B }) A
                    = some nA := by
                  rw [load_store_ne _ _ hPA]
                  exact hlA
                simp only [h1] at hok
                have hfilter : nP._children.Nodup →
                    nP._children.erase B = nP._children.filter (fun x => decide (x ≠ B)) := by
                  intro hn
                  rw [hn.erase_eq_filter]
                  apply List.filter_congr
                  intro y _
                  by_cases hy : y = B
                  · simp [hy]
                  · simp [hy]
                by_cases hPB : P = B
                · subst hPB
                  rw [hlB] at hlP
                  cases hlP
                  have h2 : load (store (store h P { nB with _children := nB._children.erase P })
                      A { nA with _children := nA._children ++ [P] }) P
                      = some { nB with _children := nB._children.erase P } := by
                    rw [load_store_ne _ _ hAB]
                    exact load_store_same _ hlB
                  simp only [h2, Except.ok.injEq] at hok
                  subst hok
                  refine ⟨P, nA, nB, nB, { nA with _children := nA._children ++ [P] }, _, _,
                    rfl, rfl, hpB, hlB, hmem, load_store_same _ h2, rfl, hfilter, ?_, rfl,
                    load_store_same _ h2, rfl⟩
                  rw [load_store_ne _ _ hBA]
                  exact load_store_same _ h1
                · have h2 : load (store (store h P { nP with _children := nP._children.erase B })
                      A { nA with _children := nA._children ++ [B] }) B = some nB := by
                    rw [load_store_ne _ _ hAB, load_store_ne _ _ hPB]
                    exact hlB
                  simp only [h2, Except.ok.injEq] at hok
                  subst hok
                  refine ⟨P, nA, nB, nP, { nA with _children := nA._children ++ [B] },
                    { nB with _parent_node := some A },
                    { nP with _children := nP._children.erase B },
                    rfl, rfl, hpB, hlP, hmem, ?_, rfl, hfilter, ?_, rfl,
                    load_store_same _ h2, rfl⟩
                  · rw [load_store_ne _ _ (Ne.symm hPB), load_store_ne _ _ (Ne.symm hPA)]
                    exact load_store_same _ hlP
                  · rw [load_store_ne _ _ hBA]
                    exact load_store_same _ h1
              · rw [if_neg hmem] at hok
                cases hok
      · rw [if_pos hsc] at hok
        cases hok

theorem append_order_witness :
    node.append 3 demo 0 2 = .ok demoMoved ∧ (2 : Nat) ≠ 0 ∧
    (∃ P nA nB nP nA' nB' nP',
      load demo 0 = some nA ∧ load demo 2 = some nB ∧ nB._parent_node = some P ∧
      load demo P = some nP ∧ 2 ∈ nP._children ∧
      load demoMoved P = some nP' ∧ nP'._children = nP._children.erase 2 ∧
      (nP._children.Nodup → nP'._children = nP._children.filter (fun x => decide (x ≠ 2))) ∧
      load demoMoved 0 = some nA' ∧ nA'._children = nA._children ++ [2] ∧
      load demoMoved 2 = some nB' ∧ nB'._parent_node = some 0) ∧
    demoMoved.map (Option.map (fun n => n._children))
      = [some [1, 2], some [3], some [], some []] ∧
    (skene.visit yes 2 demoMoved 0 ()).map (fun st => st.2.2.map Prod.fst) = some [1, 3, 2] :=
  ⟨rfl, by decide, append_order demo demoMoved 0 2 3 rfl (by decide), by decide, by decide⟩

/-- Claim C12.  In a well-formed scene whose root is untransformed, a node `n`
other than the root has a parent `p`, and `n.local_to_world()` is
`p.local_to_world()` times the local matrix
`translate(t) · rotateZ(r.z) · rotateY(r.y) · rotateX(r.x) · scale(s)` of `n`:
as a recursion equation, and as values once the fuel covers the height of the
tree.  That value is the product of the local matrices along the path from
the root down to `n`, root first.  When the cosine and the sine of the angle
0 are 1 and 0, a child freshly appended to a node of the scene has the world
matrix of that node. -/
theorem local_to_world_path {F D : Type} [CommRing F] [DecidableEq F] (T : trig F)
    {h : Heap F D} {scene : Nat} {t : OTree} (hw : WellFormed h scene t)
    (hroot : localOf T h scene = 1) :
    (∀ n, n ∈ t.pre → n ≠ scene →
      ∃ p nn P, load h n = some nn ∧ nn._parent_node = some p ∧
        localMatrix T nn._transform
          = glm.translate 1 nn._transform._translate
            * glm.rotate T 1 nn._transform._rotate.z ⟨0, 0, 1⟩
            * glm.rotate T 1 nn._transform._rotate.y ⟨0, 1, 0⟩
            * glm.rotate T 1 nn._transform._rotate.x ⟨1, 0, 0⟩
            * glm.scale 1 nn._transform._scale ∧
        (∀ f, node.local_to_world T (f + 1) h n
          = mulRight (node.local_to_world T f h p) (localMatrix T nn._transform)) ∧
        (∀ f, node.local_to_world T (f + t.height) h p = .ok P) ∧
        (∀ f, node.local_to_world T (f + t.height) h n
          = .ok (P * localMatrix T nn._transform)) ∧
        (OTree.pathTo n t).head? = some scene ∧ (OTree.pathTo n t).getLast? = some n ∧
        List.Chain' (isChild h) (OTree.pathTo n t) ∧
        P * localMatrix T nn._transform = ((OTree.pathTo n t).map (localOf T h)).prod) ∧
    (T.cos 0 = 1 → T.sin 0 = 0 → ∀ this, this ∈ t.pre → ∀ args h' c,
      node.append_args h this args = some (h', c) →
      ∃ M, ∀ f, node.local_to_world T (f + t.height) h' this = .ok M ∧
        node.local_to_world T (f + t.height + 1) h' c = .ok M) := by
  constructor
  · intro n hn hne
    obtain ⟨nn, hl⟩ := realizes_live hw.2.1 hn
    have hroot' : ∃ nr, load h scene = some nr ∧ nr._parent_node = none := by
      obtain ⟨nr, h1, h2, _⟩ := realizes_load hw.2.1
      rw [hw.1] at h1
      exact ⟨nr, h1, h2⟩
    cases hp : nn._parent_node with
    | none =>
      exfalso
      have hx := hn
      rw [OTree.pre_eq, hw.1] at hx
      rcases List.mem_cons.1 hx with e | hx
      · exact hne e
      · obtain ⟨s, _, hsa, _, q, hq⟩ := wellFormed_subtree hw hx
        obtain ⟨s', hs', k, hk, hka⟩ := parent_in_tree t n hx
        obtain ⟨q', hq'⟩ := realizes_sub t none hw.2.1 s' hs'
        obtain ⟨m, hm, hmp, _⟩ := realizes_load (realizes_kids hq' k hk)
        rw [hka, hl] at hm
        cases hm
        rw [hp] at hmp
        cases hmp
    | some p =>
      have hpt : p ∈ t.pre := (isChild_of_isParent hw hn ⟨nn, hl, hp⟩).2
      have e1 := fun f => local_to_world_tree T hw hroot hpt f
      have e2 := fun f => local_to_world_tree T hw hroot hn f
      have e3 : ((OTree.pathTo p t).map (localOf T h)).prod * localMatrix T nn._transform
          = ((OTree.pathTo n t).map (localOf T h)).prod := by
        have h1 := local_to_world_mono T _ _ _ (e2 0)
        rw [local_to_world_child T _ hl hp, e1 0] at h1
        simpa [mulRight] using h1
      refine ⟨p, nn, _, hl, hp, localMatrix_eq T _,
        fun f => local_to_world_child T f hl hp, e1, ?_,
        by rw [pathTo_head t n hn, hw.1], pathTo_last t n hn,
        pathTo_chain t none hw.2.1 n hn, e3⟩
      intro f
      rw [e3]
      exact e2 f
  · intro hc hs this hthis args h' c happ
    obtain ⟨n, hl⟩ := realizes_live hw.2.1 hthis
    rw [append_args_eq hl] at happ
    simp only [Option.some.injEq, Prod.mk.injEq] at happ
    obtain ⟨rfl, rfl⟩ := happ
    have hthis' : ∀ f, node.local_to_world T (f + t.height)
        (store (h ++ [some (node.ctor n._scene (some this) args)]) this
          { n with _children := n._children ++ [h.length] }) this
        = .ok ((OTree.pathTo this t).map (localOf T h)).prod := by
      intro f
      refine local_to_world_ext T ?_ _ _ _ (local_to_world_tree T hw hroot hthis f)
      intro a m hm
      by_cases ha : a = this
      · subst ha
        rw [hl] at hm
        cases hm
        exact ⟨_, append_args_load_this hl args, rfl, rfl⟩
      · refine ⟨m, ?_, rfl, rfl⟩
        rw [append_args_load_other args ha (Nat.ne_of_lt (load_lt hm))]
        exact hm
    refine ⟨_, fun f => ⟨hthis' f, ?_⟩⟩
    rw [local_to_world_child T _ (append_args_load_new hl args) rfl, hthis' f]
    have : (node.ctor n._scene (some this) args : node F D)._transform = transform.identity :=
      rfl
    rw [this, localMatrix_identity T hc hs]
    simp [mulRight]

theorem local_to_world_path_witness :
    WellFormed demoT 0 demoTree ∧ localOf demoTrig demoT 0 = 1 ∧
    ((∀ n, n ∈ demoTree.pre → n ≠ 0 →
      ∃ p nn P, load demoT n = some nn ∧ nn._parent_node = some p ∧
        localMatrix demoTrig nn._transform
          = glm.translate 1 nn._transform._translate
            * glm.rotate demoTrig 1 nn._transform._rotate.z ⟨0, 0, 1⟩
            * glm.rotate demoTrig 1 nn._transform._rotate.y ⟨0, 1, 0⟩
            * glm.rotate demoTrig 1 nn._transform._rotate.x ⟨1, 0, 0⟩
            * glm.scale 1 nn._transform._scale ∧
        (∀ f, node.local_to_world demoTrig (f + 1) demoT n
          = mulRight (node.local_to_world demoTrig f demoT p)
              (localMatrix demoTrig nn._transform)) ∧
        (∀ f, node.local_to_world demoTrig (f + demoTree.height) demoT p = .ok P) ∧
        (∀ f, node.local_to_world demoTrig (f + demoTree.height) demoT n
          = .ok (P * localMatrix demoTrig nn._transform)) ∧
        (OTree.pathTo n demoTree).head? = some 0 ∧ (OTree.pathTo n demoTree).getLast? = some n ∧
        List.Chain' (isChild demoT) (OTree.pathTo n demoTree) ∧
        P * localMatrix demoTrig nn._transform
          = ((OTree.pathTo n demoTree).map (localOf demoTrig demoT)).prod) ∧
    (demoTrig.cos 0 = 1 → demoTrig.sin 0 = 0 → ∀ this, this ∈ demoTree.pre → ∀ args h' c,
      node.append_args demoT this args = some (h', c) →
      ∃ M, ∀ f, node.local_to_world demoTrig (f + demoTree.height) h' this = .ok M ∧
        node.local_to_world demoTrig (f + demoTree.height + 1) h' c = .ok M)) ∧
    OTree.pathTo 2 demoTree = [0, 1, 2] ∧
    (node.local_to_world demoTrig 3 demoT 1).map mat4.rows
      = .ok [[0, -1, 0, 1], [1, 0, 0, 0], [0, 0, 1, 0], [0, 0, 0, 1]] ∧
    (node.local_to_world demoTrig 3 demoT 2).map mat4.rows
      = .ok [[0, -2, 0, 0], [2, 0, 0, 0], [0, 0, 2, 0], [0, 0, 0, 1]] :=
  ⟨demoT_wellFormed, (mat4.eq_iff _ _).1 (by decide),
    local_to_world_path demoTrig demoT_wellFormed ((mat4.eq_iff _ _).1 (by decide)),
    by decide, rfl, rfl⟩

/-- Claim C11 (the code departs from it).  The overload
`world_to_local(const glm::vec3&, float)` applies `local_to_world()` itself, not
its inverse.  With A, a child of the root, at translate (1, 0, 0), rotate 0 and
scale 1, the world matrix of A is the translation by (1, 0, 0), which is
invertible; the local point v = (0, 0, 0) has the world position p = (1, 0, 0),
and `A.world_to_local(p, 1)` is (2, 0, 0), not v. -/
theorem world_to_local_no_round_trip :
    (∀ (T : trig Int) (f : Nat) (h : Heap Int Int) (n : Nat) (v : vec3 Int) (w : Int),
      node.world_to_local T f h n v w
        = (node.local_to_world T f h n).map (fun M => vec4.xyz (M.mulVec (v.withW w)))) ∧
    (node.local_to_world demoTrig 2 demoA1 1).map mat4.rows
      = .ok [[1, 0, 0, 1], [0, 1, 0, 0], [0, 0, 1, 0], [0, 0, 0, 1]] ∧
    (node.local_to_world demoTrig 2 demoA1 1).map
        (fun M => mat4.rows (M * glm.translate 1 ⟨-1, 0, 0⟩)) = .ok (mat4.rows 1) ∧
    (node.local_to_world demoTrig 2 demoA1 1).map
        (fun M => vec4.xyz (M.mulVec ((⟨0, 0, 0⟩ : vec3 Int).withW 1))) = .ok ⟨1, 0, 0⟩ ∧
    node.world_to_local demoTrig 2 demoA1 1 ⟨1, 0, 0⟩ 1 = .ok ⟨2, 0, 0⟩ := by
  refine ⟨?_, rfl, rfl, rfl, rfl⟩
  intro T f h n v w
  simp only [node.world_to_local]
  cases node.local_to_world T f h n <;> rfl

/-- Claim C14, as stated, fails.  In the state `demoT` the nodes B and C have
the same parent A and the same translate (0, 1, 0) and rotate 0; B has scale 2
and C scale 1.  `B.push_it((1, 0, 0))` moves the world position of B from
(0, 0, 0) to (-2, 0, 0), `C.push_it((1, 0, 0))` moves that of C from (0, 0, 0)
to (-1, 0, 0). -/
theorem push_it_depends_on_scale :
    (load demoT 2).map (fun n => (n._parent_node, n._transform._translate, n._transform._rotate))
      = (load demoT 3).map
          (fun n => (n._parent_node, n._transform._translate, n._transform._rotate)) ∧
    (load demoT 2).map (fun n => n._transform._scale) = some ⟨2, 2, 2⟩ ∧
    (load demoT 3).map (fun n => n._transform._scale) = some ⟨1, 1, 1⟩ ∧
    node.push_it demoTrig 3 demoT 2 ⟨1, 0, 0⟩ = .ok demoTB ∧
    node.push_it demoTrig 3 demoT 3 ⟨1, 0, 0⟩ = .ok demoTC ∧
    (node.local_to_world demoTrig 3 demoT 2).map originOf = .ok ⟨0, 0, 0⟩ ∧
    (node.local_to_world demoTrig 3 demoTB 2).map originOf = .ok ⟨-2, 0, 0⟩ ∧
    (node.local_to_world demoTrig 3 demoT 3).map originOf = .ok ⟨0, 0, 0⟩ ∧
    (node.local_to_world demoTrig 3 demoTC 3).map originOf = .ok ⟨-1, 0, 0⟩ :=
  ⟨by decide, by decide, by decide, rfl, rfl, rfl, rfl, rfl, rfl⟩

/-- Claim C14, amended.  For a node `n` of a well-formed scene with an
untransformed root and a direction `d`, `n.push_it(d)` completes once the step
budget reaches the height of the tree, always with the same store.  It adds
`n.world_to_local(d, 0)` to the translate component of `n` and writes nothing
else: rotate, scale, links and payload of `n` and every other node are as
before.  When `n` is not the root, the world matrix of its parent is
unchanged and the world position of `n` moves by the increment transformed as
a direction by the world matrix of the parent. -/
theorem push_it_displacement {F D : Type} [CommRing F] [DecidableEq F] (T : trig F)
    {h : Heap F D} {scene : Nat} {t : OTree} (hw : WellFormed h scene t)
    (hroot : localOf T h scene = 1) {n : Nat} (hn : n ∈ t.pre) (d : vec3 F) :
    ∃ nn M v h', load h n = some nn ∧
      (∀ f, node.local_to_world T (f + t.height) h n = .ok M) ∧
      v = vec4.xyz (M.mulVec (d.withW 0)) ∧
      (∀ f, node.world_to_local T (f + t.height) h n d 0 = .ok v) ∧
      (∀ f, node.push_it T (f + t.height) h n d = .ok h') ∧
      (∀ fuel h'', node.push_it T fuel h n d = .ok h'' → h'' = h') ∧
      load h' n = some { nn with _transform := { nn._transform with
        _translate := nn._transform._translate.add v } } ∧
      (∀ a, a ≠ n → load h' a = load h a) ∧ h'.length = h.length ∧
      (n ≠ scene →
        ∃ p P M', nn._parent_node = some p ∧
          (∀ f, node.local_to_world T (f + t.height) h p = .ok P) ∧
          (∀ f, node.local_to_world T (f + t.height) h' p = .ok P) ∧
          (∀ f, node.local_to_world T (f + t.height) h' n = .ok M') ∧
          (originOf M').sub (originOf M) = vec4.xyz (P.mulVec (v.withW 0))) := by
  obtain ⟨nn, hl⟩ := realizes_live hw.2.1 hn
  have eM := fun f => local_to_world_tree T hw hroot hn f
  have key : ∃ h' : Heap F D,
      (∀ f, node.push_it T (f + t.height) h n d = .ok h') ∧
      (∀ fuel h'', node.push_it T fuel h n d = .ok h'' → h'' = h') ∧
      load h' n = some { nn with _transform := { nn._transform with
        _translate := nn._transform._translate.add
          (vec4.xyz ((((OTree.pathTo n t).map (localOf T h)).prod).mulVec (d.withW 0))) } } ∧
      (∀ a, a ≠ n → load h' a = load h a) ∧ h'.length = h.length ∧ SameLinks h h' := by
    refine ⟨_, ?_, ?_, load_store_same _ hl, fun a ha => load_store_ne _ _ (Ne.symm ha),
      store_length _ _ _, SameLinks.of_store hl rfl⟩
    · intro f
      rw [push_it_eq T _ hl, eM f]
      rfl
    · intro fuel h'' e
      rw [push_it_eq T fuel hl] at e
      cases e0 : node.local_to_world T fuel h n with
      | error x => rw [e0] at e; cases e
      | ok M0 =>
        rw [e0] at e
        simp only [Except.map, Except.ok.injEq] at e
        rw [← e, local_to_world_unique T e0 (eM 0)]
  obtain ⟨h', hpush, huniq, hl', hframe, hlen, hs⟩ := key
  refine ⟨nn, _, _, h', hl, eM, rfl, ?_, hpush, huniq, hl', hframe, hlen, ?_⟩
  · intro f
    simp [node.world_to_local, eM f]
  · intro hne
    have hw' := wellFormed_sameLinks hs hw
    have hroot' : localOf T h' scene = 1 := by
      rw [← hroot]
      simp only [localOf, hframe scene (Ne.symm hne)]
    cases hp : nn._parent_node with
    | none =>
      exfalso
      have hx := hn
      rw [OTree.pre_eq, hw.1] at hx
      rcases List.mem_cons.1 hx with e | hx
      · exact hne e
      · obtain ⟨s', hs', k, hk, hka⟩ := parent_in_tree t n hx
        obtain ⟨q', hq'⟩ := realizes_sub t none hw.2.1 s' hs'
        obtain ⟨m, hm, hmp, _⟩ := realizes_load (realizes_kids hq' k hk)
        rw [hka, hl] at hm
        cases hm
        rw [hp] at hmp
        cases hmp
    | some p =>
      obtain ⟨hpt, hnp⟩ := parent_not_on_path hw hn hl hp
      have a1 := fun f => local_to_world_parent T hw hroot hn hl hp f
      have a2 := fun f => local_to_world_parent T hw' hroot' hn hl' hp f
      have hsame : ((OTree.pathTo p t).map (localOf T h')).prod
          = ((OTree.pathTo p t).map (localOf T h)).prod := by
        congr 1
        apply List.map_congr_left
        intro a ha
        have hne' : a ≠ n := fun e => hnp (e ▸ ha)
        simp only [localOf, hframe a hne']
      have hM : ((OTree.pathTo n t).map (localOf T h)).prod
          = ((OTree.pathTo p t).map (localOf T h)).prod * localMatrix T nn._transform :=
        local_to_world_unique T (eM 0) (a1 0).2
      refine ⟨p, _, _, rfl, fun f => (a1 f).1, ?_, fun f => (a2 f).2, ?_⟩
      · intro f
        rw [(a2 f).1, hsame]
      · rw [hsame, hM]
        exact origin_shift T _ nn._transform _

theorem push_it_displacement_witness :
    WellFormed demoT 0 demoTree ∧ localOf demoTrig demoT 0 = 1 ∧ 2 ∈ demoTree.pre ∧
    (∃ nn M v h', load demoT 2 = some nn ∧
      (∀ f, node.local_to_world demoTrig (f + demoTree.height) demoT 2 = .ok M) ∧
      v = vec4.xyz (M.mulVec ((⟨1, 0, 0⟩ : vec3 Int).withW 0)) ∧
      (∀ f, node.world_to_local demoTrig (f + demoTree.height) demoT 2 ⟨1, 0, 0⟩ 0 = .ok v) ∧
      (∀ f, node.push_it demoTrig (f + demoTree.height) demoT 2 ⟨1, 0, 0⟩ = .ok h') ∧
      (∀ fuel h'', node.push_it demoTrig fuel demoT 2 ⟨1, 0, 0⟩ = .ok h'' → h'' = h') ∧
      load h' 2 = some { nn with _transform := { nn._transform with
        _translate := nn._transform._translate.add v } } ∧
      (∀ a, a ≠ 2 → load h' a = load demoT a) ∧ h'.length = demoT.length ∧
      ((2 : Nat) ≠ 0 →
        ∃ p P M', nn._parent_node = some p ∧
          (∀ f, node.local_to_world demoTrig (f + demoTree.height) demoT p = .ok P) ∧
          (∀ f, node.local_to_world demoTrig (f + demoTree.height) h' p = .ok P) ∧
          (∀ f, node.local_to_world demoTrig (f + demoTree.height) h' 2 = .ok M') ∧
          (originOf M').sub (originOf M) = vec4.xyz (P.mulVec (v.withW 0)))) ∧
    (2 : Nat) ≠ 0 ∧
    node.push_it demoTrig 3 demoT 2 ⟨1, 0, 0⟩ = .ok demoTB ∧
    (load demoTB 2).map (fun n => n._transform)
      = some ⟨⟨0, 3, 0⟩, ⟨0, 0, 0⟩, ⟨2, 2, 2⟩⟩ :=
  ⟨demoT_wellFormed, (mat4.eq_iff _ _).1 (by decide), by decide,
    push_it_displacement demoTrig demoT_wellFormed ((mat4.eq_iff _ _).1 (by decide))
      (by decide) ⟨1, 0, 0⟩,
    by decide, rfl, by decide⟩

/-- Claim C13, as stated, fails.  On the new scene `demo0` the call
`root.push_it((1, 0, 0))` completes and leaves the root with translate
(1, 0, 0): its local matrix is the translation by (1, 0, 0), and
`root.local_to_world()` then stops at the check that the root is untransformed
instead of returning the identity matrix. -/
theorem push_it_moves_root :
    RootIdentity demo0 0 ∧
    runOps demoTrig demo0 [(1, Op.push_it 0 ⟨1, 0, 0⟩)] = .ok demoPushed ∧
    (load demoPushed 0).map (fun n => n._transform)
      = some ⟨⟨1, 0, 0⟩, ⟨0, 0, 0⟩, ⟨1, 1, 1⟩⟩ ∧
    mat4.rows (localOf demoTrig demoPushed 0)
      = [[1, 0, 0, 1], [0, 1, 0, 0], [0, 0, 1, 0], [0, 0, 0, 1]] ∧
    node.local_to_world demoTrig 1 demoPushed 0 = .error .assume ∧
    ∀ f M, node.local_to_world demoTrig f demoPushed 0 ≠ .ok M := by
  refine ⟨rootIdentity_ctor 0, rfl, by decide, by decide, rfl, ?_⟩
  intro f M
  cases f with
  | zero => simp [node.local_to_world]
  | succ f =>
    have hl : load demoPushed 0
        = some ({ node.ctor 0 none 0 with
            _transform := ⟨⟨1, 0, 0⟩, ⟨0, 0, 0⟩, ⟨1, 1, 1⟩⟩ } : node Int Int) := rfl
    rw [local_to_world_root demoTrig f hl rfl, if_neg]
    · simp
    · intro e
      have := congrArg (fun m : mat4 Int => m 0 3) e
      revert this
      decide

/-- Claim C13, amended.  The root of a newly constructed scene is untransformed;
and from any state in which the root is untransformed, every sequence of
calls of `append(args...)`, `append(node&)`, `remove()` and `push_it(direction)`
on any nodes that completes, and in which `push_it` is never called on the
root, leaves the root without parent and with the triple translate 0, rotate
0, scale 1, so that `root.local_to_world()` returns the identity matrix (the
cosine and the sine of the angle 0 being 1 and 0). -/
theorem root_stays_identity {F D : Type} [CommRing F] [DecidableEq F] (T : trig F)
    (hc : T.cos 0 = 1) (hs : T.sin 0 = 0) {h h' : Heap F D} {scene : Nat}
    (hq : RootIdentity h scene) (ops : List (Nat × Op F D))
    (hno : ∀ fuel d, (fuel, Op.push_it scene d) ∉ ops) (hrun : runOps T h ops = .ok h') :
    (∀ args : D, RootIdentity (skene.ctor ([] : Heap F D) args).1
        (skene.ctor ([] : Heap F D) args).2 ∧
      ∀ f, node.local_to_world T (f + 1) (skene.ctor ([] : Heap F D) args).1
        (skene.ctor ([] : Heap F D) args).2 = .ok 1) ∧
    (∀ f, node.local_to_world T (f + 1) h scene = .ok 1) ∧
    RootIdentity h' scene ∧
    (∃ n, load h' scene = some n ∧ n._parent_node = none ∧
      n._transform = ⟨vec3.splat 0, vec3.splat 0, vec3.splat 1⟩) ∧
    ∀ f, node.local_to_world T (f + 1) h' scene = .ok 1 := by
  have hq' := rootIdentity_runOps T ops h h' hq hno hrun
  exact ⟨fun args => ⟨rootIdentity_ctor args,
      rootIdentity_local_to_world T hc hs (rootIdentity_ctor args)⟩,
    rootIdentity_local_to_world T hc hs hq, hq', hq'.1,
    rootIdentity_local_to_world T hc hs hq'⟩

theorem root_stays_identity_witness :
    RootIdentity demo 0 ∧
    (∀ fuel d, (fuel, Op.push_it 0 d) ∉
      [(3, Op.push_it 2 (⟨1, 0, 0⟩ : vec3 Int)), (3, (Op.append 0 2 : Op Int Int)),
        (3, Op.remove 3)]) ∧
    runOps demoTrig demo
      [(3, Op.push_it 2 ⟨1, 0, 0⟩), (3, Op.append 0 2), (3, Op.remove 3)] = .ok demoRun ∧
    ((∀ args : Int, RootIdentity (skene.ctor ([] : Heap Int Int) args).1
        (skene.ctor ([] : Heap Int Int) args).2 ∧
      ∀ f, node.local_to_world demoTrig (f + 1) (skene.ctor ([] : Heap Int Int) args).1
        (skene.ctor ([] : Heap Int Int) args).2 = .ok 1) ∧
    (∀ f, node.local_to_world demoTrig (f + 1) demo 0 = .ok 1) ∧
    RootIdentity demoRun 0 ∧
    (∃ n, load demoRun 0 = some n ∧ n._parent_node = none ∧
      n._transform = ⟨vec3.splat 0, vec3.splat 0, vec3.splat 1⟩) ∧
    ∀ f, node.local_to_world demoTrig (f + 1) demoRun 0 = .ok 1) ∧
    demoRun.map (Option.map (fun n => (n._children, n._transform._translate)))
      = [some ([1, 2], ⟨0, 0, 0⟩), some ([], ⟨0, 0, 0⟩), some ([], ⟨1, 0, 0⟩), none] :=
  ⟨demo_rootIdentity, by simp, rfl,
    root_stays_identity demoTrig rfl rfl demo_rootIdentity
      [(3, Op.push_it 2 ⟨1, 0, 0⟩), (3, Op.append 0 2), (3, Op.remove 3)] (by simp) rfl,
    by decide⟩

/-- Claim C15, as stated, fails.  In the scenario `B.remove()` completes: A
keeps the child C and the storage of B is released, the list having owned the
element it erased.  A second `B.remove()` has no object to act on and does not
produce a state. -/
theorem remove_twice :
    node.remove 3 demo 2 = .ok demoRemoved ∧
    demoRemoved.map (Option.map (fun n => n._children)) = [some [1], some [3], none, some []] ∧
    load demoRemoved 2 = none ∧
    node.remove 3 demoRemoved 2 = .error .wild :=
  ⟨rfl, by decide, rfl, rfl⟩

/-- Claim C15, amended.  For a node `n` other than the root of a well-formed
scene that has no children, `n.remove()` completes.  It deletes `n` from the
child sequence of its parent, the other children keeping their order, and
ends the lifetime of `n`, the sequence owning its elements; all other nodes
are untouched and the scene is well-formed on the tree without `n`.  The
detach attempt of the destructor finds `n` already out of the sequence and
does nothing, as does `remove()` on any node that is not in the sequence of
its parent.  After the call there is no `n` left for a second `remove()`. -/
theorem remove_detaches {F D : Type} {h : Heap F D} {scene : Nat} {t : OTree}
    (hw : WellFormed h scene t) {n : Nat} (hn : n ∈ t.pre) (hne : n ≠ scene)
    (hleaf : ∀ nn, load h n = some nn → nn._children = []) :
    ∃ p nn np h', load h n = some nn ∧ nn._parent_node = some p ∧ load h p = some np ∧
      n ∈ np._children ∧
      (∀ f, node.remove (f + 1) h n = .ok h') ∧
      load h' p = some { np with _children := np._children.erase n } ∧
      np._children.erase n = np._children.filter (fun x => decide (x ≠ n)) ∧
      load h' n = none ∧
      (∀ x, x ≠ n → x ≠ p → load h' x = load h x) ∧
      h'.length = h.length ∧
      WellFormed h' scene (OTree.prune n t) ∧
      t.pre.Perm ((OTree.prune n t).pre ++ [n]) ∧
      (∀ (g : Nat) (nn' : node F D) (h0 : Heap F D), load h0 n = some nn' → nn'._children = [] →
        (∃ np0, load h0 p = some np0 ∧ n ∉ np0._children) → nn'._parent_node = some p →
        node.dtor (g + 1) h0 n = .ok h0) ∧
      (∀ g, node.remove g h' n = .error .wild) ∧
      ∀ (g : Nat) (h0 : Heap F D) (m q : Nat) (nm nq : node F D), load h0 m = some nm →
        nm._parent_node = some q → load h0 q = some nq → m ∉ nq._children →
        node.remove g h0 m = .ok h0 := by
  obtain ⟨haddr, hr, hnd, hcov⟩ := hw
  have hx : n ∈ preList t.kids := by
    rw [OTree.pre_eq, haddr] at hn
    exact (List.mem_cons.1 hn).resolve_left hne
  obtain ⟨sP, hsP, kB, hkB, hka⟩ := parent_in_tree t n hx
  obtain ⟨q, hq⟩ := realizes_sub t none hr sP hsP
  have hrk : Realizes h (some sP.addr) kB := realizes_kids hq kB hkB
  have hnP : sP.pre.Nodup := List.Nodup.sublist (subtree_pre_sublist t sP hsP) hnd
  have hkt : kB ∈ t.subtrees :=
    subtrees_trans t sP hsP kB (by
      rw [OTree.subtrees_eq]
      exact List.mem_cons_of_mem _ (kid_mem_subtrees hkB))
  have hks : kB ∈ subtreesList t.kids := by
    rw [OTree.subtrees_eq] at hkt
    rcases List.mem_cons.1 hkt with e | hkt
    · exfalso
      rw [e, haddr] at hka
      exact hne hka.symm
    · exact hkt
  obtain ⟨nP, hlP, _, hcP⟩ := realizes_load hq
  obtain ⟨nB, hlB, hpB, hcB⟩ := realizes_load hrk
  rw [hka] at hlB
  have hpre : kB.pre = [n] := by
    have h1 := hleaf nB hlB
    rw [hcB] at h1
    rw [OTree.pre_eq, hka, List.map_eq_nil_iff.1 h1]
    simp [preList]
  have hmem : n ∈ nP._children := by
    rw [hcP, ← hka]
    exact List.mem_map_of_mem _ hkB
  have hcn : nP._children.Nodup := by
    rw [hcP]
    exact List.Nodup.sublist (roots_sublist _) (OTree.kids_nodup hnP)
  have hPn : sP.addr ≠ n := fun e =>
    OTree.addr_not_mem_kids hnP (mem_preList.2 ⟨kB, hkB, by rw [e, hpre]; simp⟩)
  have hl0P : load (store h sP.addr { nP with _children := nP._children.erase n }) sP.addr
      = some { nP with _children := nP._children.erase n } := load_store_same _ hlP
  have h0other : ∀ x, x ≠ sP.addr →
      load (store h sP.addr { nP with _children := nP._children.erase n }) x = load h x :=
    fun x hxP => load_store_ne _ _ (Ne.symm hxP)
  have hgone : load (free (store h sP.addr { nP with _children := nP._children.erase n }) n)
      n = none := load_free_same _ _
  have hkeep : ∀ x, x ≠ n →
      load (free (store h sP.addr { nP with _children := nP._children.erase n }) n) x
        = load (store h sP.addr { nP with _children := nP._children.erase n }) x :=
    fun x hxn => load_free_ne _ (Ne.symm hxn)
  have hperm : t.pre.Perm ((OTree.prune n t).pre ++ [n]) := by
    have := OTree.prune_perm n kB t hnd hks hka
    rw [hpre] at this
    exact this
  have hnd2 : ((OTree.prune n t).pre ++ [n]).Nodup := (List.Perm.nodup_iff hperm).1 hnd
  obtain ⟨hnp, _, hdis⟩ := List.nodup_append.1 hnd2
  have hnot : n ∉ (OTree.prune n t).pre := fun hm => hdis hm (List.mem_singleton_self n)
  have hsplit : ∀ x, x ≠ n → (x ∈ t.pre ↔ x ∈ (OTree.prune n t).pre) := by
    intro x hxn
    rw [List.Perm.mem_iff hperm, List.mem_append, List.mem_singleton]
    exact ⟨fun hm => hm.resolve_right hxn, Or.inl⟩
  have hrp : Realizes (store h sP.addr { nP with _children := nP._children.erase n }) none
      (OTree.prune n t) :=
    realizes_prune n sP.addr ⟨nB, hlB, hpB⟩
      (fun m hm => by
        rw [hlP] at hm
        cases hm
        exact ⟨_, hl0P, rfl, rfl⟩)
      t hnd (fun x _ hxP => by rw [h0other x hxP]) none hr
  have hw' : WellFormed
      (free (store h sP.addr { nP with _children := nP._children.erase n }) n) scene
      (OTree.prune n t) := by
    refine ⟨by rw [OTree.prune_addr]; exact haddr, ?_, hnp, ?_⟩
    · exact realizes_local _
        (fun x hxp => by rw [hkeep x (fun e => hnot (e ▸ hxp))]) _ hrp
    · intro a m hm
      have han : a ≠ n := by
        intro e
        rw [e, hgone] at hm
        cases hm
      rw [hkeep a han] at hm
      rw [← hsplit a han]
      by_cases haP : a = sP.addr
      · rw [haP, hl0P] at hm
        cases hm
        rw [haP]
        exact hcov sP.addr nP hlP
      · rw [h0other a haP] at hm
        exact hcov a m hm
  have hfilter : nP._children.erase n = nP._children.filter (fun x => decide (x ≠ n)) := by
    rw [hcn.erase_eq_filter]
    apply List.filter_congr
    intro y _
    by_cases hy : y = n
    · simp [hy]
    · simp [hy]
  refine ⟨sP.addr, nB, nP, _, hlB, hpB, hlP, hmem, ?_, ?_, hfilter, hgone, ?_, ?_, hw',
    hperm, ?_, ?_, ?_⟩
  · intro f
    exact remove_leaf f hlB (hleaf nB hlB) hpB hlP hmem hcn hPn
  · rw [hkeep _ hPn]
    exact hl0P
  · intro x hxn hxP
    rw [hkeep x hxn, h0other x hxP]
  · rw [free_length, store_length]
  · intro g nn' h0 h1 h2 h3 h4
    exact dtor_leaf g h1 h2 (fun p' hp' => by
      rw [h4] at hp'
      cases hp'
      exact h3)
  · intro g
    exact remove_gone g hgone
  · intro g h0 m q nm nq h1 h2' h3 h4
    exact remove_absent g h1 h2' h3 h4

theorem remove_detaches_witness :
    WellFormed demo 0 demoTree ∧ 3 ∈ demoTree.pre ∧ (3 : Nat) ≠ 0 ∧
    (∀ nn, load demo 3 = some nn → nn._children = []) ∧
    (∃ p nn np h', load demo 3 = some nn ∧ nn._parent_node = some p ∧
      load demo p = some np ∧ 3 ∈ np._children ∧
      (∀ f, node.remove (f + 1) demo 3 = .ok h') ∧
      load h' p = some { np with _children := np._children.erase 3 } ∧
      np._children.erase 3 = np._children.filter (fun x => decide (x ≠ 3)) ∧
      load h' 3 = none ∧
      (∀ x, x ≠ 3 → x ≠ p → load h' x = load demo x) ∧
      h'.length = demo.length ∧
      WellFormed h' 0 (OTree.prune 3 demoTree) ∧
      demoTree.pre.Perm ((OTree.prune 3 demoTree).pre ++ [3]) ∧
      (∀ (g : Nat) (nn' : node Int Int) (h0 : Heap Int Int), load h0 3 = some nn' →
        nn'._children = [] →
        (∃ np0, load h0 p = some np0 ∧ 3 ∉ np0._children) → nn'._parent_node = some p →
        node.dtor (g + 1) h0 3 = .ok h0) ∧
      (∀ g, node.remove g h' 3 = .error .wild) ∧
      ∀ (g : Nat) (h0 : Heap Int Int) (m q : Nat) (nm nq : node Int Int),
        load h0 m = some nm → nm._parent_node = some q → load h0 q = some nq →
        m ∉ nq._children → node.remove g h0 m = .ok h0) ∧
    (node.remove 1 demo 3).map (fun h' => h'.map (Option.map (fun n => n._children)))
      = .ok [some [1], some [2], some [], none] ∧
    (OTree.prune 3 demoTree).pre = [0, 1, 2] :=
  ⟨demo_wellFormed, by decide, by decide,
    fun nn hl => by
      cases hl
      rfl,
    remove_detaches demo_wellFormed (by decide) (by decide)
      (fun nn hl => by
        cases hl
        rfl),
    rfl, by decide⟩

end Skene

namespace Pal

/-! ## Adler-32 -/

theorem charlist_sum_eq_loop : ∀ (s : List Nat) (a b : Nat), (∀ c, c ∈ s → c ≠ 0) →
    charlist.sum s a b = adlerLoop (s ++ [0]) a b := by
  intro s
  induction s with
  | nil =>
    intro a b _
    simp [charlist.sum, adlerLoop]
  | cons c s ih =>
    intro a b hs
    have hc : c ≠ 0 := hs c (by simp)
    simp only [charlist.sum, List.cons_append, adlerLoop, hc, if_false]
    exact ih _ _ (fun x hx => hs x (by simp [hx]))

theorem charlist_sum_eq_fold : ∀ (s : List Nat) (a b : Nat), (∀ c, c ∈ s → c < 128) →
    a < 65521 → b < 65521 →
    charlist.sum s a b =
      ((s.foldl (fun (ab : Nat × Nat) c =>
          ((ab.1 + c) % 65521, (ab.2 + (ab.1 + c) % 65521) % 65521)) (a, b)).2 <<< 16) |||
        (s.foldl (fun (ab : Nat × Nat) c =>
          ((ab.1 + c) % 65521, (ab.2 + (ab.1 + c) % 65521) % 65521)) (a, b)).1 := by
  intro s
  induction s with
  | nil =>
    intro a b _ _ hb
    simp only [charlist.sum, List.foldl_nil]
    rw [Nat.mod_eq_of_lt]
    rw [Nat.shiftLeft_eq]
    omega
  | cons c s ih =>
    intro a b hs ha hb
    have hc : c < 128 := hs c (by simp)
    have h1 : (a + c) % 2 ^ 32 = a + c := Nat.mod_eq_of_lt (by omega)
    have h2 : (b + (a + c) % 65521) % 2 ^ 32 = b + (a + c) % 65521 :=
      Nat.mod_eq_of_lt (by omega)
    simp only [charlist.sum, List.foldl_cons, h1, h2]
    exact ih _ _ (fun x hx => hs x (by simp [hx])) (Nat.mod_lt _ (by norm_num))
      (Nat.mod_lt _ (by norm_num))

/-- C16: the compile-time and the run-time Adler-32 agree.  For every string
`s` of non-NUL 7-bit characters, `charlist<s...>::sum<>::val` (template
arguments `a = 1`, `b = 0`) equals `pal_adler32::fun(s)`, and both are
`(b << 16) | a` with `a` and `b` accumulated modulo 65521 from `a = 1`,
`b = 0`. -/
theorem adler32_agree (s : List Nat) (hs : ∀ c, c ∈ s → c ≠ 0 ∧ c < 128) :
    charlist.sum s 1 0 = pal_adler32_fun_ (s ++ [0]) ∧
    charlist.sum s 1 0 = adlerSpec s ∧ pal_adler32_fun_ (s ++ [0]) = adlerSpec s := by
  have h1 := charlist_sum_eq_loop s 1 0 (fun c hc => (hs c hc).1)
  have h2 := charlist_sum_eq_fold s 1 0 (fun c hc => (hs c hc).2) (by norm_num) (by norm_num)
  refine ⟨h1, h2, ?_⟩
  unfold pal_adler32_fun_
  rw [← h1]
  exact h2

theorem adler32_agree_witness :
    (∀ c, c ∈ Wikipedia → c ≠ 0 ∧ c < 128) ∧
    (charlist.sum Wikipedia 1 0 = pal_adler32_fun_ (Wikipedia ++ [0]) ∧
      charlist.sum Wikipedia 1 0 = adlerSpec Wikipedia ∧
      pal_adler32_fun_ (Wikipedia ++ [0]) = adlerSpec Wikipedia) ∧
    charlist.sum Wikipedia 1 0 = 0x11E60398 ∧
    pal_adler32_fun_ (Wikipedia ++ [0]) = 0x11E60398 :=
  ⟨by decide, adler32_agree Wikipedia (by decide), by decide, by decide⟩

/-! ## charlist::str -/

theorem cpy_overrun : ∀ (cs mem : List Nat) (out : Nat), mem.length < out + charlist.len cs + 1 →
    charlist.cpy cs mem out = none := by
  intro cs
  induction cs with
  | nil =>
    intro mem out h
    simp only [charlist.len] at h
    simp only [charlist.cpy]
    rw [if_neg (by omega)]
  | cons c cs ih =>
    intro mem out h
    simp only [charlist.len] at h
    simp only [charlist.cpy]
    by_cases hlt : out < mem.length
    · rw [if_pos hlt]
      apply ih
      rw [List.length_set]
      omega
    · rw [if_neg hlt]

theorem cpy_roomy (x : Nat) : ∀ (cs done : List Nat),
    charlist.cpy cs (done ++ List.replicate (charlist.len cs + 1) x) done.length
      = some (done ++ cs ++ [0]) := by
  intro cs
  induction cs with
  | nil =>
    intro done
    simp [charlist.cpy, charlist.len]
  | cons c cs ih =>
    intro done
    have hlt : done.length < (done ++ List.replicate (charlist.len (c :: cs) + 1) x).length := by
      simp
    simp only [charlist.cpy, if_pos hlt]
    have hset : (done ++ List.replicate (charlist.len (c :: cs) + 1) x).set done.length c
        = (done ++ [c]) ++ List.replicate (charlist.len cs + 1) x := by
      have e : charlist.len (c :: cs) + 1 = (charlist.len cs + 1) + 1 := by
        simp only [charlist.len]
        omega
      rw [e, List.replicate_succ]
      simp [List.set_append]
    rw [hset]
    have := ih (done ++ [c])
    simp only [List.length_append, List.length_singleton] at this
    rw [this]
    simp

theorem cpyWrites_mem : ∀ (cs : List Nat) (out : Nat),
    out + charlist.len cs ∈ charlist.cpyWrites cs out := by
  intro cs
  induction cs with
  | nil =>
    intro out
    simp [charlist.cpyWrites, charlist.len]
  | cons c cs ih =>
    intro out
    simp only [charlist.cpyWrites, charlist.len, List.mem_cons]
    right
    have := ih (out + 1)
    rwa [show out + (1 + charlist.len cs) = out + 1 + charlist.len cs by omega]

/-- C17: for the nine characters of "Wikipedia", `charlist<...>::str()` copies
into an array of `len = 9` characters; `cpy` writes the nine characters and
then the terminating NUL at index 9, outside the array, so the call has no
defined result.  With one more element the same `cpy` yields "Wikipedia"
followed by NUL. -/
theorem charlist_str_Wikipedia :
    charlist.len Wikipedia = 9 ∧ charlist.str Wikipedia = none ∧
    charlist.cpy Wikipedia (List.replicate (charlist.len Wikipedia + 1) 0) 0
      = some (Wikipedia ++ [0]) :=
  ⟨by decide, by decide, by decide⟩

/-- C20: for every non-empty character list, `cpy` called by `str()` writes at
index `len`, which is not below the size `len` of `mem`: not all write indices
fall inside the buffer, and `str()` has no defined result. -/
theorem charlist_str_overrun (head : Nat) (tail : List Nat) :
    charlist.len (head :: tail) ∈ charlist.cpyWrites (head :: tail) 0 ∧
    ¬ (∀ i, i ∈ charlist.cpyWrites (head :: tail) 0 → i < charlist.len (head :: tail)) ∧
    charlist.str (head :: tail) = none := by
  have hmem := cpyWrites_mem (head :: tail) 0
  rw [Nat.zero_add] at hmem
  refine ⟨hmem, fun hall => Nat.lt_irrefl _ (hall _ hmem), ?_⟩
  simp only [charlist.str]
  apply cpy_overrun
  simp

/-! ## Hexadecimal round trip -/

theorem nib (v k : Nat) : (v >>> k) &&& 15 = v / 2 ^ k % 16 := by
  rw [Nat.shiftRight_eq_div_pow, show (15 : Nat) = 2 ^ 4 - 1 by norm_num,
    Nat.and_pow_two_sub_one_eq_mod]

theorem nib_zero (v : Nat) : v &&& 15 = v % 16 := by
  rw [show (15 : Nat) = 2 ^ 4 - 1 by norm_num, Nat.and_pow_two_sub_one_eq_mod]

theorem hexDigit_ne_zero (d : Nat) : hexDigit d ≠ 0 := by
  unfold hexDigit
  split <;> omega

theorem hexDigit_range {d : Nat} (hd : d < 16) :
    (48 ≤ hexDigit d ∧ hexDigit d ≤ 57) ∨ (97 ≤ hexDigit d ∧ hexDigit d ≤ 102) := by
  unfold hexDigit
  split <;> omega

theorem hex_step {d : Nat} (hd : d < 16) (value : Nat) (hv : value * 16 + d < 2 ^ 64) :
    (((((value <<< 4) % 2 ^ 64 : Nat) : Int)
      + (if 48 ≤ hexDigit d ∧ hexDigit d ≤ 57 then (hexDigit d : Int) - 48
          else ((hexDigit d : Int) - 97) + 10)) % 2 ^ 64).toNat = value * 16 + d := by
  have h1 : (value <<< 4) % 2 ^ 64 = value * 16 := by
    rw [Nat.shiftLeft_eq]
    exact Nat.mod_eq_of_lt (by omega)
  rw [h1]
  have h2 : (if 48 ≤ hexDigit d ∧ hexDigit d ≤ 57 then (hexDigit d : Int) - 48
      else ((hexDigit d : Int) - 97) + 10) = (d : Int) := by
    unfold hexDigit
    by_cases h9 : d ≤ 9
    · rw [if_pos h9, if_pos (by omega)]
      push_cast
      omega
    · rw [if_neg h9, if_neg (by omega)]
      push_cast
      omega
  rw [h2]
  omega

theorem loop_nibbles (v : Nat) : ∀ (n value : Nat), value * 16 ^ n + v % 16 ^ n < 2 ^ 64 →
    hex_to_u64.loop ((nibblesMSB v n).map hexDigit ++ [0]) value
      = value * 16 ^ n + v % 16 ^ n := by
  intro n
  induction n with
  | zero =>
    intro value _
    simp [nibblesMSB, hex_to_u64.loop, Nat.mod_one]
  | succ n ih =>
    intro value hv
    have hd : v / 16 ^ n % 16 < 16 := Nat.mod_lt _ (by norm_num)
    have hmod : v % 16 ^ (n + 1) = v % 16 ^ n + 16 ^ n * (v / 16 ^ n % 16) := Nat.mod_pow_succ
    have hpos : 0 < 16 ^ n := pow_pos (by norm_num) n
    have hexp : value * 16 ^ (n + 1) + v % 16 ^ (n + 1)
        = (value * 16 + v / 16 ^ n % 16) * 16 ^ n + v % 16 ^ n := by
      rw [hmod, pow_succ]
      ring
    rw [hexp] at hv ⊢
    have hle : value * 16 + v / 16 ^ n % 16 ≤ (value * 16 + v / 16 ^ n % 16) * 16 ^ n :=
      Nat.le_mul_of_pos_right _ hpos
    simp only [nibblesMSB, List.map_cons, List.cons_append, hex_to_u64.loop,
      hexDigit_ne_zero, if_false]
    rw [hex_step hd value (by omega)]
    exact ih _ hv

theorem skipZeros_decode : ∀ l : List Nat, hex_to_u64 (skipZeros l) = hex_to_u64 l := by
  intro l
  induction l with
  | nil => rfl
  | cons c rest ih =>
    cases rest with
    | nil => rfl
    | cons d rest =>
      simp only [skipZeros]
      by_cases h : c = 48 ∧ d ≠ 0
      · rw [if_pos h, ih]
        obtain ⟨rfl, _⟩ := h
        simp [hex_to_u64, hex_to_u64.loop]
      · rw [if_neg h]

theorem u64_to_hex_eq (init : List Nat) (v : Nat) (hlen : init.length = 17) :
    u64_to_hex init v = (nibblesMSB v 16).map hexDigit ++ [0] := by
  rcases init with _ | ⟨a0, _ | ⟨a1, _ | ⟨a2, _ | ⟨a3, _ | ⟨a4, _ | ⟨a5, _ | ⟨a6, _ | ⟨a7,
    _ | ⟨a8, _ | ⟨a9, _ | ⟨a10, _ | ⟨a11, _ | ⟨a12, _ | ⟨a13, _ | ⟨a14, _ | ⟨a15,
    _ | ⟨a16, _ | ⟨a17, rest⟩⟩⟩⟩⟩⟩⟩⟩⟩⟩⟩⟩⟩⟩⟩⟩⟩⟩ <;> simp at hlen
  simp [u64_to_hex, u64_to_hex.loop, nibblesMSB, nib, nib_zero, Nat.shiftRight_eq_div_pow]

theorem nibblesMSB_lt (v : Nat) : ∀ n d, d ∈ nibblesMSB v n → d < 16 := by
  intro n
  induction n with
  | zero =>
    intro d hd
    simp [nibblesMSB] at hd
  | succ n ih =>
    intro d hd
    simp only [nibblesMSB, List.mem_cons] at hd
    rcases hd with rfl | hd
    · exact Nat.mod_lt _ (by norm_num)
    · exact ih d hd

/-- C18: hexadecimal round trip.  For every 64-bit value `v`, whatever the
local buffer held before, `pal::u64_to_hex(v)` is the 16 hexadecimal digits of
`v`, most significant first, each in `'0'..'9'` or `'a'..'f'`, followed by NUL;
`pal::hex_to_u64` of that text is `v`, and so is `pal::hex_to_u64` of the text
with its leading `'0'` characters skipped as the debug check does. -/
theorem hex_round_trip (init : List Nat) (v : Nat) (hlen : init.length = 17)
    (hv : v < 2 ^ 64) :
    u64_to_hex init v = (nibblesMSB v 16).map hexDigit ++ [0] ∧
    (∀ j, j < 16 → (u64_to_hex init v)[j]? = some (hexDigit (v / 16 ^ (15 - j) % 16))) ∧
    (u64_to_hex init v)[16]? = some 0 ∧
    (∀ c, c ∈ (nibblesMSB v 16).map hexDigit →
      (48 ≤ c ∧ c ≤ 57) ∨ (97 ≤ c ∧ c ≤ 102)) ∧
    hex_to_u64 (u64_to_hex init v) = v ∧
    hex_to_u64 (skipZeros (u64_to_hex init v)) = v := by
  have heq := u64_to_hex_eq init v hlen
  have hdec : hex_to_u64 (u64_to_hex init v) = v := by
    rw [heq]
    unfold hex_to_u64
    rw [loop_nibbles v 16 0 (by
      have : v % 16 ^ 16 < 16 ^ 16 := Nat.mod_lt _ (by norm_num)
      norm_num at this ⊢
      omega)]
    rw [Nat.zero_mul, Nat.zero_add]
    exact Nat.mod_eq_of_lt (by norm_num at hv ⊢; omega)
  refine ⟨heq, ?_, ?_, ?_, hdec, ?_⟩
  · intro j hj
    rw [heq]
    interval_cases j <;> simp [nibblesMSB]
  · rw [heq]
    simp [nibblesMSB]
  · intro c hc
    obtain ⟨d, hd, rfl⟩ := List.mem_map.1 hc
    exact hexDigit_range (nibblesMSB_lt v 16 d hd)
  · rw [skipZeros_decode]
    exact hdec

theorem hex_round_trip_witness :
    (List.replicate 17 0).length = 17 ∧ 255 < 2 ^ 64 ∧
    (u64_to_hex (List.replicate 17 0) 255 = (nibblesMSB 255 16).map hexDigit ++ [0] ∧
      (∀ j, j < 16 →
        (u64_to_hex (List.replicate 17 0) 255)[j]? = some (hexDigit (255 / 16 ^ (15 - j) % 16))) ∧
      (u64_to_hex (List.replicate 17 0) 255)[16]? = some 0 ∧
      (∀ c, c ∈ (nibblesMSB 255 16).map hexDigit →
        (48 ≤ c ∧ c ≤ 57) ∨ (97 ≤ c ∧ c ≤ 102)) ∧
      hex_to_u64 (u64_to_hex (List.replicate 17 0) 255) = 255 ∧
      hex_to_u64 (skipZeros (u64_to_hex (List.replicate 17 0) 255)) = 255) ∧
    u64_to_hex (List.replicate 17 0) 255
      = [48, 48, 48, 48, 48, 48, 48, 48, 48, 48, 48, 48, 48, 48, 102, 102, 0] ∧
    skipZeros (u64_to_hex (List.replicate 17 0) 255) = [102, 102, 0] :=
  ⟨by decide, by norm_num, hex_round_trip (List.replicate 17 0) 255 (by decide) (by norm_num),
    by decide, by decide⟩

end Pal
